import Mathlib

set_option maxHeartbeats 1000000

/- Shallow embedding of the docusearch repository (Go): the trie package
   (src/unnamed/part_003), the index package (ForwardIndex, src/unnamed/part_005)
   and pkg/storage/storage.go.  Go maps are modelled as association lists kept in
   insertion order: a Go map write keeps a present key's entry in place and
   otherwise adds a fresh entry, and `delete` removes the entry.  Go `float64`
   scores are modelled as real numbers (`math.Log2` becomes `Real.logb 2`),
   the non-negative document counter as `Nat`, and `topK` (a Go `int`) as `Int`.
   Case folding is modelled on the ASCII range, which is the range the
   tokenizer's regexp `\b[a-zA-Z]+\b` and all stored words live in. -/

namespace Docusearch

/-- Go map read: first value stored under the key, if any. -/
def lookupKV {α β : Type} [DecidableEq α] : List (α × β) → α → Option β
  | [], _ => none
  | (k, v) :: rest, a => if k = a then some v else lookupKV rest a

/-- Go map write: replace the value in place if the key is present, else append. -/
def setKV {α β : Type} [DecidableEq α] : List (α × β) → α → β → List (α × β)
  | [], a, b => [(a, b)]
  | (k, v) :: rest, a, b => if k = a then (a, b) :: rest else (k, v) :: setKV rest a b

/-- Go map delete: drop the entry stored under the key. -/
def eraseKV {α β : Type} [DecidableEq α] : List (α × β) → α → List (α × β)
  | [], _ => []
  | (k, v) :: rest, a => if k = a then rest else (k, v) :: eraseKV rest a

/-- Go set-style map (`map[string]bool`) insert: add the element unless present. -/
def insertMem {α : Type} [DecidableEq α] (l : List α) (a : α) : List α :=
  if a ∈ l then l else l ++ [a]

/-- The keys of an association list, in order. -/
def keysOf {α β : Type} (l : List (α × β)) : List α := l.map Prod.fst

/-- ASCII letter, the character class `[a-zA-Z]` of the tokenizer's regexp. -/
def isAsciiLetter (c : Char) : Bool :=
  ('a' ≤ c && c ≤ 'z') || ('A' ≤ c && c ≤ 'Z')

/-- Word character of the Go regexp word boundary `\b`: `[0-9A-Za-z_]`. -/
def isWordChar (c : Char) : Bool :=
  isAsciiLetter c || ('0' ≤ c && c ≤ '9') || c == '_'

/-- ASCII case folding of one character (strings.ToLower on the ASCII range). -/
def asciiLower (c : Char) : Char :=
  if 'A' ≤ c && c ≤ 'Z' then Char.ofNat (c.toNat + 32) else c

/-- ASCII case folding of a string (strings.ToLower on the ASCII range). -/
def lowerStr (s : String) : String := String.mk (s.toList.map asciiLower)

/-- Whitespace for Go's strings.TrimSpace (unicode.IsSpace on ASCII text):
space, tab, newline, vertical tab, form feed, carriage return. -/
def isGoSpace (c : Char) : Bool :=
  c == ' ' || c == '\t' || c == '\n' || c == '\x0b' || c == '\x0c' || c == '\r'

/-- Go strings.TrimSpace on ASCII text: drop leading and trailing whitespace. -/
def trimSpace (s : String) : String :=
  String.mk (((s.toList.dropWhile isGoSpace).reverse.dropWhile isGoSpace).reverse)

/-- Go strings.HasSuffix. -/
def hasSuffix (s suffix : String) : Bool :=
  suffix.toList.isSuffixOf s.toList

/-- Go strings.TrimSuffix: drop one trailing occurrence of the suffix. -/
def trimSuffix (s suffix : String) : String :=
  if hasSuffix s suffix then
    String.mk (s.toList.take (s.toList.length - suffix.toList.length))
  else s

/-- Fuelled worker for `replaceAll`; one unit of fuel is spent per position,
and each step consumes at least one character of a non-empty pattern, so
`length + 1` fuel always suffices. -/
def replaceFuel (pat rep : List Char) : Nat → List Char → List Char
  | 0, s => s
  | _ + 1, [] => []
  | fuel + 1, c :: rest =>
    if pat.isPrefixOf (c :: rest) then
      rep ++ replaceFuel pat rep fuel ((c :: rest).drop pat.length)
    else c :: replaceFuel pat rep fuel rest

/-- Go strings.ReplaceAll: replace the leftmost non-overlapping occurrences of
a (here always non-empty) pattern. -/
def replaceAll (s pat rep : String) : String :=
  if pat = "" then s
  else String.mk (replaceFuel pat.toList rep.toList (s.toList.length + 1) s.toList)

/-- Left-to-right scan collecting the matches of the regexp `\b[a-zA-Z]+\b`.
A match of this regexp is exactly a maximal ASCII letter run whose adjacent
characters, when they exist, are not word characters: the run's own ends are
word characters, so `\b` holds at them exactly under that condition, and no
proper sub-run can satisfy `\b` at an interior letter/letter position.  The
scan carries the emitted matches `acc`, whether the character just before the
current letter run (or before the next one, when not inside a run) allows a
`\b` there (`okL`, true at the start of the text), and the current letter run
reversed (`runRev`). -/
def scanAux : List (List Char) → Bool → List Char → List Char → List (List Char)
  | acc, okL, runRev, [] =>
    acc ++ (if runRev.isEmpty then [] else if okL then [runRev.reverse] else [])
  | acc, okL, runRev, c :: rest =>
    if isAsciiLetter c then scanAux acc okL (c :: runRev) rest
    else
      let acc' := if runRev.isEmpty then acc
        else if okL && !isWordChar c then acc ++ [runRev.reverse] else acc
      scanAux acc' (!isWordChar c) [] rest

/-- All matches of the regexp `\b[a-zA-Z]+\b` in `cs`, in order. -/
def scanTokens (cs : List Char) : List (List Char) := scanAux [] true [] cs

/-- storage.go `tokenizeQuery`: regexp matches of the given text, keeping only
words longer than one character, in match order with duplicates retained. -/
def tokenizeQuery (text : String) : List String :=
  ((scanTokens text.toList).filter (fun w => w.length > 1)).map
    (fun w => String.mk w)

/-- storage.go `tokenize`: lowercase the text, take the regexp matches, and
count the words longer than one character (Go `wordCounts[word]++`). -/
def tokenize (text : String) : List (String × Nat) :=
  ((scanTokens (text.toList.map asciiLower)).filter (fun w => w.length > 1)).foldl
    (fun m w => setKV m (String.mk w) ((lookupKV m (String.mk w)).getD 0 + 1)) []

/-- trie.go `TrieNode`: children keyed by character, end-of-word flag, the
canonical word stored at end-of-word nodes, the posting set
`containingDocuments` and the posting counts `docToWordCount`. -/
inductive TrieNode : Type where
  | mk (children : List (Char × TrieNode)) (isEndOfWord : Bool) (word : String)
      (containingDocuments : List String) (docToWordCount : List (String × Nat)) :
      TrieNode

def TrieNode.children : TrieNode → List (Char × TrieNode)
  | .mk ch _ _ _ _ => ch

def TrieNode.isEndOfWord : TrieNode → Bool
  | .mk _ e _ _ _ => e

def TrieNode.word : TrieNode → String
  | .mk _ _ w _ _ => w

def TrieNode.containingDocuments : TrieNode → List String
  | .mk _ _ _ cd _ => cd

def TrieNode.docToWordCount : TrieNode → List (String × Nat)
  | .mk _ _ _ _ dc => dc

/-- trie.go `NewTrieNode`. -/
def TrieNode.empty : TrieNode := .mk [] false "" [] []

/-- trie.go `findNode` relative to a node, on an explicit character path. -/
def TrieNode.findNode : TrieNode → List Char → Option TrieNode
  | n, [] => some n
  | n, c :: rest =>
    match lookupKV n.children c with
    | some child => child.findNode rest
    | none => none

/-- trie.go `Insert` body: walk the (already lowercased) path, creating missing
children, and mark the terminal node end-of-word carrying the full word `w`. -/
def TrieNode.insertPath : TrieNode → List Char → String → TrieNode
  | n, [], w => .mk n.children true w n.containingDocuments n.docToWordCount
  | n, c :: rest, w =>
    let child := (lookupKV n.children c).getD TrieNode.empty
    .mk (setKV n.children c (child.insertPath rest w)) n.isEndOfWord n.word
      n.containingDocuments n.docToWordCount

/-- Rewrite the node at the end of `p`, if that path exists; otherwise leave
the trie unchanged (the Go pattern `node := findNode(...); if node != nil`
followed by a mutation of `node`). -/
def TrieNode.updateAt : TrieNode → List Char → (TrieNode → TrieNode) → TrieNode
  | n, [], f => f n
  | n, c :: rest, f =>
    match lookupKV n.children c with
    | some child =>
        .mk (setKV n.children c (child.updateAt rest f)) n.isEndOfWord n.word
          n.containingDocuments n.docToWordCount
    | none => n

/-- Like `TrieNode.updateAt` but the rewrite also reports a boolean; a missing
path reports `false`. -/
def TrieNode.updateAtB : TrieNode → List Char → (TrieNode → TrieNode × Bool) →
    TrieNode × Bool
  | n, [], f => f n
  | n, c :: rest, f =>
    match lookupKV n.children c with
    | some child =>
        let r := child.updateAtB rest f
        (.mk (setKV n.children c r.1) n.isEndOfWord n.word
          n.containingDocuments n.docToWordCount, r.2)
    | none => (n, false)

/-- trie.go `collectWords`: the node's own word when it ends a word and its
word string is non-empty, then every descendant's words. -/
def TrieNode.collectWords : TrieNode → List String
  | .mk ch e w _ _ =>
    (if e && w ≠ "" then [w] else []) ++
      (ch.attach.map (fun p => p.1.2.collectWords)).flatten
termination_by n => sizeOf n
decreasing_by
  rename_i p
  obtain ⟨⟨c, m⟩, hm⟩ := p
  have h1 := List.sizeOf_lt_of_mem hm
  simp only [TrieNode.mk.sizeOf_spec]
  simp only [Prod.mk.sizeOf_spec] at h1
  omega

/-- trie.go `collectDocumentsFromNode`: accumulate `docCounts[docID] += count`
over every end-of-word node of the subtree. -/
def TrieNode.collectDocs : TrieNode → List (String × Nat) → List (String × Nat)
  | .mk ch e _ _ dc, acc =>
    let acc1 := if e then
        dc.foldl (fun m p => setKV m p.1 ((lookupKV m p.1).getD 0 + p.2)) acc
      else acc
    ch.attach.foldl (fun a q => q.1.2.collectDocs a) acc1
termination_by n => sizeOf n
decreasing_by
  rename_i q
  obtain ⟨⟨c, m⟩, hm⟩ := q
  have h1 := List.sizeOf_lt_of_mem hm
  simp only [TrieNode.mk.sizeOf_spec]
  simp only [Prod.mk.sizeOf_spec] at h1
  omega

/-- trie.go `removeHelper`: unset the terminal's end-of-word flag and word,
then prune, on the way back up, every child that reports it should be deleted;
a node reports deletion when it has become childless and does not itself end a
word (at the terminal: when it is childless). -/
def TrieNode.removeHelper : TrieNode → List Char → TrieNode × Bool
  | n, [] =>
    if !n.isEndOfWord then (n, false)
    else
      let n' := TrieNode.mk n.children false "" n.containingDocuments n.docToWordCount
      (n', n'.children.isEmpty)
  | n, c :: rest =>
    match lookupKV n.children c with
    | none => (n, false)
    | some child =>
      let r := child.removeHelper rest
      if r.2 then
        let n' := TrieNode.mk (eraseKV n.children c) n.isEndOfWord n.word
          n.containingDocuments n.docToWordCount
        (n', n'.children.isEmpty && !n.isEndOfWord)
      else
        (TrieNode.mk (setKV n.children c r.1) n.isEndOfWord n.word
          n.containingDocuments n.docToWordCount, false)

/-- trie.go `Trie`: a root node. -/
structure Trie where
  root : TrieNode

/-- trie.go `New`. -/
def Trie.new : Trie := ⟨TrieNode.empty⟩

/-- trie.go `Insert` (lowercases its argument). -/
def Trie.insert (t : Trie) (w : String) : Trie :=
  ⟨t.root.insertPath (lowerStr w).toList (lowerStr w)⟩

/-- trie.go `Search`: the (lowercased) path exists and ends at an end-of-word
node. -/
def Trie.search (t : Trie) (w : String) : Bool :=
  match t.root.findNode (lowerStr w).toList with
  | some n => n.isEndOfWord
  | none => false

/-- trie.go `AddDocumentToWord`: if the (lowercased) word's node exists and
ends a word, record the document in the posting set and its count. -/
def Trie.addDocumentToWord (t : Trie) (w docID : String) (count : Nat) : Trie :=
  ⟨t.root.updateAt (lowerStr w).toList (fun m =>
    if m.isEndOfWord then
      .mk m.children m.isEndOfWord m.word (insertMem m.containingDocuments docID)
        (setKV m.docToWordCount docID count)
    else m)⟩

/-- trie.go `RemoveDocumentFromWord`: delete one posting, reporting whether it
existed. -/
def Trie.removeDocumentFromWord (t : Trie) (w docID : String) : Trie × Bool :=
  let r := t.root.updateAtB (lowerStr w).toList (fun m =>
    if m.isEndOfWord ∧ docID ∈ m.containingDocuments then
      (.mk m.children m.isEndOfWord m.word (m.containingDocuments.erase docID)
        (eraseKV m.docToWordCount docID), true)
    else (m, false))
  (⟨r.1⟩, r.2)

/-- trie.go `GetDocumentsForWord`: the posting counts at the word's node, or
empty when the node is missing or not end-of-word. -/
def Trie.getDocumentsForWord (t : Trie) (w : String) : List (String × Nat) :=
  match t.root.findNode (lowerStr w).toList with
  | some n => if n.isEndOfWord then n.docToWordCount else []
  | none => []

/-- trie.go `GetDocumentFrequency`: the size of the posting set. -/
def Trie.getDocumentFrequency (t : Trie) (w : String) : Nat :=
  match t.root.findNode (lowerStr w).toList with
  | some n => if n.isEndOfWord then n.containingDocuments.length else 0
  | none => 0

/-- trie.go `StartsWith`. -/
def Trie.startsWith (t : Trie) (pre : String) : List String :=
  match t.root.findNode (lowerStr pre).toList with
  | some n => n.collectWords
  | none => []

/-- trie.go `GetDocumentsForPrefix`. -/
def Trie.getDocumentsForPrefix (t : Trie) (pre : String) : List (String × Nat) :=
  match t.root.findNode (lowerStr pre).toList with
  | some n => n.collectDocs []
  | none => []

/-- trie.go `GetAllWords`. -/
def Trie.getAllWords (t : Trie) : List String := t.root.collectWords

/-- trie.go `Remove`: only a stored word with an empty posting set is removed;
the returned boolean is what `removeHelper` reports for the root. -/
def Trie.remove (t : Trie) (w : String) : Trie × Bool :=
  match t.root.findNode (lowerStr w).toList with
  | some n =>
    if n.isEndOfWord && n.containingDocuments.isEmpty then
      let r := t.root.removeHelper (lowerStr w).toList
      (⟨r.1⟩, r.2)
    else (t, false)
  | none => (t, false)

/-- trie.go `CleanupEmptyWords`: collect the stored words whose posting set is
empty, then `Remove` each of them in turn. -/
def Trie.cleanupEmptyWords (t : Trie) : Trie :=
  let toRemove := t.getAllWords.filter (fun w =>
    match t.root.findNode w.toList with
    | some n => n.containingDocuments.isEmpty
    | none => false)
  toRemove.foldl (fun acc w => (acc.remove w).1) t

/-- index package `ForwardIndex`: document → word-count vector, document →
total word count. -/
structure ForwardIndex where
  docIDToDocument : List (String × List (String × Nat))
  docIDToDocLength : List (String × Nat)

/-- index package `NewForwardIndex`. -/
def ForwardIndex.new : ForwardIndex := ⟨[], []⟩

/-- The total word count of a word-count vector (the sum Go accumulates while
copying the map in `ForwardIndex.AddDocument`). -/
def sumCounts (wc : List (String × Nat)) : Nat := (wc.map Prod.snd).sum

/-- index package `ForwardIndex.AddDocument`: store a copy of the counts and
their sum as the document length, replacing any prior entry wholesale. -/
def ForwardIndex.addDocument (fi : ForwardIndex) (docID : String)
    (wordCounts : List (String × Nat)) : ForwardIndex :=
  ⟨setKV fi.docIDToDocument docID wordCounts,
   setKV fi.docIDToDocLength docID (sumCounts wordCounts)⟩

/-- index package `ForwardIndex.GetWordCount` (lowercases the word). -/
def ForwardIndex.getWordCount (fi : ForwardIndex) (docID w : String) : Nat :=
  match lookupKV fi.docIDToDocument docID with
  | some doc => (lookupKV doc (lowerStr w)).getD 0
  | none => 0

/-- index package `ForwardIndex.GetDocumentWords` (a copy; empty if absent). -/
def ForwardIndex.getDocumentWords (fi : ForwardIndex) (docID : String) :
    List (String × Nat) :=
  (lookupKV fi.docIDToDocument docID).getD []

/-- index package `ForwardIndex.GetDocumentLength` (zero if absent). -/
def ForwardIndex.getDocumentLength (fi : ForwardIndex) (docID : String) : Nat :=
  (lookupKV fi.docIDToDocLength docID).getD 0

/-- index package `ForwardIndex.RemoveDocument`: delete both entries,
reporting whether the document existed. -/
def ForwardIndex.removeDocument (fi : ForwardIndex) (docID : String) :
    ForwardIndex × Bool :=
  match lookupKV fi.docIDToDocument docID with
  | some _ => (⟨eraseKV fi.docIDToDocument docID, eraseKV fi.docIDToDocLength docID⟩, true)
  | none => (fi, false)

/-- index package `ForwardIndex.GetTF`: count / length, or 0 on zero length. -/
noncomputable def ForwardIndex.getTF (fi : ForwardIndex) (docID w : String) : ℝ :=
  let wordCount := fi.getWordCount docID w
  let docLength := fi.getDocumentLength docID
  if 0 < docLength then (wordCount : ℝ) / (docLength : ℝ) else 0

/-- storage.go `SearchResult` (the `float64` score modelled as a real). -/
structure SearchResult where
  docID : String
  score : ℝ
  preview : String

/-- storage.go `Stats`. -/
structure Stats where
  totalDocuments : Nat
  totalWords : Nat
  totalDocumentsInIndex : Nat
deriving DecidableEq

/-- storage.go `DocumentStorage`. -/
structure DocumentStorage where
  trie : Trie
  forwardIndex : ForwardIndex
  docIDToDocument : List (String × String)
  totalDocuments : Nat

/-- storage.go `New`. -/
def DocumentStorage.new : DocumentStorage := ⟨Trie.new, ForwardIndex.new, [], 0⟩

/-- The per-word body shared verbatim by `AddDocument` and `NewWithData`:
`if !Search(word) { Insert(word) }; AddDocumentToWord(word, docID, count)`. -/
def indexWord (t : Trie) (docID : String) (p : String × Nat) : Trie :=
  let t1 := if t.search p.1 then t else t.insert p.1
  t1.addDocumentToWord p.1 docID p.2

/-- storage.go `AddDocument` for a fresh document ID.  In Go a caller-supplied
ID that already exists panics (so no successor state exists), and an empty ID
is replaced by a generated `doc_<uuid>`; both cases are captured in the
`Reachable` relation, which admits this step only for a fresh, non-empty ID. -/
def DocumentStorage.addDocument (ds : DocumentStorage) (content docID : String) :
    DocumentStorage :=
  let wordCounts := tokenize content
  ⟨wordCounts.foldl (fun t p => indexWord t docID p) ds.trie,
   ds.forwardIndex.addDocument docID wordCounts,
   setKV ds.docIDToDocument docID content,
   ds.totalDocuments + 1⟩

/-- storage.go `RemoveDocument`: a no-op reporting `false` on an unknown ID;
otherwise remove the document from the forward index, strip each of its words'
postings from the trie, delete the raw content, run the cleanup pass, and
decrement the counter (`Nat` subtraction matches Go's floor-at-zero guard). -/
def DocumentStorage.removeDocument (ds : DocumentStorage) (docID : String) :
    DocumentStorage × Bool :=
  match lookupKV ds.docIDToDocument docID with
  | none => (ds, false)
  | some _ =>
    let wordCounts := ds.forwardIndex.getDocumentWords docID
    let fi := (ds.forwardIndex.removeDocument docID).1
    let t1 := wordCounts.foldl (fun t p => (t.removeDocumentFromWord p.1 docID).1) ds.trie
    (⟨t1.cleanupEmptyWords, fi, eraseKV ds.docIDToDocument docID,
      ds.totalDocuments - 1⟩, true)

/-- storage.go `NewWithData`: take the given content map, counter and forward
index, and rebuild the trie by replaying every (document, word, count) triple
of the forward-index snapshot. -/
def newWithData (documents : List (String × String)) (totalDocuments : Nat)
    (fi : ForwardIndex) : DocumentStorage :=
  ⟨fi.docIDToDocument.foldl
      (fun t p => p.2.foldl (fun t' q => indexWord t' p.1 q) t) Trie.new,
   fi, documents, totalDocuments⟩

/-- storage.go `Save` followed by `Load`: `Save` writes exactly the content
map, the counter and the two forward-index maps to JSON, and `Load` reads them
back and calls `NewWithData` on them; the JSON codec itself is not modelled. -/
def DocumentStorage.reload (ds : DocumentStorage) : DocumentStorage :=
  newWithData ds.docIDToDocument ds.totalDocuments ds.forwardIndex

/-- storage.go `calculateTFIDF`: 0 when the document frequency is 0, else
`tf * (log2((N+1)/(df+1)) + 1)` with `N` the live-document counter. -/
noncomputable def DocumentStorage.calculateTFIDF (ds : DocumentStorage)
    (docID w : String) : ℝ :=
  let tf := ds.forwardIndex.getTF docID w
  let docFreq := ds.trie.getDocumentFrequency w
  if docFreq = 0 then 0
  else tf * (Real.logb 2 ((ds.totalDocuments + 1 : ℝ) / (docFreq + 1 : ℝ)) + 1)

/-- Character-position first occurrence of `pat` in `hay` (strings.Index; the
Go byte offsets coincide with character offsets on ASCII text). -/
def indexOfSubstr : List Char → List Char → Option Nat
  | [], pat => if pat.isEmpty then some 0 else none
  | c :: rest, pat =>
    if pat.isPrefixOf (c :: rest) then some 0
    else (indexOfSubstr rest pat).map (· + 1)

/-- storage.go `getContentPreview`: short content is returned whole; otherwise
a window of `maxLength` characters is cut around 50 characters before the
earliest case-insensitive occurrence of any query word, with `...` affixed on
each cut side. -/
def getContentPreview (content : String) (queryWords : List String)
    (maxLength : Nat) : String :=
  let cs := content.toList
  if cs.length ≤ maxLength then content
  else
    let contentLower := cs.map asciiLower
    let firstPos := queryWords.foldl (fun fp w =>
      match indexOfSubstr contentLower w.toList with
      | some pos => if pos < fp then pos else fp
      | none => fp) cs.length
    let start := if firstPos < cs.length then firstPos - 50 else 0
    let stop := min (start + maxLength) cs.length
    let body := String.mk ((cs.drop start).take (stop - start))
    let body1 := if 0 < start then "..." ++ body else body
    if stop < cs.length then body1 ++ "..." else body1

/-- The `docScores` accumulation of storage.go `Search`: for every query word
in order, for every posting of that word, `docScores[docID] += tfIdf`. -/
noncomputable def DocumentStorage.searchDocScores (ds : DocumentStorage)
    (queryWords : List String) : List (String × ℝ) :=
  queryWords.foldl (fun scores w =>
    (ds.trie.getDocumentsForWord w).foldl (fun sc p =>
      setKV sc p.1 ((lookupKV sc p.1).getD 0 + ds.calculateTFIDF p.1 w)) scores) []

/-- Descending-score comparison used by the `sort.Slice` calls (Go sorts with
the strict `score_i > score_j`; any comparison sort then yields a list that is
pairwise `≥` left-to-right, with ties in unspecified order — modelled
deterministically by insertion sort on `≥`). -/
def scoreGE (a b : String × ℝ) : Prop := b.2 ≤ a.2

noncomputable instance : DecidableRel scoreGE := fun a b =>
  Real.decidableLE b.2 a.2

/-- Truncation of storage.go `Search`/`SearchByPrefix`: `limit := topK`
clamped to the result count, and a loop `for i := 0; i < limit` (which runs
zero times when `topK ≤ 0`), building one result with preview per entry. -/
noncomputable def buildResults (ds : DocumentStorage) (sortedDocs : List (String × ℝ))
    (queryWords : List String) (topK : Int) : List SearchResult :=
  let limit := min topK (sortedDocs.length : Int)
  (sortedDocs.take limit.toNat).map (fun p =>
    ⟨p.1, p.2, getContentPreview ((lookupKV ds.docIDToDocument p.1).getD "")
      queryWords 200⟩)

/-- storage.go `Search`: tokenized lowercased query, TF-IDF scores summed per
document over the query words, sorted by descending score, truncated to
`topK`. -/
noncomputable def DocumentStorage.search (ds : DocumentStorage) (query : String)
    (topK : Int) : List SearchResult :=
  let queryWords := tokenizeQuery (lowerStr query)
  if queryWords.isEmpty then []
  else
    let sortedDocs := (ds.searchDocScores queryWords).insertionSort scoreGE
    buildResults ds sortedDocs queryWords topK

/-- storage.go `SearchByPrefix`: blank prefixes and prefixes with no matching
documents yield empty results; otherwise each matching document scores
`summed occurrences / document length` (documents of zero length are skipped),
sorted and truncated as in `Search`. -/
noncomputable def DocumentStorage.searchByPrefix (ds : DocumentStorage)
    (pre : String) (topK : Int) : List SearchResult :=
  if trimSpace pre = "" then []
  else
    let docsWithPrefix := ds.trie.getDocumentsForPrefix (lowerStr pre)
    if docsWithPrefix.isEmpty then []
    else
      let docScores := docsWithPrefix.foldl (fun sc p =>
        let docLength := ds.forwardIndex.getDocumentLength p.1
        if 0 < docLength then setKV sc p.1 ((p.2 : ℝ) / (docLength : ℝ)) else sc) []
      let sortedDocs := docScores.insertionSort scoreGE
      buildResults ds sortedDocs [pre] topK

/-- storage.go `PrefixSearch`. -/
def DocumentStorage.prefixSearch (ds : DocumentStorage) (pre : String) : List String :=
  ds.trie.startsWith pre

/-- storage.go `GetStats`: content-map size, number of words currently stored
in the trie, and the independently maintained live counter. -/
def DocumentStorage.getStats (ds : DocumentStorage) : Stats :=
  ⟨ds.docIDToDocument.length, ds.trie.getAllWords.length, ds.totalDocuments⟩

/-- The placeholder storage.go substitutes for escaped asterisks. -/
def escapedAsteriskPlaceholder : String := "___ESCAPED_ASTERISK___"

/-- storage.go `SmartSearch`: blank query → empty; substitute every `\*` with
the placeholder; a trailing `*` then dispatches to prefix search on the
trimmed text before it (empty → empty results); otherwise the placeholders are
restored to literal `*` and the query goes to exact search. -/
noncomputable def DocumentStorage.smartSearch (ds : DocumentStorage)
    (query : String) (topK : Int) : List SearchResult :=
  if trimSpace query = "" then []
  else
    let q := replaceAll query "\\*" escapedAsteriskPlaceholder
    if hasSuffix q "*" then
      let pre := trimSpace (trimSuffix q "*")
      if pre = "" then [] else ds.searchByPrefix pre topK
    else
      ds.search (replaceAll q escapedAsteriskPlaceholder "*") topK

/-- The stores built from `New()` by sequences of `AddDocument` and
`RemoveDocument` calls.  An `add` step requires a fresh ID because Go panics
on a duplicate caller-supplied ID (leaving no successor state) and replaces an
empty ID by a fresh generated `doc_<uuid>` (uuid collisions are not modelled),
so every surviving call site adds under a fresh non-empty ID. -/
inductive Reachable : DocumentStorage → Prop where
  | new : Reachable DocumentStorage.new
  | add (ds : DocumentStorage) (content docID : String) : Reachable ds →
      lookupKV ds.docIDToDocument docID = none → docID ≠ "" →
      Reachable (ds.addDocument content docID)
  | remove (ds : DocumentStorage) (docID : String) : Reachable ds →
      Reachable (ds.removeDocument docID).1

/-- The document IDs appearing in the posting maps of a subtree, in document
order per node (the union, with multiplicity, of all Trie postings). -/
def TrieNode.collectPostingDocs : TrieNode → List String
  | .mk ch _ _ _ dc =>
    keysOf dc ++ (ch.attach.map (fun p => p.1.2.collectPostingDocs)).flatten
termination_by n => sizeOf n
decreasing_by
  rename_i p
  obtain ⟨⟨c, m⟩, hm⟩ := p
  have h1 := List.sizeOf_lt_of_mem hm
  simp only [TrieNode.mk.sizeOf_spec]
  simp only [Prod.mk.sizeOf_spec] at h1
  omega

/-- The document IDs appearing in any posting map of the trie. -/
def Trie.allPostingDocs (t : Trie) : List String := t.root.collectPostingDocs

/-- Posting alignment at every node of a subtree: the posting set
`containingDocuments` lists exactly the keys of `docToWordCount`. -/
def TrieNode.alignedB : TrieNode → Bool
  | .mk ch _ _ cd dc =>
    (cd == keysOf dc) && ch.attach.all (fun p => p.1.2.alignedB)
termination_by n => sizeOf n
decreasing_by
  rename_i p
  obtain ⟨⟨c, m⟩, hm⟩ := p
  have h1 := List.sizeOf_lt_of_mem hm
  simp only [TrieNode.mk.sizeOf_spec]
  simp only [Prod.mk.sizeOf_spec] at h1
  omega

/-- Posting alignment for a whole trie. -/
def Trie.aligned (t : Trie) : Bool := t.root.alignedB

/-- Structural canonicality of a subtree rooted at path `p`: the stored word
is the node's full path exactly at end-of-word nodes (and empty otherwise),
children keys are distinct, and postings live only at end-of-word nodes. -/
def TrieNode.canonB : TrieNode → List Char → Bool
  | .mk ch e w cd dc, p =>
    (if e then w == String.mk p else w == "") &&
    decide (keysOf ch).Nodup &&
    (e || (cd.isEmpty && dc.isEmpty)) &&
    ch.attach.all (fun q => q.1.2.canonB (p ++ [q.1.1]))
termination_by n _ => sizeOf n
decreasing_by
  obtain ⟨⟨c, m⟩, hm⟩ := q
  have h1 := List.sizeOf_lt_of_mem hm
  simp only [TrieNode.mk.sizeOf_spec]
  simp only [Prod.mk.sizeOf_spec] at h1
  omega

/-- Structural canonicality for a whole trie (root at the empty path). -/
def Trie.canon (t : Trie) : Bool := t.root.canonB []

/-- Whether a subtree stores at least one word (contains an end-of-word
node). -/
def TrieNode.hasWordB : TrieNode → Bool
  | .mk ch e _ _ _ => e || ch.attach.any (fun p => p.1.2.hasWordB)
termination_by n => sizeOf n
decreasing_by
  rename_i p
  obtain ⟨⟨c, m⟩, hm⟩ := p
  have h1 := List.sizeOf_lt_of_mem hm
  simp only [TrieNode.mk.sizeOf_spec]
  simp only [Prod.mk.sizeOf_spec] at h1
  omega

/-- Prunedness: every child subtree stores at least one word — the state the
eager pruning of `removeHelper` is meant to maintain. -/
def TrieNode.prunedB : TrieNode → Bool
  | .mk ch _ _ _ _ => ch.attach.all (fun p => p.1.2.hasWordB && p.1.2.prunedB)
termination_by n => sizeOf n
decreasing_by
  rename_i p
  obtain ⟨⟨c, m⟩, hm⟩ := p
  have h1 := List.sizeOf_lt_of_mem hm
  simp only [TrieNode.mk.sizeOf_spec]
  simp only [Prod.mk.sizeOf_spec] at h1
  omega

/-- Prunedness for a whole trie. -/
def Trie.pruned (t : Trie) : Bool := t.root.prunedB

/-- The postings the forward-index snapshot induces for a word: every document
whose stored word-count vector contains the word, with its count, in document
order. -/
def fwdPostings (docs : List (String × List (String × Nat))) (w : String) :
    List (String × Nat) :=
  docs.filterMap (fun p => (lookupKV p.2 w).map (fun c => (p.1, c)))

/-- The word-level view the forward-index snapshot prescribes for a path: no
node when no document contains the word, else the word, the posting keys and
the postings themselves. -/
def viewShape (docs : List (String × List (String × Nat))) (v : List Char) :
    Option (String × List String × List (String × Nat)) :=
  if fwdPostings docs (String.mk v) = [] then none
  else some (String.mk v, keysOf (fwdPostings docs (String.mk v)),
    fwdPostings docs (String.mk v))

/-- The tries built from `trie.New()` by any sequence of `Insert`,
`AddDocumentToWord`, `RemoveDocumentFromWord`, `Remove` and
`CleanupEmptyWords` calls. -/
inductive TrieReachable : Trie → Prop where
  | new : TrieReachable Trie.new
  | insert (t : Trie) (w : String) : TrieReachable t → TrieReachable (t.insert w)
  | addDocumentToWord (t : Trie) (w docID : String) (count : Nat) :
      TrieReachable t → TrieReachable (t.addDocumentToWord w docID count)
  | removeDocumentFromWord (t : Trie) (w docID : String) :
      TrieReachable t → TrieReachable (t.removeDocumentFromWord w docID).1
  | remove (t : Trie) (w : String) : TrieReachable t → TrieReachable (t.remove w).1
  | cleanup (t : Trie) : TrieReachable t → TrieReachable t.cleanupEmptyWords

/-- The accumulated `docScores` entry a document gets in `Search` for a
single-term query: its Search score for that term. -/
noncomputable def DocumentStorage.singleTermScore (ds : DocumentStorage)
    (term docID : String) : Option ℝ :=
  lookupKV (ds.searchDocScores [term]) docID

/-- The word-level view of a subtree at a path: the stored word, posting set
and posting counts when the path ends at an end-of-word node, `none`
otherwise.  `Search`, `GetDocumentsForWord` and `GetDocumentFrequency` are
projections of this view. -/
def TrieNode.viewAt (n : TrieNode) (w : List Char) :
    Option (String × List String × List (String × Nat)) :=
  match n.findNode w with
  | some m => if m.isEndOfWord then
      some (m.word, m.containingDocuments, m.docToWordCount) else none
  | none => none

/-- Lowercase ASCII letter — the alphabet of every stored word. -/
def isLowerLetter (c : Char) : Bool := 'a' ≤ c && c ≤ 'z'

/-- The consistency invariant tying a store's four components together:
canonical aligned trie, content map and forward index on the same distinct
IDs, document lengths derived from the vectors, counter equal to the content
size, well-formed token vectors, and the trie's word-level view induced
exactly by the forward index (`view_eq` gives, for each path, the stored
word, the posting set and posting counts that the forward index prescribes,
with end-of-word nodes exactly at words having at least one posting). -/
structure StoreInv (s : DocumentStorage) : Prop where
  canon : s.trie.canon = true
  aligned : s.trie.aligned = true
  keys_eq : keysOf s.docIDToDocument = keysOf s.forwardIndex.docIDToDocument
  keys_nodup : (keysOf s.docIDToDocument).Nodup
  lengths_eq : s.forwardIndex.docIDToDocLength =
    s.forwardIndex.docIDToDocument.map (fun p => (p.1, sumCounts p.2))
  counter_eq : s.totalDocuments = s.docIDToDocument.length
  vecs_ok : ∀ p ∈ s.forwardIndex.docIDToDocument, (keysOf p.2).Nodup ∧
    ∀ q ∈ p.2, 0 < q.2 ∧ 1 < q.1.toList.length ∧ q.1.toList.all isLowerLetter = true
  view_eq : ∀ v : List Char, s.trie.root.viewAt v =
    viewShape s.forwardIndex.docIDToDocument v

instance : IsTotal (String × ℝ) scoreGE := ⟨fun a b => le_total b.2 a.2⟩

instance : IsTrans (String × ℝ) scoreGE := ⟨fun _ _ _ h1 h2 => le_trans h2 h1⟩

/- ===================== Theorems ===================== -/

/-- C7: Search results are sorted in descending score order (ties in either
relative order is weakened to: adjacent scores are non-increasing), the result
count is `topK` clamped into the number of scored documents, so a `topK`
beyond the match count returns everything and a non-positive `topK` returns
nothing. -/
theorem c7_search_ordering_truncation (ds : DocumentStorage) (q : String) (k : Int) :
    List.Sorted (fun a b : SearchResult => b.score ≤ a.score) (ds.search q k) ∧
    (ds.search q k).length =
      min k.toNat (ds.searchDocScores (tokenizeQuery (lowerStr q))).length ∧
    (k ≤ 0 → ds.search q k = []) ∧
    (((ds.searchDocScores (tokenizeQuery (lowerStr q))).length : Int) ≤ k →
      (ds.search q k).length =
        (ds.searchDocScores (tokenizeQuery (lowerStr q))).length) := by
  have main : List.Sorted (fun a b : SearchResult => b.score ≤ a.score) (ds.search q k) ∧
      (ds.search q k).length =
        min k.toNat (ds.searchDocScores (tokenizeQuery (lowerStr q))).length ∧
      (k ≤ 0 → ds.search q k = []) := by
    unfold DocumentStorage.search
    by_cases hq : (tokenizeQuery (lowerStr q)).isEmpty
    · simp only [hq, if_true]
      rw [List.isEmpty_iff] at hq
      refine ⟨List.sorted_nil, ?_, fun _ => by simp⟩
      simp [hq, DocumentStorage.searchDocScores]
    · simp only [hq, Bool.false_eq_true, if_false]
      set qw := tokenizeQuery (lowerStr q) with hqw
      set scores := ds.searchDocScores qw with hsc
      have hsorted := List.sorted_insertionSort scoreGE scores
      have hperm := List.perm_insertionSort scoreGE scores
      have hlen : (scores.insertionSort scoreGE).length = scores.length := hperm.length_eq
      constructor
      · unfold buildResults
        apply List.Pairwise.map
        · intro a b hab
          exact hab
        · exact List.Pairwise.sublist (List.take_sublist _ _) hsorted
      constructor
      · unfold buildResults
        simp only [List.length_map, List.length_take, hlen]
        omega
      · intro hk
        have h0 : (min k ((scores.insertionSort scoreGE).length : Int)).toNat = 0 := by omega
        simp [buildResults, h0, hk]
  refine ⟨main.1, main.2.1, main.2.2, fun hk => ?_⟩
  rw [main.2.1]
  omega

/-- Witness for C7 at a concrete store, query and both truncation regimes. -/
theorem c7_search_ordering_truncation_witness :
    DocumentStorage.new.search "anything" (-1) = [] ∧
    (DocumentStorage.new.search "anything" 5).length =
      (DocumentStorage.new.searchDocScores
        (tokenizeQuery (lowerStr "anything"))).length :=
  ⟨(c7_search_ordering_truncation DocumentStorage.new "anything" (-1)).2.2.1 (by decide),
   (c7_search_ordering_truncation DocumentStorage.new "anything" 5).2.2.2 (by
      rw [show DocumentStorage.new.searchDocScores
        (tokenizeQuery (lowerStr "anything")) = [] from rfl]
      norm_num)⟩

/-- C6: for every non-blank query, if the query with every escaped-asterisk
sequence replaced by the internal placeholder ends with `*`, SmartSearch
performs a prefix-mode search on the trimmed text before the `*` (an empty
prefix yields empty results); otherwise it restores literal asterisks and
performs an exact-mode search.  In particular a trailing bare `*` triggers
prefix mode and a trailing escaped `\*` triggers exact mode. -/
theorem c6_smart_search_dispatch (ds : DocumentStorage) (q : String) (k : Int)
    (hb : trimSpace q ≠ "") :
    (hasSuffix (replaceAll q "\\*" escapedAsteriskPlaceholder) "*" = true →
      ds.smartSearch q k =
        (if trimSpace (trimSuffix (replaceAll q "\\*" escapedAsteriskPlaceholder) "*") = ""
          then []
          else ds.searchByPrefix
            (trimSpace (trimSuffix (replaceAll q "\\*" escapedAsteriskPlaceholder) "*")) k)) ∧
    (hasSuffix (replaceAll q "\\*" escapedAsteriskPlaceholder) "*" = false →
      ds.smartSearch q k =
        ds.search (replaceAll (replaceAll q "\\*" escapedAsteriskPlaceholder)
          escapedAsteriskPlaceholder "*") k) ∧
    ds.smartSearch "ab*" k = ds.searchByPrefix "ab" k ∧
    ds.smartSearch "ab\\*" k = ds.search "ab*" k := by
  refine ⟨fun h => ?_, fun h => ?_, rfl, rfl⟩
  · simp only [DocumentStorage.smartSearch, hb, if_false, h, if_true, ite_not]
  · simp only [DocumentStorage.smartSearch, hb, if_false, h, Bool.false_eq_true,
      if_true, ite_not]

/-- Witness for C6 at a concrete store and queries. -/
theorem c6_smart_search_dispatch_witness :
    DocumentStorage.new.smartSearch "ab*" 5 = DocumentStorage.new.searchByPrefix "ab" 5 ∧
    DocumentStorage.new.smartSearch "ab\\*" 5 = DocumentStorage.new.search "ab*" 5 :=
  ⟨(c6_smart_search_dispatch DocumentStorage.new "ab*" 5 (by decide)).2.2.1,
   (c6_smart_search_dispatch DocumentStorage.new "ab\\*" 5 (by decide)).2.2.2⟩

/-- C10: a query containing an escaped asterisk that also ends with an
unescaped `*` reaches SearchByPrefix with the escaped asterisk still replaced
by the internal placeholder: `"\*abc*"` is searched as the prefix
`"___ESCAPED_ASTERISK___abc"`, which contains no literal asterisk — the
restoring substitution is never applied on the prefix path, whose argument is
always the trimmed placeholder-substituted text. -/
theorem c10_escaped_asterisk_leak (ds : DocumentStorage) (k : Int) :
    ds.smartSearch "\\*abc*" k = ds.searchByPrefix "___ESCAPED_ASTERISK___abc" k ∧
    (∀ c ∈ "___ESCAPED_ASTERISK___abc".toList, c ≠ '*') ∧
    (∀ q : String, trimSpace q ≠ "" →
      hasSuffix (replaceAll q "\\*" escapedAsteriskPlaceholder) "*" = true →
      ds.smartSearch q k =
        (if trimSpace (trimSuffix (replaceAll q "\\*" escapedAsteriskPlaceholder) "*") = ""
          then []
          else ds.searchByPrefix
            (trimSpace (trimSuffix (replaceAll q "\\*" escapedAsteriskPlaceholder) "*")) k)) := by
  refine ⟨rfl, by decide, fun q hb h => ?_⟩
  simp only [DocumentStorage.smartSearch, hb, if_false, h, if_true, ite_not]

/-- Witness for C10 at a concrete store and query. -/
theorem c10_escaped_asterisk_leak_witness :
    DocumentStorage.new.smartSearch "x\\*y*" 5 =
      DocumentStorage.new.searchByPrefix "x___ESCAPED_ASTERISK___y" 5 := by
  have h := (c10_escaped_asterisk_leak DocumentStorage.new 5).2.2 "x\\*y*"
    (by decide) (by decide)
  rwa [if_neg (by decide)] at h

/-- C3, counterexample: the tokenizers do not extract a letter run adjacent to
digits — `"abc123"` produces no token at all (the regexp `\b[a-zA-Z]+\b`
requires a word boundary, and a digit neighbour is a word character), whereas
the claim demands that `"abc"` still be extracted; without the adjacent digits
both runs are extracted. -/
theorem c3_counterexample :
    tokenize "abc123" = [] ∧ tokenizeQuery "abc123" = [] ∧
    tokenize "abc def" = [("abc", 1), ("def", 1)] :=
  ⟨by decide, by decide, by decide⟩

/-- C5, counterexample: in the trie holding the words `ab` and `abc`,
the word `abc` is stored at an end-of-word node with zero postings, yet
`Remove("abc")` returns `false` — while still deleting the word — because the
returned boolean is `removeHelper`'s root verdict, not the guard. -/
theorem c5_counterexample :
    ((Trie.new.insert "ab").insert "abc").search "abc" = true ∧
    ((Trie.new.insert "ab").insert "abc").getDocumentsForWord "abc" = [] ∧
    ((Trie.new.insert "ab").insert "abc").getDocumentFrequency "abc" = 0 ∧
    (((Trie.new.insert "ab").insert "abc").remove "abc").2 = false ∧
    (((Trie.new.insert "ab").insert "abc").remove "abc").1.search "abc" = false :=
  ⟨by decide, by decide, by decide, by decide, by decide⟩

/-- C2, counterexample: a reachable store whose content map holds a document
that the trie's posting union does not — a document whose content tokenizes to
nothing (here `"a !"`: its only letter run has length 1 and is discarded) is
registered in the content map and the forward index but deposits no posting in
the trie. -/
theorem c2_counterexample :
    Reachable (DocumentStorage.new.addDocument "a !" "d1") ∧
    "d1" ∈ keysOf (DocumentStorage.new.addDocument "a !" "d1").docIDToDocument ∧
    "d1" ∉ (DocumentStorage.new.addDocument "a !" "d1").trie.allPostingDocs := by
  refine ⟨Reachable.add _ "a !" "d1" Reachable.new rfl (by decide), by decide, ?_⟩
  have h : (DocumentStorage.new.addDocument "a !" "d1").trie = Trie.new := rfl
  rw [h]
  simp [Trie.allPostingDocs, Trie.new, TrieNode.empty, TrieNode.collectPostingDocs, keysOf]

/- ===== Association-list toolkit ===== -/

section KV

variable {α β : Type} [DecidableEq α]

@[simp] theorem lookupKV_nil (a : α) : lookupKV ([] : List (α × β)) a = none := rfl

theorem lookupKV_cons (k : α) (v : β) (l : List (α × β)) (a : α) :
    lookupKV ((k, v) :: l) a = if k = a then some v else lookupKV l a := rfl

@[simp] theorem lookupKV_setKV_self (l : List (α × β)) (k : α) (v : β) :
    lookupKV (setKV l k v) k = some v := by
  induction l with
  | nil => simp [setKV, lookupKV]
  | cons p rest ih =>
    obtain ⟨k', v'⟩ := p
    by_cases h : k' = k <;> simp [setKV, lookupKV, h, ih]

@[simp] theorem lookupKV_setKV_ne (l : List (α × β)) (k : α) (v : β) (a : α)
    (h : k ≠ a) : lookupKV (setKV l k v) a = lookupKV l a := by
  induction l with
  | nil => simp [setKV, lookupKV, h]
  | cons p rest ih =>
    obtain ⟨k', v'⟩ := p
    by_cases h2 : k' = k
    · subst h2
      simp [setKV, lookupKV, h]
    · simp only [setKV, h2, if_false, lookupKV]
      by_cases h3 : k' = a <;> simp [h3, ih]

theorem setKV_of_lookup_eq (l : List (α × β)) (k : α) (v : β)
    (h : lookupKV l k = some v) : setKV l k v = l := by
  induction l with
  | nil => simp [lookupKV] at h
  | cons p rest ih =>
    obtain ⟨k', v'⟩ := p
    simp only [lookupKV] at h
    by_cases h2 : k' = k
    · rw [if_pos h2] at h
      obtain rfl := Option.some.inj h
      subst h2
      simp [setKV]
    · rw [if_neg h2] at h
      simp [setKV, h2, ih h]

@[simp] theorem lookupKV_eraseKV_ne (l : List (α × β)) (k a : α) (h : k ≠ a) :
    lookupKV (eraseKV l k) a = lookupKV l a := by
  induction l with
  | nil => simp [eraseKV]
  | cons p rest ih =>
    obtain ⟨k', v'⟩ := p
    by_cases h2 : k' = k
    · subst h2
      simp [eraseKV, lookupKV, h]
    · simp only [eraseKV, h2, if_false, lookupKV]
      by_cases h3 : k' = a <;> simp [h3, ih]

theorem keysOf_eraseKV (l : List (α × β)) (k : α) :
    keysOf (eraseKV l k) = (keysOf l).erase k := by
  induction l with
  | nil => simp [eraseKV, keysOf]
  | cons p rest ih =>
    obtain ⟨k', v'⟩ := p
    by_cases h : k' = k
    · subst h
      simp [eraseKV, keysOf, List.erase_cons]
    · simp only [eraseKV, h, if_false, keysOf, List.map_cons, List.erase_cons,
        beq_iff_eq]
      simpa [keysOf] using ih

theorem lookupKV_eq_none_iff (l : List (α × β)) (k : α) :
    lookupKV l k = none ↔ k ∉ keysOf l := by
  induction l with
  | nil => simp [keysOf]
  | cons p rest ih =>
    obtain ⟨k', v'⟩ := p
    simp only [lookupKV, keysOf, List.map_cons, List.mem_cons]
    by_cases h : k' = k
    · simp [h]
    · have hks : ¬k = k' := fun hh => h hh.symm
      simp only [if_neg h]
      simp only [keysOf] at ih
      rw [ih]
      simp [not_or, hks]

theorem lookupKV_isSome_iff (l : List (α × β)) (k : α) :
    (lookupKV l k).isSome = true ↔ k ∈ keysOf l := by
  rw [Option.isSome_iff_ne_none]
  constructor
  · intro h
    by_contra hmem
    exact h ((lookupKV_eq_none_iff l k).mpr hmem)
  · intro h hn
    exact absurd ((lookupKV_eq_none_iff l k).mp hn) (by simpa using h)

theorem lookupKV_eraseKV_self (l : List (α × β)) (k : α)
    (h : (keysOf l).Nodup) : lookupKV (eraseKV l k) k = none := by
  rw [lookupKV_eq_none_iff, keysOf_eraseKV]
  intro hmem
  rw [List.Nodup.mem_erase_iff h] at hmem
  exact hmem.1 rfl

theorem eraseKV_of_not_mem (l : List (α × β)) (k : α)
    (h : k ∉ keysOf l) : eraseKV l k = l := by
  induction l with
  | nil => rfl
  | cons p rest ih =>
    obtain ⟨k', v'⟩ := p
    simp only [keysOf, List.map_cons, List.mem_cons, not_or] at h
    have hks : ¬k' = k := fun hh => h.1 hh.symm
    simp [eraseKV, hks, ih (by simpa [keysOf] using h.2)]

theorem keysOf_setKV_of_mem (l : List (α × β)) (k : α) (v : β)
    (h : k ∈ keysOf l) : keysOf (setKV l k v) = keysOf l := by
  induction l with
  | nil => simp [keysOf] at h
  | cons p rest ih =>
    obtain ⟨k', v'⟩ := p
    by_cases h2 : k' = k
    · subst h2
      simp [setKV, keysOf]
    · simp only [keysOf, List.map_cons, List.mem_cons] at h
      rcases h with h | h
      · exact absurd h.symm h2
      · simp only [setKV, h2, if_false, keysOf, List.map_cons]
        rw [show List.map Prod.fst (setKV rest k v) = keysOf (setKV rest k v) from rfl,
          ih (by simpa [keysOf] using h)]
        rfl

theorem keysOf_setKV_of_not_mem (l : List (α × β)) (k : α) (v : β)
    (h : k ∉ keysOf l) : keysOf (setKV l k v) = keysOf l ++ [k] := by
  induction l with
  | nil => simp [setKV, keysOf]
  | cons p rest ih =>
    obtain ⟨k', v'⟩ := p
    simp only [keysOf, List.map_cons, List.mem_cons, not_or] at h
    have hks : ¬k' = k := fun hh => h.1 hh.symm
    simp only [setKV, if_neg hks, keysOf, List.map_cons, List.cons_append,
      List.cons.injEq, true_and]
    exact ih (by simpa [keysOf] using h.2)

theorem mem_keysOf_setKV (l : List (α × β)) (k : α) (v : β) (a : α) :
    a ∈ keysOf (setKV l k v) ↔ a ∈ keysOf l ∨ a = k := by
  by_cases h : k ∈ keysOf l
  · rw [keysOf_setKV_of_mem l k v h]
    constructor
    · exact Or.inl
    · rintro (hh | rfl)
      · exact hh
      · exact h
  · rw [keysOf_setKV_of_not_mem l k v h]
    simp

theorem keysOf_setKV_nodup (l : List (α × β)) (k : α) (v : β)
    (h : (keysOf l).Nodup) : (keysOf (setKV l k v)).Nodup := by
  by_cases h2 : k ∈ keysOf l
  · rwa [keysOf_setKV_of_mem l k v h2]
  · rw [keysOf_setKV_of_not_mem l k v h2]
    simp [List.nodup_append, h, h2]

end KV

/- ===== TrieNode structural induction ===== -/

/-- Structural induction over the nested `TrieNode` inductive. -/
theorem TrieNode.inductionOn {P : TrieNode → Prop}
    (h : ∀ ch e w cd dwc, (∀ q ∈ ch, P (q : Char × TrieNode).2) →
      P (.mk ch e w cd dwc)) : ∀ n, P n
  | .mk ch e w cd dwc =>
    h ch e w cd dwc (fun q hq => TrieNode.inductionOn h q.2)
termination_by n => sizeOf n
decreasing_by
  obtain ⟨c, m⟩ := q
  have h1 := List.sizeOf_lt_of_mem hq
  simp only [TrieNode.mk.sizeOf_spec]
  simp only [Prod.mk.sizeOf_spec] at h1
  omega

/- ===== TrieNode basics ===== -/

@[simp] theorem TrieNode.children_mk (ch : List (Char × TrieNode)) (e : Bool)
    (w : String) (cd : List String) (dwc : List (String × Nat)) :
    (TrieNode.mk ch e w cd dwc).children = ch := rfl

@[simp] theorem TrieNode.isEndOfWord_mk (ch : List (Char × TrieNode)) (e : Bool)
    (w : String) (cd : List String) (dwc : List (String × Nat)) :
    (TrieNode.mk ch e w cd dwc).isEndOfWord = e := rfl

@[simp] theorem TrieNode.word_mk (ch : List (Char × TrieNode)) (e : Bool)
    (w : String) (cd : List String) (dwc : List (String × Nat)) :
    (TrieNode.mk ch e w cd dwc).word = w := rfl

@[simp] theorem TrieNode.containingDocuments_mk (ch : List (Char × TrieNode))
    (e : Bool) (w : String) (cd : List String) (dwc : List (String × Nat)) :
    (TrieNode.mk ch e w cd dwc).containingDocuments = cd := rfl

@[simp] theorem TrieNode.docToWordCount_mk (ch : List (Char × TrieNode)) (e : Bool)
    (w : String) (cd : List String) (dwc : List (String × Nat)) :
    (TrieNode.mk ch e w cd dwc).docToWordCount = dwc := rfl

theorem TrieNode.eta (n : TrieNode) :
    TrieNode.mk n.children n.isEndOfWord n.word n.containingDocuments
      n.docToWordCount = n := by
  cases n
  rfl

@[simp] theorem TrieNode.findNode_nil (n : TrieNode) : n.findNode [] = some n := rfl

theorem TrieNode.findNode_cons (n : TrieNode) (c : Char) (p : List Char) :
    n.findNode (c :: p) =
      match lookupKV n.children c with
      | some child => child.findNode p
      | none => none := rfl

theorem TrieNode.viewAt_eq (n : TrieNode) (v : List Char) :
    n.viewAt v = match n.findNode v with
      | some m => if m.isEndOfWord then
          some (m.word, m.containingDocuments, m.docToWordCount) else none
      | none => none := rfl

theorem TrieNode.viewAt_cons (n : TrieNode) (c : Char) (p : List Char) :
    n.viewAt (c :: p) =
      match lookupKV n.children c with
      | some child => child.viewAt p
      | none => none := by
  rw [TrieNode.viewAt_eq, TrieNode.findNode_cons]
  cases lookupKV n.children c <;> rfl

theorem TrieNode.alignedB_mk (ch : List (Char × TrieNode)) (e : Bool)
    (w : String) (cd : List String) (dwc : List (String × Nat)) :
    (TrieNode.mk ch e w cd dwc).alignedB = true ↔
      cd = keysOf dwc ∧ ∀ q ∈ ch, (q : Char × TrieNode).2.alignedB = true := by
  rw [TrieNode.alignedB]
  simp [List.all_eq_true]

theorem TrieNode.canonB_mk (ch : List (Char × TrieNode)) (e : Bool)
    (w : String) (cd : List String) (dwc : List (String × Nat)) (p : List Char) :
    (TrieNode.mk ch e w cd dwc).canonB p = true ↔
      (w = if e then String.mk p else "") ∧ (keysOf ch).Nodup ∧
      (e = true ∨ (cd = [] ∧ dwc = [])) ∧
      ∀ q ∈ ch, (q : Char × TrieNode).2.canonB (p ++ [(q : Char × TrieNode).1]) = true := by
  rw [TrieNode.canonB]
  cases e <;> simp [List.all_eq_true, List.isEmpty_iff, and_assoc]

theorem TrieNode.hasWordB_mk (ch : List (Char × TrieNode)) (e : Bool)
    (w : String) (cd : List String) (dwc : List (String × Nat)) :
    (TrieNode.mk ch e w cd dwc).hasWordB = true ↔
      e = true ∨ ∃ q ∈ ch, (q : Char × TrieNode).2.hasWordB = true := by
  rw [TrieNode.hasWordB]
  simp [List.any_eq_true]

theorem TrieNode.prunedB_mk (ch : List (Char × TrieNode)) (e : Bool)
    (w : String) (cd : List String) (dwc : List (String × Nat)) :
    (TrieNode.mk ch e w cd dwc).prunedB = true ↔
      ∀ q ∈ ch, (q : Char × TrieNode).2.hasWordB = true ∧
        (q : Char × TrieNode).2.prunedB = true := by
  rw [TrieNode.prunedB]
  simp [List.all_eq_true]

theorem lookupKV_mem {α β : Type} [DecidableEq α] (l : List (α × β)) (k : α)
    (v : β) (h : lookupKV l k = some v) : (k, v) ∈ l := by
  induction l with
  | nil => simp at h
  | cons q rest ih =>
    obtain ⟨k', v'⟩ := q
    rw [lookupKV_cons] at h
    by_cases hk : k' = k
    · rw [if_pos hk] at h
      obtain rfl := Option.some.inj h
      subst hk
      exact List.mem_cons_self _ _
    · rw [if_neg hk] at h
      exact List.mem_cons_of_mem _ (ih h)

theorem TrieNode.alignedB_descend (n : TrieNode) (p : List Char) (m : TrieNode)
    (hfind : n.findNode p = some m) (h : n.alignedB = true) :
    m.alignedB = true := by
  induction p generalizing n with
  | nil =>
    simp only [TrieNode.findNode_nil, Option.some.injEq] at hfind
    rwa [hfind] at h
  | cons c rest ih =>
    obtain ⟨ch, e, w, cd, dwc⟩ := n
    rw [TrieNode.findNode_cons] at hfind
    simp only [TrieNode.children_mk] at hfind
    rcases hch : lookupKV ch c with _ | child
    · rw [hch] at hfind
      exact absurd hfind (by simp)
    · rw [hch] at hfind
      have hmem : (c, child) ∈ ch := lookupKV_mem ch c child hch
      have h2 := ((TrieNode.alignedB_mk ch e w cd dwc).mp h).2 (c, child) hmem
      exact ih child hfind h2

theorem TrieNode.canonB_descend (n : TrieNode) (q p : List Char) (m : TrieNode)
    (hfind : n.findNode p = some m) (h : n.canonB q = true) :
    m.canonB (q ++ p) = true := by
  induction p generalizing n q with
  | nil =>
    simp only [TrieNode.findNode_nil, Option.some.injEq] at hfind
    rw [hfind] at h
    simpa using h
  | cons c rest ih =>
    obtain ⟨ch, e, w, cd, dwc⟩ := n
    rw [TrieNode.findNode_cons] at hfind
    simp only [TrieNode.children_mk] at hfind
    rcases hch : lookupKV ch c with _ | child
    · rw [hch] at hfind
      exact absurd hfind (by simp)
    · rw [hch] at hfind
      have hmem : (c, child) ∈ ch := lookupKV_mem ch c child hch
      have h2 := ((TrieNode.canonB_mk ch e w cd dwc q).mp h).2.2.2 (c, child) hmem
      have h3 := ih child (q ++ [c]) hfind h2
      rwa [List.append_assoc, List.singleton_append] at h3

theorem setKV_cons {α β : Type} [DecidableEq α] (k : α) (v : β)
    (rest : List (α × β)) (a : α) (b : β) :
    setKV ((k, v) :: rest) a b =
      if k = a then (a, b) :: rest else (k, v) :: setKV rest a b := rfl

theorem eraseKV_cons {α β : Type} [DecidableEq α] (k : α) (v : β)
    (rest : List (α × β)) (a : α) :
    eraseKV ((k, v) :: rest) a =
      if k = a then rest else (k, v) :: eraseKV rest a := rfl

theorem mem_setKV {α β : Type} [DecidableEq α] (l : List (α × β)) (k : α)
    (v : β) (a : α × β) (h : a ∈ setKV l k v) : a = (k, v) ∨ a ∈ l := by
  induction l with
  | nil =>
    rw [show setKV ([] : List (α × β)) k v = [(k, v)] from rfl] at h
    exact Or.inl (by simpa using h)
  | cons q rest ih =>
    obtain ⟨k', v'⟩ := q
    by_cases hk : k' = k
    · rw [setKV_cons, if_pos hk] at h
      rcases List.mem_cons.mp h with h2 | h2
      · exact Or.inl h2
      · exact Or.inr (List.mem_cons_of_mem _ h2)
    · rw [setKV_cons, if_neg hk] at h
      rcases List.mem_cons.mp h with h2 | h2
      · exact Or.inr (by simp [h2])
      · rcases ih h2 with h3 | h3
        · exact Or.inl h3
        · exact Or.inr (List.mem_cons_of_mem _ h3)

/- ===== updateAt lemmas ===== -/

theorem TrieNode.updateAt_of_findNode_none (n : TrieNode) (p : List Char)
    (f : TrieNode → TrieNode) (h : n.findNode p = none) : n.updateAt p f = n := by
  induction p generalizing n with
  | nil => simp at h
  | cons c rest ih =>
    rw [TrieNode.findNode_cons] at h
    rw [TrieNode.updateAt]
    rcases hch : lookupKV n.children c with _ | child
    · rfl
    · simp only [hch] at h ⊢
      rw [ih child h, setKV_of_lookup_eq _ _ _ hch]
      exact TrieNode.eta n

theorem TrieNode.findNode_updateAt_self (n : TrieNode) (p : List Char)
    (f : TrieNode → TrieNode) (m : TrieNode) (h : n.findNode p = some m) :
    (n.updateAt p f).findNode p = some (f m) := by
  induction p generalizing n with
  | nil =>
    simp only [TrieNode.findNode_nil, Option.some.injEq] at h
    rw [h]
    rfl
  | cons c rest ih =>
    rw [TrieNode.findNode_cons] at h
    rcases hch : lookupKV n.children c with _ | child
    · rw [hch] at h
      exact absurd h (by simp)
    · rw [hch] at h
      rw [TrieNode.updateAt, hch, TrieNode.findNode_cons]
      simp only [TrieNode.children_mk, lookupKV_setKV_self]
      exact ih child h

theorem TrieNode.viewAt_updateAt_ne (n : TrieNode) (p : List Char)
    (f : TrieNode → TrieNode) (v : List Char)
    (hf : ∀ m, (f m).children = m.children) (hne : v ≠ p) :
    (n.updateAt p f).viewAt v = n.viewAt v := by
  induction p generalizing n v with
  | nil =>
    rw [TrieNode.updateAt]
    cases v with
    | nil => exact absurd rfl hne
    | cons c vr => rw [TrieNode.viewAt_cons, TrieNode.viewAt_cons, hf n]
  | cons c rest ih =>
    rw [TrieNode.updateAt]
    rcases hch : lookupKV n.children c with _ | child
    · rfl
    · cases v with
      | nil =>
        rw [TrieNode.viewAt_eq, TrieNode.viewAt_eq]
        rfl
      | cons c' vr =>
        rw [TrieNode.viewAt_cons, TrieNode.viewAt_cons]
        simp only [TrieNode.children_mk]
        by_cases hcc : c = c'
        · subst hcc
          rw [lookupKV_setKV_self, hch]
          exact ih child vr (fun hh => hne (by rw [hh]))
        · rw [lookupKV_setKV_ne _ _ _ _ hcc]

theorem TrieNode.updateAtB_fst (n : TrieNode) (p : List Char)
    (f : TrieNode → TrieNode × Bool) :
    (n.updateAtB p f).1 = n.updateAt p (fun m => (f m).1) := by
  induction p generalizing n with
  | nil => rfl
  | cons c rest ih =>
    rw [TrieNode.updateAtB, TrieNode.updateAt]
    rcases hch : lookupKV n.children c with _ | child
    · rfl
    · simp only [ih child]

theorem TrieNode.updateAtB_snd (n : TrieNode) (p : List Char)
    (f : TrieNode → TrieNode × Bool) :
    (n.updateAtB p f).2 =
      (match n.findNode p with
       | some m => (f m).2
       | none => false) := by
  induction p generalizing n with
  | nil => rfl
  | cons c rest ih =>
    rw [TrieNode.updateAtB, TrieNode.findNode_cons]
    rcases hch : lookupKV n.children c with _ | child
    · rfl
    · simp only [ih child]

theorem TrieNode.canonB_updateAt (n : TrieNode) (p : List Char)
    (f : TrieNode → TrieNode) (q : List Char)
    (hf : ∀ m, (f m).children = m.children)
    (he : ∀ m, (f m).isEndOfWord = m.isEndOfWord)
    (hw : ∀ m, (f m).word = m.word)
    (hskip : ∀ m, m.isEndOfWord = false → f m = m)
    (h : n.canonB q = true) : (n.updateAt p f).canonB q = true := by
  induction p generalizing n q with
  | nil =>
    rw [TrieNode.updateAt]
    obtain ⟨ch, e, w, cd, dwc⟩ := n
    cases e with
    | false => rw [hskip _ (by simp)]; exact h
    | true =>
      rw [← TrieNode.eta (f (TrieNode.mk ch true w cd dwc))]
      rw [hf, he, hw]
      simp only [TrieNode.children_mk, TrieNode.isEndOfWord_mk, TrieNode.word_mk]
      rw [TrieNode.canonB_mk] at h ⊢
      exact ⟨h.1, h.2.1, Or.inl rfl, h.2.2.2⟩
  | cons c rest ih =>
    rw [TrieNode.updateAt]
    obtain ⟨ch, e, w, cd, dwc⟩ := n
    simp only [TrieNode.children_mk, TrieNode.isEndOfWord_mk, TrieNode.word_mk,
      TrieNode.containingDocuments_mk, TrieNode.docToWordCount_mk]
    rcases hch : lookupKV ch c with _ | child
    · exact h
    · rw [TrieNode.canonB_mk] at h ⊢
      have hkeys : keysOf (setKV ch c (child.updateAt rest f)) = keysOf ch :=
        keysOf_setKV_of_mem ch c _ (by
          rw [← lookupKV_isSome_iff, hch]
          rfl)
      refine ⟨h.1, by rw [hkeys]; exact h.2.1, h.2.2.1, ?_⟩
      intro a ha
      rcases mem_setKV _ _ _ _ ha with h2 | h2
      · rw [h2]
        exact ih child (q ++ [c])
          (h.2.2.2 (c, child) (lookupKV_mem ch c child hch))
      · exact h.2.2.2 a h2

theorem TrieNode.alignedB_updateAt (n : TrieNode) (p : List Char)
    (f : TrieNode → TrieNode)
    (hf : ∀ m, (f m).children = m.children)
    (ha : ∀ m, m.containingDocuments = keysOf m.docToWordCount →
      (f m).containingDocuments = keysOf (f m).docToWordCount)
    (h : n.alignedB = true) : (n.updateAt p f).alignedB = true := by
  induction p generalizing n with
  | nil =>
    rw [TrieNode.updateAt]
    rw [← TrieNode.eta (f n), TrieNode.alignedB_mk, hf]
    obtain ⟨ch, e, w, cd, dwc⟩ := n
    rw [TrieNode.alignedB_mk] at h
    exact ⟨ha _ h.1, h.2⟩
  | cons c rest ih =>
    rw [TrieNode.updateAt]
    obtain ⟨ch, e, w, cd, dwc⟩ := n
    simp only [TrieNode.children_mk, TrieNode.isEndOfWord_mk, TrieNode.word_mk,
      TrieNode.containingDocuments_mk, TrieNode.docToWordCount_mk]
    rcases hch : lookupKV ch c with _ | child
    · exact h
    · rw [TrieNode.alignedB_mk] at h ⊢
      refine ⟨h.1, ?_⟩
      intro a ha2
      rcases mem_setKV _ _ _ _ ha2 with h2 | h2
      · rw [h2]
        exact ih child (h.2 (c, child) (lookupKV_mem ch c child hch))
      · exact h.2 a h2

/- ===== insertPath lemmas ===== -/

theorem TrieNode.findNode_empty (p : List Char) :
    TrieNode.empty.findNode p = if p = [] then some TrieNode.empty else none := by
  cases p with
  | nil => rfl
  | cons c rest => rfl

theorem TrieNode.viewAt_empty (v : List Char) : TrieNode.empty.viewAt v = none := by
  rw [TrieNode.viewAt_eq, TrieNode.findNode_empty]
  by_cases h : v = [] <;> simp [h, TrieNode.empty]

theorem TrieNode.canonB_empty (q : List Char) : TrieNode.empty.canonB q = true := by
  rw [TrieNode.empty, TrieNode.canonB_mk]
  simp [keysOf]

theorem TrieNode.alignedB_empty : TrieNode.empty.alignedB = true := by
  rw [TrieNode.empty, TrieNode.alignedB_mk]
  simp [keysOf]

theorem TrieNode.viewAt_insertPath_self (n : TrieNode) (p : List Char) (w : String) :
    (n.insertPath p w).viewAt p =
      some (w, ((n.findNode p).map TrieNode.containingDocuments).getD [],
        ((n.findNode p).map TrieNode.docToWordCount).getD []) := by
  induction p generalizing n with
  | nil =>
    rw [TrieNode.insertPath, TrieNode.viewAt_eq]
    simp
  | cons c rest ih =>
    rw [TrieNode.insertPath, TrieNode.viewAt_cons]
    simp only [TrieNode.children_mk, lookupKV_setKV_self]
    rw [ih, TrieNode.findNode_cons]
    rcases hch : lookupKV n.children c with _ | child
    · simp only [Option.getD_none, Option.map_none']
      rw [TrieNode.findNode_empty]
      by_cases hr : rest = [] <;> simp [hr, TrieNode.empty]
    · rfl

theorem TrieNode.viewAt_insertPath_ne (n : TrieNode) (p : List Char) (w : String)
    (v : List Char) (hne : v ≠ p) :
    (n.insertPath p w).viewAt v = n.viewAt v := by
  induction p generalizing n v with
  | nil =>
    cases v with
    | nil => exact absurd rfl hne
    | cons c vr =>
      rw [TrieNode.insertPath, TrieNode.viewAt_cons, TrieNode.viewAt_cons]
      simp only [TrieNode.children_mk]
  | cons c rest ih =>
    cases v with
    | nil =>
      rw [TrieNode.insertPath, TrieNode.viewAt_eq, TrieNode.viewAt_eq]
      rfl
    | cons c' vr =>
      rw [TrieNode.insertPath, TrieNode.viewAt_cons, TrieNode.viewAt_cons]
      simp only [TrieNode.children_mk]
      by_cases hcc : c = c'
      · subst hcc
        rw [lookupKV_setKV_self]
        have hvr : vr ≠ rest := fun hh => hne (by rw [hh])
        rcases hch : lookupKV n.children c with _ | child
        · show (TrieNode.empty.insertPath rest w).viewAt vr = none
          rw [ih _ _ hvr, TrieNode.viewAt_empty]
        · show (child.insertPath rest w).viewAt vr = child.viewAt vr
          exact ih _ _ hvr
      · rw [lookupKV_setKV_ne _ _ _ _ hcc]

theorem TrieNode.canonB_insertPath (n : TrieNode) (q p : List Char) (w : String)
    (hw : w = String.mk (q ++ p)) (h : n.canonB q = true) :
    (n.insertPath p w).canonB q = true := by
  induction p generalizing n q with
  | nil =>
    obtain ⟨ch, e, w0, cd, dwc⟩ := n
    rw [TrieNode.insertPath]
    simp only [TrieNode.children_mk, TrieNode.containingDocuments_mk,
      TrieNode.docToWordCount_mk]
    rw [TrieNode.canonB_mk] at h ⊢
    refine ⟨by simpa using hw, h.2.1, Or.inl rfl, h.2.2.2⟩
  | cons c rest ih =>
    obtain ⟨ch, e, w0, cd, dwc⟩ := n
    rw [TrieNode.insertPath]
    simp only [TrieNode.children_mk, TrieNode.isEndOfWord_mk, TrieNode.word_mk,
      TrieNode.containingDocuments_mk, TrieNode.docToWordCount_mk]
    rw [TrieNode.canonB_mk] at h ⊢
    have hkn : (keysOf (setKV ch c
        (((lookupKV ch c).getD TrieNode.empty).insertPath rest w))).Nodup :=
      keysOf_setKV_nodup _ _ _ h.2.1
    refine ⟨h.1, hkn, h.2.2.1, ?_⟩
    intro a ha
    rcases mem_setKV _ _ _ _ ha with h2 | h2
    · rw [h2]
      have hcanon : ((lookupKV ch c).getD TrieNode.empty).canonB (q ++ [c]) = true := by
        rcases hch : lookupKV ch c with _ | child
        · simp [TrieNode.canonB_empty]
        · simpa using h.2.2.2 (c, child) (lookupKV_mem ch c child hch)
      have hww : w = String.mk ((q ++ [c]) ++ rest) := by
        rw [hw, List.append_assoc, List.singleton_append]
      exact ih _ _ hww hcanon
    · exact h.2.2.2 a h2

theorem TrieNode.alignedB_insertPath (n : TrieNode) (p : List Char) (w : String)
    (h : n.alignedB = true) : (n.insertPath p w).alignedB = true := by
  induction p generalizing n with
  | nil =>
    obtain ⟨ch, e, w0, cd, dwc⟩ := n
    rw [TrieNode.insertPath]
    simp only [TrieNode.children_mk, TrieNode.containingDocuments_mk,
      TrieNode.docToWordCount_mk]
    rw [TrieNode.alignedB_mk] at h ⊢
    exact h
  | cons c rest ih =>
    obtain ⟨ch, e, w0, cd, dwc⟩ := n
    rw [TrieNode.insertPath]
    simp only [TrieNode.children_mk, TrieNode.containingDocuments_mk,
      TrieNode.docToWordCount_mk]
    rw [TrieNode.alignedB_mk] at h ⊢
    refine ⟨h.1, ?_⟩
    intro a ha
    rcases mem_setKV _ _ _ _ ha with h2 | h2
    · rw [h2]
      have halign : ((lookupKV ch c).getD TrieNode.empty).alignedB = true := by
        rcases hch : lookupKV ch c with _ | child
        · simp [TrieNode.alignedB_empty]
        · simpa using h.2 (c, child) (lookupKV_mem ch c child hch)
      exact ih _ halign
    · exact h.2 a h2

/- ===== removeHelper lemmas ===== -/

theorem setKV_ne_nil {α β : Type} [DecidableEq α] (l : List (α × β)) (k : α)
    (v : β) : setKV l k v ≠ [] := by
  cases l with
  | nil => simp [setKV]
  | cons q rest =>
    obtain ⟨k', v'⟩ := q
    rw [setKV_cons]
    by_cases h : k' = k <;> simp [h]

theorem mem_eraseKV {α β : Type} [DecidableEq α] (l : List (α × β)) (k : α)
    (a : α × β) (h : a ∈ eraseKV l k) : a ∈ l := by
  induction l with
  | nil => simpa [eraseKV] using h
  | cons q rest ih =>
    obtain ⟨k', v'⟩ := q
    rw [eraseKV_cons] at h
    by_cases hk : k' = k
    · rw [if_pos hk] at h
      exact List.mem_cons_of_mem _ h
    · rw [if_neg hk] at h
      rcases List.mem_cons.mp h with h2 | h2
      · simp [h2]
      · exact List.mem_cons_of_mem _ (ih h2)

theorem TrieNode.viewAt_of_childless (n : TrieNode) (hch : n.children = [])
    (he : n.isEndOfWord = false) (v : List Char) : n.viewAt v = none := by
  cases v with
  | nil =>
    rw [TrieNode.viewAt_eq]
    simp [he]
  | cons c vr =>
    rw [TrieNode.viewAt_cons, hch]
    rfl

theorem TrieNode.removeHelper_of_not_eow (n : TrieNode) (p : List Char)
    (h : ∀ m, n.findNode p = some m → m.isEndOfWord = false) :
    n.removeHelper p = (n, false) := by
  induction p generalizing n with
  | nil =>
    have he := h n rfl
    rw [TrieNode.removeHelper]
    simp [he]
  | cons c rest ih =>
    rw [TrieNode.removeHelper]
    rcases hch : lookupKV n.children c with _ | child
    · rfl
    · have hih : child.removeHelper rest = (child, false) := by
        apply ih
        intro m hm
        apply h
        rw [TrieNode.findNode_cons, hch]
        exact hm
      simp only [hih, Bool.false_eq_true, if_false]
      rw [setKV_of_lookup_eq _ _ _ hch, TrieNode.eta]

theorem TrieNode.removeHelper_isEndOfWord (n : TrieNode) (p : List Char) :
    (n.removeHelper p).1.isEndOfWord = if p = [] then false else n.isEndOfWord := by
  cases p with
  | nil =>
    rw [TrieNode.removeHelper]
    cases he : n.isEndOfWord <;> simp [he]
  | cons c rest =>
    rw [TrieNode.removeHelper]
    rcases hch : lookupKV n.children c with _ | child
    · simp
    · cases hr : (child.removeHelper rest).2 <;> simp [hr]

theorem TrieNode.removeHelper_snd_eq (n : TrieNode) (p : List Char) (m : TrieNode)
    (hfind : n.findNode p = some m) (he : m.isEndOfWord = true) :
    (n.removeHelper p).2 =
      ((n.removeHelper p).1.children.isEmpty && !(n.removeHelper p).1.isEndOfWord) := by
  induction p generalizing n with
  | nil =>
    obtain rfl := Option.some.inj hfind
    rw [TrieNode.removeHelper]
    simp [he]
  | cons c rest ih =>
    rw [TrieNode.findNode_cons] at hfind
    rcases hch : lookupKV n.children c with _ | child
    · rw [hch] at hfind
      exact absurd hfind (by simp)
    · rw [hch] at hfind
      rw [TrieNode.removeHelper, hch]
      cases hr : (child.removeHelper rest).2 with
      | false =>
        simp only [hr, Bool.false_eq_true, if_false]
        simp [List.isEmpty_iff, setKV_ne_nil]
      | true => simp [hr]

theorem TrieNode.removeHelper_cons_of_flag_true (ch : List (Char × TrieNode))
    (e : Bool) (w : String) (cd : List String) (dwc : List (String × Nat))
    (c : Char) (rest : List Char) (child : TrieNode)
    (hch : lookupKV ch c = some child)
    (hr : (child.removeHelper rest).2 = true) :
    ((TrieNode.mk ch e w cd dwc).removeHelper (c :: rest)).1 =
      TrieNode.mk (eraseKV ch c) e w cd dwc := by
  rw [TrieNode.removeHelper]
  simp only [TrieNode.children_mk, hch, hr, eq_self_iff_true, if_true,
    TrieNode.isEndOfWord_mk, TrieNode.word_mk, TrieNode.containingDocuments_mk,
    TrieNode.docToWordCount_mk]

theorem TrieNode.removeHelper_cons_of_flag_false (ch : List (Char × TrieNode))
    (e : Bool) (w : String) (cd : List String) (dwc : List (String × Nat))
    (c : Char) (rest : List Char) (child : TrieNode)
    (hch : lookupKV ch c = some child)
    (hr : (child.removeHelper rest).2 = false) :
    ((TrieNode.mk ch e w cd dwc).removeHelper (c :: rest)).1 =
      TrieNode.mk (setKV ch c (child.removeHelper rest).1) e w cd dwc := by
  rw [TrieNode.removeHelper]
  simp only [TrieNode.children_mk, hch, hr, Bool.false_eq_true, if_false,
    TrieNode.isEndOfWord_mk, TrieNode.word_mk, TrieNode.containingDocuments_mk,
    TrieNode.docToWordCount_mk]

theorem TrieNode.viewAt_removeHelper_self (n : TrieNode) (p q : List Char)
    (m : TrieNode) (hfind : n.findNode p = some m) (he : m.isEndOfWord = true)
    (hc : n.canonB q = true) : (n.removeHelper p).1.viewAt p = none := by
  induction p generalizing n q with
  | nil =>
    obtain rfl := Option.some.inj hfind
    rw [TrieNode.removeHelper]
    simp only [he, Bool.not_true, Bool.false_eq_true, if_neg (by simp : ¬(false = true))]
    rw [TrieNode.viewAt_eq]
    simp
  | cons c rest ih =>
    rw [TrieNode.findNode_cons] at hfind
    rcases hch : lookupKV n.children c with _ | child
    · rw [hch] at hfind
      exact absurd hfind (by simp)
    · rw [hch] at hfind
      obtain ⟨ch, e, w, cd, dwc⟩ := n
      simp only [TrieNode.children_mk] at hch
      have hcanon := (TrieNode.canonB_mk ch e w cd dwc q).mp hc
      have hchild : child.canonB (q ++ [c]) = true := by
        simpa using hcanon.2.2.2 (c, child) (lookupKV_mem ch c child hch)
      cases hr : (child.removeHelper rest).2 with
      | true =>
        rw [TrieNode.removeHelper_cons_of_flag_true ch e w cd dwc c rest child hch hr]
        rw [TrieNode.viewAt_cons]
        simp only [TrieNode.children_mk]
        rw [lookupKV_eraseKV_self _ _ hcanon.2.1]
      | false =>
        rw [TrieNode.removeHelper_cons_of_flag_false ch e w cd dwc c rest child hch hr]
        rw [TrieNode.viewAt_cons]
        simp only [TrieNode.children_mk, lookupKV_setKV_self]
        exact ih child (q ++ [c]) hfind hchild

theorem TrieNode.viewAt_removeHelper_ne (n : TrieNode) (p v q : List Char)
    (hc : n.canonB q = true) (hne : v ≠ p) :
    (n.removeHelper p).1.viewAt v = n.viewAt v := by
  induction p generalizing n v q with
  | nil =>
    rw [TrieNode.removeHelper]
    cases he : n.isEndOfWord with
    | false => simp
    | true =>
      simp only [he, Bool.not_true, Bool.false_eq_true,
        if_neg (by simp : ¬(false = true))]
      cases v with
      | nil => exact absurd rfl hne
      | cons c vr =>
        rw [TrieNode.viewAt_cons, TrieNode.viewAt_cons]
        rfl
  | cons c rest ih =>
    rcases hch0 : lookupKV n.children c with _ | child
    · rw [TrieNode.removeHelper, hch0]
    · obtain ⟨ch, e, w, cd, dwc⟩ := n
      simp only [TrieNode.children_mk] at hch0
      have hcanon := (TrieNode.canonB_mk ch e w cd dwc q).mp hc
      have hchild : child.canonB (q ++ [c]) = true := by
        simpa using hcanon.2.2.2 (c, child) (lookupKV_mem ch c child hch0)
      cases hr : (child.removeHelper rest).2 with
      | false =>
        rw [TrieNode.removeHelper_cons_of_flag_false ch e w cd dwc c rest child hch0 hr]
        cases v with
        | nil =>
          rw [TrieNode.viewAt_eq, TrieNode.viewAt_eq]
          rfl
        | cons c' vr =>
          rw [TrieNode.viewAt_cons, TrieNode.viewAt_cons]
          simp only [TrieNode.children_mk]
          by_cases hcc : c = c'
          · subst hcc
            rw [lookupKV_setKV_self, hch0]
            exact ih child vr (q ++ [c]) hchild (fun hh => hne (by rw [hh]))
          · rw [lookupKV_setKV_ne _ _ _ _ hcc]
      | true =>
        rw [TrieNode.removeHelper_cons_of_flag_true ch e w cd dwc c rest child hch0 hr]
        have hterm : ∃ m', child.findNode rest = some m' ∧ m'.isEndOfWord = true := by
          by_contra hno
          push_neg at hno
          have hthis : child.removeHelper rest = (child, false) := by
            apply TrieNode.removeHelper_of_not_eow
            intro m hm
            rcases hm2 : m.isEndOfWord with _ | _
            · rfl
            · exact absurd hm2 (hno m hm)
          rw [hthis] at hr
          simp at hr
        obtain ⟨m', hm', hem'⟩ := hterm
        have hflag := TrieNode.removeHelper_snd_eq child rest m' hm' hem'
        rw [hr] at hflag
        have hr1 : (child.removeHelper rest).1.children = [] ∧
            (child.removeHelper rest).1.isEndOfWord = false := by
          have h3 := hflag.symm
          simp only [Bool.and_eq_true, List.isEmpty_iff, Bool.not_eq_true'] at h3
          exact h3
        cases v with
        | nil =>
          rw [TrieNode.viewAt_eq, TrieNode.viewAt_eq]
          rfl
        | cons c' vr =>
          rw [TrieNode.viewAt_cons, TrieNode.viewAt_cons]
          simp only [TrieNode.children_mk]
          by_cases hcc : c = c'
          · subst hcc
            rw [lookupKV_eraseKV_self _ _ hcanon.2.1, hch0]
            have hvr : vr ≠ rest := fun hh => hne (by rw [hh])
            have h1 : (child.removeHelper rest).1.viewAt vr = child.viewAt vr :=
              ih child vr (q ++ [c]) hchild hvr
            have h2 : (child.removeHelper rest).1.viewAt vr = none :=
              TrieNode.viewAt_of_childless _ hr1.1 hr1.2 vr
            show (none : Option (String × List String × List (String × Nat))) =
              child.viewAt vr
            rw [← h1, h2]
          · rw [lookupKV_eraseKV_ne _ _ _ hcc]

theorem TrieNode.canonB_removeHelper (n : TrieNode) (p q : List Char)
    (hc : n.canonB q = true)
    (hm : ∀ m, n.findNode p = some m → m.isEndOfWord = true →
      m.containingDocuments = [] ∧ m.docToWordCount = []) :
    (n.removeHelper p).1.canonB q = true := by
  induction p generalizing n q with
  | nil =>
    obtain ⟨ch, e, w, cd, dwc⟩ := n
    rw [TrieNode.removeHelper]
    cases e with
    | false => simpa using hc
    | true =>
      simp only [TrieNode.isEndOfWord_mk, Bool.not_true, Bool.false_eq_true, if_false,
        TrieNode.children_mk, TrieNode.containingDocuments_mk, TrieNode.docToWordCount_mk]
      have hcd := hm _ rfl rfl
      simp only [TrieNode.containingDocuments_mk, TrieNode.docToWordCount_mk] at hcd
      rw [TrieNode.canonB_mk] at hc ⊢
      exact ⟨rfl, hc.2.1, Or.inr hcd, hc.2.2.2⟩
  | cons c rest ih =>
    rcases hch : lookupKV n.children c with _ | child
    · rw [TrieNode.removeHelper, hch]
      exact hc
    · obtain ⟨ch, e, w, cd, dwc⟩ := n
      simp only [TrieNode.children_mk] at hch
      have hcanon := (TrieNode.canonB_mk ch e w cd dwc q).mp hc
      have hchild : child.canonB (q ++ [c]) = true := by
        simpa using hcanon.2.2.2 (c, child) (lookupKV_mem ch c child hch)
      have hmchild : ∀ m, child.findNode rest = some m → m.isEndOfWord = true →
          m.containingDocuments = [] ∧ m.docToWordCount = [] := by
        intro m hm2 he2
        apply hm m _ he2
        rw [TrieNode.findNode_cons]
        simp only [TrieNode.children_mk, hch]
        exact hm2
      cases hr : (child.removeHelper rest).2 with
      | false =>
        rw [TrieNode.removeHelper_cons_of_flag_false ch e w cd dwc c rest child hch hr]
        rw [TrieNode.canonB_mk]
        refine ⟨hcanon.1, ?_, hcanon.2.2.1, ?_⟩
        · rw [keysOf_setKV_of_mem ch c _ (by
            rw [← lookupKV_isSome_iff, hch]; rfl)]
          exact hcanon.2.1
        · intro a ha
          rcases mem_setKV _ _ _ _ ha with h2 | h2
          · rw [h2]
            exact ih child (q ++ [c]) hchild hmchild
          · exact hcanon.2.2.2 a h2
      | true =>
        rw [TrieNode.removeHelper_cons_of_flag_true ch e w cd dwc c rest child hch hr]
        rw [TrieNode.canonB_mk]
        refine ⟨hcanon.1, ?_, hcanon.2.2.1, ?_⟩
        · rw [keysOf_eraseKV]
          exact hcanon.2.1.erase c
        · intro a ha
          exact hcanon.2.2.2 a (mem_eraseKV _ _ _ ha)

theorem TrieNode.alignedB_removeHelper (n : TrieNode) (p : List Char)
    (h : n.alignedB = true) : (n.removeHelper p).1.alignedB = true := by
  induction p generalizing n with
  | nil =>
    obtain ⟨ch, e, w, cd, dwc⟩ := n
    rw [TrieNode.removeHelper]
    cases e with
    | false => simpa using h
    | true =>
      simp only [TrieNode.isEndOfWord_mk, Bool.not_true, Bool.false_eq_true, if_false,
        TrieNode.children_mk, TrieNode.containingDocuments_mk, TrieNode.docToWordCount_mk]
      rw [TrieNode.alignedB_mk] at h ⊢
      exact h
  | cons c rest ih =>
    rcases hch : lookupKV n.children c with _ | child
    · rw [TrieNode.removeHelper, hch]
      exact h
    · obtain ⟨ch, e, w, cd, dwc⟩ := n
      simp only [TrieNode.children_mk] at hch
      have halign := (TrieNode.alignedB_mk ch e w cd dwc).mp h
      have hchild : child.alignedB = true := by
        simpa using halign.2 (c, child) (lookupKV_mem ch c child hch)
      cases hr : (child.removeHelper rest).2 with
      | false =>
        rw [TrieNode.removeHelper_cons_of_flag_false ch e w cd dwc c rest child hch hr]
        rw [TrieNode.alignedB_mk]
        refine ⟨halign.1, ?_⟩
        intro a ha
        rcases mem_setKV _ _ _ _ ha with h2 | h2
        · rw [h2]
          exact ih child hchild
        · exact halign.2 a h2
      | true =>
        rw [TrieNode.removeHelper_cons_of_flag_true ch e w cd dwc c rest child hch hr]
        rw [TrieNode.alignedB_mk]
        exact ⟨halign.1, fun a ha => halign.2 a (mem_eraseKV _ _ _ ha)⟩

theorem TrieNode.hasWordB_of_pruned (m : TrieNode) (hp : m.prunedB = true)
    (h : m.children ≠ [] ∨ m.isEndOfWord = true) : m.hasWordB = true := by
  obtain ⟨ch, e, w, cd, dwc⟩ := m
  rw [TrieNode.hasWordB_mk]
  rcases h with h | h
  · simp only [TrieNode.children_mk] at h
    rcases hch : ch with _ | ⟨a, rest⟩
    · exact absurd hch h
    · refine Or.inr ⟨a, by simp [hch], ?_⟩
      have := (TrieNode.prunedB_mk ch e w cd dwc).mp hp a (by simp [hch])
      exact this.1
  · simp only [TrieNode.isEndOfWord_mk] at h
    exact Or.inl h

theorem TrieNode.prunedB_removeHelper (n : TrieNode) (p : List Char)
    (hp : n.prunedB = true) : (n.removeHelper p).1.prunedB = true := by
  induction p generalizing n with
  | nil =>
    obtain ⟨ch, e, w, cd, dwc⟩ := n
    rw [TrieNode.removeHelper]
    cases e with
    | false => simpa using hp
    | true =>
      simp only [TrieNode.isEndOfWord_mk, Bool.not_true, Bool.false_eq_true, if_false,
        TrieNode.children_mk, TrieNode.containingDocuments_mk, TrieNode.docToWordCount_mk]
      rw [TrieNode.prunedB_mk] at hp ⊢
      exact hp
  | cons c rest ih =>
    rcases hch : lookupKV n.children c with _ | child
    · rw [TrieNode.removeHelper, hch]
      exact hp
    · obtain ⟨ch, e, w, cd, dwc⟩ := n
      simp only [TrieNode.children_mk] at hch
      have hpr := (TrieNode.prunedB_mk ch e w cd dwc).mp hp
      have hchild := hpr (c, child) (lookupKV_mem ch c child hch)
      cases hr : (child.removeHelper rest).2 with
      | false =>
        rw [TrieNode.removeHelper_cons_of_flag_false ch e w cd dwc c rest child hch hr]
        rw [TrieNode.prunedB_mk]
        intro a ha
        rcases mem_setKV _ _ _ _ ha with h2 | h2
        · rw [h2]
          have hpruned : (child.removeHelper rest).1.prunedB = true := ih child hchild.2
          refine ⟨?_, hpruned⟩
          by_cases hterm : ∃ m', child.findNode rest = some m' ∧ m'.isEndOfWord = true
          · obtain ⟨m', hm', hem'⟩ := hterm
            have hflag := TrieNode.removeHelper_snd_eq child rest m' hm' hem'
            rw [hr] at hflag
            have h5 : ¬((child.removeHelper rest).1.children.isEmpty &&
                !(child.removeHelper rest).1.isEndOfWord) = true := by
              rw [← hflag]
              exact Bool.false_ne_true
            apply TrieNode.hasWordB_of_pruned _ hpruned
            by_contra hcon
            push_neg at hcon
            obtain ⟨hc1, hc2⟩ := hcon
            apply h5
            have hc3 : (child.removeHelper rest).1.isEndOfWord = false := by
              cases hb : (child.removeHelper rest).1.isEndOfWord
              · rfl
              · exact absurd hb hc2
            simp [List.isEmpty_iff, hc1, hc3]
          · push_neg at hterm
            have hnoop : child.removeHelper rest = (child, false) := by
              apply TrieNode.removeHelper_of_not_eow
              intro m hm
              rcases hm2 : m.isEndOfWord with _ | _
              · rfl
              · exact absurd hm2 (hterm m hm)
            rw [hnoop]
            exact hchild.1
        · exact hpr a h2
      | true =>
        rw [TrieNode.removeHelper_cons_of_flag_true ch e w cd dwc c rest child hch hr]
        rw [TrieNode.prunedB_mk]
        intro a ha
        exact hpr a (mem_eraseKV _ _ _ ha)

/- ===== Trie.remove lemmas ===== -/

theorem Trie.remove_of_not_removable (t : Trie) (w : String)
    (h : ∀ x, t.root.viewAt (lowerStr w).toList = some x → x.2.1 ≠ []) :
    t.remove w = (t, false) := by
  rw [Trie.remove]
  rcases hfind : t.root.findNode (lowerStr w).toList with _ | n
  · rfl
  · cases he : n.isEndOfWord with
    | false => simp [he]
    | true =>
      cases hcd : n.containingDocuments.isEmpty with
      | false => simp [he, hcd]
      | true =>
        exfalso
        apply h (n.word, n.containingDocuments, n.docToWordCount)
        · rw [TrieNode.viewAt_eq, hfind]
          simp [he]
        · simpa [List.isEmpty_iff] using hcd

theorem Trie.remove_removable (t : Trie) (w : String)
    (x : String × List String × List (String × Nat))
    (hview : t.root.viewAt (lowerStr w).toList = some x) (hcd : x.2.1 = [])
    (hc : t.canon = true) (ha : t.aligned = true) :
    (t.remove w).1.canon = true ∧ (t.remove w).1.aligned = true ∧
    (t.remove w).1.root.viewAt (lowerStr w).toList = none ∧
    (∀ v, v ≠ (lowerStr w).toList → (t.remove w).1.root.viewAt v = t.root.viewAt v) ∧
    (t.pruned = true → (t.remove w).1.pruned = true) := by
  rw [TrieNode.viewAt_eq] at hview
  rcases hfind : t.root.findNode (lowerStr w).toList with _ | n
  · rw [hfind] at hview
    exact absurd hview (by simp)
  · simp only [hfind] at hview
    cases he : n.isEndOfWord with
    | false =>
      rw [he] at hview
      exact absurd hview (by simp)
    | true =>
      rw [he] at hview
      simp only [if_true] at hview
      obtain rfl := (Option.some.inj hview).symm
      simp only at hcd
      have hdwc : n.docToWordCount = [] := by
        have halignn := TrieNode.alignedB_descend t.root _ n hfind ha
        obtain ⟨ch, e, w0, cd, dwc⟩ := n
        have := ((TrieNode.alignedB_mk ch e w0 cd dwc).mp halignn).1
        simp only [TrieNode.containingDocuments_mk] at hcd
        rw [hcd] at this
        simp only [TrieNode.docToWordCount_mk]
        cases dwc with
        | nil => rfl
        | cons a rest => exact absurd this.symm (by simp [keysOf])
      have hguard : t.remove w = (⟨(t.root.removeHelper (lowerStr w).toList).1⟩,
          (t.root.removeHelper (lowerStr w).toList).2) := by
        rw [Trie.remove, hfind]
        simp [he, hcd]
      rw [hguard]
      refine ⟨?_, ?_, ?_, ?_, ?_⟩
      · exact TrieNode.canonB_removeHelper t.root _ [] hc (fun m hm _ => by
          rw [hfind] at hm
          obtain rfl := Option.some.inj hm
          exact ⟨hcd, hdwc⟩)
      · exact TrieNode.alignedB_removeHelper t.root _ ha
      · exact TrieNode.viewAt_removeHelper_self t.root _ [] n hfind he hc
      · exact fun v hv => TrieNode.viewAt_removeHelper_ne t.root _ v [] hc hv
      · exact fun hp => TrieNode.prunedB_removeHelper t.root _ hp

/- ===== collectWords and collectPostingDocs ===== -/

theorem toList_mk (l : List Char) : (String.mk l).toList = l := rfl

theorem mk_toList (s : String) : String.mk s.toList = s := rfl

theorem mk_injective (a b : List Char) (h : String.mk a = String.mk b) : a = b := by
  injection h

theorem asciiLower_of_lower (c : Char) (h : isLowerLetter c = true) :
    asciiLower c = c := by
  rw [asciiLower]
  rw [isLowerLetter] at h
  simp only [Bool.and_eq_true, decide_eq_true_eq] at h
  rw [if_neg]
  intro hcon
  simp only [Bool.and_eq_true, decide_eq_true_eq] at hcon
  have h1 : ('a' : Char) ≤ c := h.1
  have h2 : c ≤ 'Z' := hcon.2
  have h3 : ('a' : Char) ≤ 'Z' := le_trans h1 h2
  exact absurd h3 (by decide)

theorem lowerStr_of_lower (l : List Char) (h : l.all isLowerLetter = true) :
    lowerStr (String.mk l) = String.mk l := by
  rw [lowerStr, toList_mk]
  congr 1
  rw [List.all_eq_true] at h
  calc l.map asciiLower = l.map id := by
        apply List.map_congr_left
        intro c hcmem
        exact asciiLower_of_lower c (h c hcmem)
    _ = l := List.map_id l

theorem lookupKV_of_mem_nodup {α β : Type} [DecidableEq α] (l : List (α × β))
    (k : α) (v : β) (hmem : (k, v) ∈ l) (hnd : (keysOf l).Nodup) :
    lookupKV l k = some v := by
  induction l with
  | nil => simp at hmem
  | cons q rest ih =>
    obtain ⟨k', v'⟩ := q
    simp only [keysOf, List.map_cons, List.nodup_cons] at hnd
    rcases List.mem_cons.mp hmem with h | h
    · obtain ⟨rfl, rfl⟩ := Prod.mk.injEq .. ▸ h
      · rw [lookupKV_cons, if_pos rfl]
    · have hne : k' ≠ k := by
        intro hh
        subst hh
        exact hnd.1 (by
          simp only [List.mem_map]
          exact ⟨(k', v), h, rfl⟩)
      rw [lookupKV_cons, if_neg hne]
      exact ih h (by simpa [keysOf] using hnd.2)

theorem TrieNode.collectWords_mk (ch : List (Char × TrieNode)) (e : Bool)
    (w : String) (cd : List String) (dwc : List (String × Nat)) :
    (TrieNode.mk ch e w cd dwc).collectWords =
      (if e && decide (w ≠ "") then [w] else []) ++
        (ch.map (fun a => a.2.collectWords)).flatten := by
  rw [TrieNode.collectWords]
  congr 1
  rw [← List.attach_map_coe ch (fun a => a.2.collectWords)]

theorem TrieNode.collectPostingDocs_mk (ch : List (Char × TrieNode)) (e : Bool)
    (w : String) (cd : List String) (dwc : List (String × Nat)) :
    (TrieNode.mk ch e w cd dwc).collectPostingDocs =
      keysOf dwc ++ (ch.map (fun a => a.2.collectPostingDocs)).flatten := by
  rw [TrieNode.collectPostingDocs]
  congr 1
  rw [← List.attach_map_coe ch (fun a => a.2.collectPostingDocs)]

theorem mk_eq_empty_iff (l : List Char) : String.mk l = "" ↔ l = [] := by
  constructor
  · intro h
    exact mk_injective l [] h
  · intro h
    rw [h]

theorem TrieNode.mem_collectWords : ∀ (n : TrieNode) (q : List Char),
    n.canonB q = true → ∀ (s : String),
    (s ∈ n.collectWords ↔
      ∃ v x, n.viewAt v = some x ∧ s = String.mk (q ++ v) ∧ q ++ v ≠ []) := by
  intro n
  induction n using TrieNode.inductionOn with
  | h ch e w cd dwc ih =>
    intro q hc s
    obtain ⟨hw, hnd, hpost, hch⟩ := (TrieNode.canonB_mk ch e w cd dwc q).mp hc
    rw [TrieNode.collectWords_mk, List.mem_append]
    constructor
    · intro hs
      rcases hs with hs | hs
      · by_cases hcond : (e && decide (w ≠ "")) = true
        · rw [if_pos hcond] at hs
          simp only [List.mem_singleton] at hs
          simp only [Bool.and_eq_true, decide_eq_true_eq] at hcond
          rw [hcond.1] at hw
          simp only [if_true] at hw
          refine ⟨[], (w, cd, dwc), ?_, ?_, ?_⟩
          · rw [TrieNode.viewAt_eq]
            simp [hcond.1]
          · rw [hs, List.append_nil, hw]
          · rw [List.append_nil]
            intro hq
            exact hcond.2 (by rw [hw, hq])
        · rw [if_neg hcond] at hs
          simp at hs
      · rw [List.mem_flatten] at hs
        obtain ⟨l, hl, hsl⟩ := hs
        rw [List.mem_map] at hl
        obtain ⟨a, ha, rfl⟩ := hl
        have hcanona : a.2.canonB (q ++ [a.1]) = true := hch a ha
        obtain ⟨v', x, hview, hs2, _⟩ := ((ih a ha) (q ++ [a.1]) hcanona s).mp hsl
        refine ⟨a.1 :: v', x, ?_, ?_, by simp⟩
        · rw [TrieNode.viewAt_cons]
          simp only [TrieNode.children_mk]
          rw [lookupKV_of_mem_nodup ch a.1 a.2 (by simpa using ha) hnd]
          exact hview
        · rw [hs2, List.append_assoc, List.singleton_append]
    · rintro ⟨v, x, hview, hs, hne⟩
      cases v with
      | nil =>
        rw [TrieNode.viewAt_eq] at hview
        simp only [TrieNode.findNode_nil] at hview
        cases he : e with
        | false =>
          rw [he] at hview
          simp at hview
        | true =>
          rw [he] at hview
          simp only [TrieNode.isEndOfWord_mk, if_true] at hview
          rw [he] at hw
          simp only [if_true] at hw
          left
          rw [List.append_nil] at hs hne
          have hwne : w ≠ "" := by
            rw [hw]
            intro hcon
            exact hne ((mk_eq_empty_iff q).mp hcon)
          rw [if_pos (by simp [he, hwne])]
          simp [hs, hw]
      | cons c vr =>
        rw [TrieNode.viewAt_cons] at hview
        simp only [TrieNode.children_mk] at hview
        rcases hlk : lookupKV ch c with _ | child
        · rw [hlk] at hview
          simp at hview
        · rw [hlk] at hview
          have hmem : (c, child) ∈ ch := lookupKV_mem ch c child hlk
          right
          rw [List.mem_flatten]
          refine ⟨child.collectWords, List.mem_map.mpr ⟨(c, child), hmem, rfl⟩, ?_⟩
          apply ((ih (c, child) hmem) (q ++ [c]) (hch (c, child) hmem) s).mpr
          exact ⟨vr, x, hview, by rw [hs, List.append_assoc, List.singleton_append],
            by simp⟩

theorem TrieNode.collectWords_nodup : ∀ (n : TrieNode) (q : List Char),
    n.canonB q = true → n.collectWords.Nodup := by
  intro n
  induction n using TrieNode.inductionOn with
  | h ch e w cd dwc ih =>
    intro q hc
    obtain ⟨hw, hnd, hpost, hch⟩ := (TrieNode.canonB_mk ch e w cd dwc q).mp hc
    rw [TrieNode.collectWords_mk]
    have hpairs : List.Pairwise (fun a b : Char × TrieNode => a.1 ≠ b.1) ch := by
      have hnd2 : List.Pairwise (fun a b : Char => a ≠ b) (List.map Prod.fst ch) := hnd
      exact List.pairwise_map.mp hnd2
    rw [List.nodup_append]
    refine ⟨?_, ?_, ?_⟩
    · split <;> simp
    · rw [List.nodup_flatten]
      constructor
      · intro l hl
        rw [List.mem_map] at hl
        obtain ⟨a, ha, rfl⟩ := hl
        exact (ih a ha) (q ++ [a.1]) (hch a ha)
      · rw [List.pairwise_map]
        apply List.Pairwise.imp_of_mem ?_ hpairs
        intro a b hma hmb hab
        rw [List.disjoint_left]
        intro s hsa hsb
        obtain ⟨v1, x1, _, hs1, _⟩ :=
          ((TrieNode.mem_collectWords a.2 (q ++ [a.1]) (hch a hma)) s).mp hsa
        obtain ⟨v2, x2, _, hs2, _⟩ :=
          ((TrieNode.mem_collectWords b.2 (q ++ [b.1]) (hch b hmb)) s).mp hsb
        rw [hs1] at hs2
        have := mk_injective _ _ hs2
        rw [List.append_assoc, List.append_assoc] at this
        have h2 := List.append_cancel_left this
        simp only [List.singleton_append, List.cons.injEq] at h2
        exact hab h2.1
    · intro s hsl hsr
      by_cases hcond : (e && decide (w ≠ "")) = true
      · rw [if_pos hcond] at hsl
        simp only [List.mem_singleton] at hsl
        simp only [Bool.and_eq_true, decide_eq_true_eq] at hcond
        rw [hcond.1] at hw
        simp only [if_true] at hw
        rw [List.mem_flatten] at hsr
        obtain ⟨l, hl, hsl2⟩ := hsr
        rw [List.mem_map] at hl
        obtain ⟨a, ha, rfl⟩ := hl
        obtain ⟨v', x, _, hs2, _⟩ :=
          ((TrieNode.mem_collectWords a.2 (q ++ [a.1]) (hch a ha)) s).mp hsl2
        rw [hsl, hw] at hs2
        have := mk_injective _ _ hs2
        have hlen : q.length = (q ++ [a.1] ++ v').length := by rw [← this]
        simp only [List.length_append, List.length_singleton] at hlen
        omega
      · rw [if_neg hcond] at hsl
        simp at hsl

theorem TrieNode.mem_collectPostingDocs : ∀ (n : TrieNode) (q : List Char),
    n.canonB q = true → ∀ (d : String),
    (d ∈ n.collectPostingDocs ↔
      ∃ v x, n.viewAt v = some x ∧ d ∈ keysOf x.2.2) := by
  intro n
  induction n using TrieNode.inductionOn with
  | h ch e w cd dwc ih =>
    intro q hc d
    obtain ⟨hw, hnd, hpost, hch⟩ := (TrieNode.canonB_mk ch e w cd dwc q).mp hc
    rw [TrieNode.collectPostingDocs_mk, List.mem_append]
    constructor
    · intro hs
      rcases hs with hs | hs
      · cases he : e with
        | false =>
          rcases hpost with hpost | hpost
          · rw [he] at hpost
            simp at hpost
          · rw [hpost.2] at hs
            simp [keysOf] at hs
        | true =>
          refine ⟨[], (w, cd, dwc), ?_, hs⟩
          rw [TrieNode.viewAt_eq]
          simp [he]
      · rw [List.mem_flatten] at hs
        obtain ⟨l, hl, hsl⟩ := hs
        rw [List.mem_map] at hl
        obtain ⟨a, ha, rfl⟩ := hl
        obtain ⟨v', x, hview, hmem⟩ :=
          ((ih a ha) (q ++ [a.1]) (hch a ha) d).mp hsl
        refine ⟨a.1 :: v', x, ?_, hmem⟩
        rw [TrieNode.viewAt_cons]
        simp only [TrieNode.children_mk]
        rw [lookupKV_of_mem_nodup ch a.1 a.2 (by simpa using ha) hnd]
        exact hview
    · rintro ⟨v, x, hview, hmem⟩
      cases v with
      | nil =>
        rw [TrieNode.viewAt_eq] at hview
        simp only [TrieNode.findNode_nil] at hview
        cases he : e with
        | false =>
          rw [he] at hview
          simp at hview
        | true =>
          rw [he] at hview
          simp only [TrieNode.isEndOfWord_mk, if_true, Option.some.injEq] at hview
          left
          rw [← hview] at hmem
          exact hmem
      | cons c vr =>
        rw [TrieNode.viewAt_cons] at hview
        simp only [TrieNode.children_mk] at hview
        rcases hlk : lookupKV ch c with _ | child
        · rw [hlk] at hview
          simp at hview
        · rw [hlk] at hview
          have hmem2 : (c, child) ∈ ch := lookupKV_mem ch c child hlk
          right
          rw [List.mem_flatten]
          refine ⟨child.collectPostingDocs,
            List.mem_map.mpr ⟨(c, child), hmem2, rfl⟩, ?_⟩
          exact ((ih (c, child) hmem2) (q ++ [c]) (hch (c, child) hmem2) d).mpr
            ⟨vr, x, hview, hmem⟩

theorem Trie.mem_getAllWords (t : Trie) (hc : t.canon = true) (s : String) :
    s ∈ t.getAllWords ↔
      ∃ v x, t.root.viewAt v = some x ∧ s = String.mk v ∧ v ≠ [] := by
  rw [Trie.getAllWords]
  rw [TrieNode.mem_collectWords t.root [] hc s]
  simp

theorem Trie.getAllWords_nodup (t : Trie) (hc : t.canon = true) :
    t.getAllWords.Nodup :=
  TrieNode.collectWords_nodup t.root [] hc

theorem Trie.mem_allPostingDocs (t : Trie) (hc : t.canon = true) (d : String) :
    d ∈ t.allPostingDocs ↔
      ∃ v x, t.root.viewAt v = some x ∧ d ∈ keysOf x.2.2 :=
  TrieNode.mem_collectPostingDocs t.root [] hc d

/- ===== Trie-level operation lemmas ===== -/

theorem TrieNode.viewAt_some_elim (n : TrieNode) (v : List Char)
    (x : String × List String × List (String × Nat)) (h : n.viewAt v = some x) :
    ∃ m, n.findNode v = some m ∧ m.isEndOfWord = true ∧
      x = (m.word, m.containingDocuments, m.docToWordCount) := by
  rw [TrieNode.viewAt_eq] at h
  rcases hfind : n.findNode v with _ | m
  · rw [hfind] at h
    simp at h
  · simp only [hfind] at h
    cases he : m.isEndOfWord with
    | false =>
      rw [he] at h
      simp at h
    | true =>
      rw [he] at h
      simp only [if_true] at h
      exact ⟨m, rfl, he, (Option.some.inj h).symm⟩

theorem Trie.search_eq_viewAt (t : Trie) (w : String) :
    t.search w = (t.root.viewAt (lowerStr w).toList).isSome := by
  rw [Trie.search, TrieNode.viewAt_eq]
  rcases hfind : t.root.findNode (lowerStr w).toList with _ | n
  · rfl
  · cases he : n.isEndOfWord <;> simp [he]

theorem Trie.getDocumentsForWord_eq_viewAt (t : Trie) (w : String) :
    t.getDocumentsForWord w =
      ((t.root.viewAt (lowerStr w).toList).map (fun x => x.2.2)).getD [] := by
  rw [Trie.getDocumentsForWord, TrieNode.viewAt_eq]
  rcases hfind : t.root.findNode (lowerStr w).toList with _ | n
  · rfl
  · cases he : n.isEndOfWord <;> simp [he]

theorem Trie.getDocumentFrequency_eq_viewAt (t : Trie) (w : String) :
    t.getDocumentFrequency w =
      ((t.root.viewAt (lowerStr w).toList).map (fun x => x.2.1.length)).getD 0 := by
  rw [Trie.getDocumentFrequency, TrieNode.viewAt_eq]
  rcases hfind : t.root.findNode (lowerStr w).toList with _ | n
  · rfl
  · cases he : n.isEndOfWord <;> simp [he]

theorem Trie.insert_viewAt_ne (t : Trie) (w : String) (v : List Char)
    (hne : v ≠ (lowerStr w).toList) :
    (t.insert w).root.viewAt v = t.root.viewAt v :=
  TrieNode.viewAt_insertPath_ne t.root _ _ v hne

theorem Trie.insert_viewAt_self (t : Trie) (w : String) (hc : t.canon = true)
    (hs : t.search w = false) :
    (t.insert w).root.viewAt (lowerStr w).toList = some (lowerStr w, [], []) := by
  rw [Trie.insert]
  rw [TrieNode.viewAt_insertPath_self]
  rcases hfind : t.root.findNode (lowerStr w).toList with _ | m
  · simp
  · have he : m.isEndOfWord = false := by
      rw [Trie.search, hfind] at hs
      exact hs
    have hcanon := TrieNode.canonB_descend t.root [] _ m hfind hc
    obtain ⟨ch, e, w0, cd, dwc⟩ := m
    simp only [TrieNode.isEndOfWord_mk] at he
    subst he
    have hpost := ((TrieNode.canonB_mk ch false w0 cd dwc _).mp hcanon).2.2.1
    simp only [Bool.false_eq_true, false_or] at hpost
    simp [hpost.1, hpost.2]

theorem Trie.insert_canon (t : Trie) (w : String) (hc : t.canon = true) :
    (t.insert w).canon = true := by
  rw [Trie.insert, Trie.canon]
  exact TrieNode.canonB_insertPath t.root [] _ _ (by rw [List.nil_append, mk_toList]) hc

theorem Trie.insert_aligned (t : Trie) (w : String) (ha : t.aligned = true) :
    (t.insert w).aligned = true := by
  rw [Trie.insert, Trie.aligned]
  exact TrieNode.alignedB_insertPath t.root _ _ ha

theorem Trie.addDocumentToWord_viewAt_ne (t : Trie) (w docID : String) (c : Nat)
    (v : List Char) (hne : v ≠ (lowerStr w).toList) :
    (t.addDocumentToWord w docID c).root.viewAt v = t.root.viewAt v := by
  rw [Trie.addDocumentToWord]
  apply TrieNode.viewAt_updateAt_ne _ _ _ _ ?_ hne
  intro m
  cases hm : m.isEndOfWord <;> simp [hm]

theorem Trie.addDocumentToWord_viewAt_self (t : Trie) (w docID : String) (c : Nat) :
    (t.addDocumentToWord w docID c).root.viewAt (lowerStr w).toList =
      (t.root.viewAt (lowerStr w).toList).map
        (fun x => (x.1, insertMem x.2.1 docID, setKV x.2.2 docID c)) := by
  rw [Trie.addDocumentToWord]
  rcases hfind : t.root.findNode (lowerStr w).toList with _ | m
  · rw [TrieNode.updateAt_of_findNode_none _ _ _ hfind]
    rw [TrieNode.viewAt_eq, hfind]
    rfl
  · rw [TrieNode.viewAt_eq, TrieNode.findNode_updateAt_self _ _ _ _ hfind]
    rw [TrieNode.viewAt_eq]
    simp only [hfind]
    cases he : m.isEndOfWord with
    | false => simp [he]
    | true =>
      obtain ⟨ch, e, w0, cd, dwc⟩ := m
      simp only [TrieNode.isEndOfWord_mk] at he
      subst he
      simp

theorem Trie.addDocumentToWord_canon (t : Trie) (w docID : String) (c : Nat)
    (hc : t.canon = true) : (t.addDocumentToWord w docID c).canon = true := by
  rw [Trie.addDocumentToWord, Trie.canon]
  apply TrieNode.canonB_updateAt _ _ _ _ ?_ ?_ ?_ ?_ hc
  · intro m
    cases hm : m.isEndOfWord <;> simp [hm]
  · intro m
    cases hm : m.isEndOfWord <;> simp [hm]
  · intro m
    cases hm : m.isEndOfWord <;> simp [hm]
  · intro m hm
    simp [hm]

theorem Trie.addDocumentToWord_aligned (t : Trie) (w docID : String) (c : Nat)
    (ha : t.aligned = true) : (t.addDocumentToWord w docID c).aligned = true := by
  rw [Trie.addDocumentToWord, Trie.aligned]
  apply TrieNode.alignedB_updateAt _ _ _ ?_ ?_ ha
  · intro m
    cases hm : m.isEndOfWord <;> simp [hm]
  · intro m hal
    cases hm : m.isEndOfWord with
    | false => simpa [hm] using hal
    | true =>
      simp only [hm, if_true, TrieNode.containingDocuments_mk,
        TrieNode.docToWordCount_mk]
      by_cases hd : docID ∈ m.containingDocuments
      · rw [insertMem, if_pos hd, hal,
          keysOf_setKV_of_mem _ _ _ (by rw [← hal]; exact hd)]
      · rw [insertMem, if_neg hd, hal,
          keysOf_setKV_of_not_mem _ _ _ (by rw [← hal]; exact hd)]

theorem Trie.removeDocumentFromWord_viewAt_ne (t : Trie) (w docID : String)
    (v : List Char) (hne : v ≠ (lowerStr w).toList) :
    (t.removeDocumentFromWord w docID).1.root.viewAt v = t.root.viewAt v := by
  rw [Trie.removeDocumentFromWord]
  simp only
  rw [TrieNode.updateAtB_fst]
  apply TrieNode.viewAt_updateAt_ne _ _ _ _ ?_ hne
  intro m
  by_cases hm : m.isEndOfWord = true ∧ docID ∈ m.containingDocuments <;> simp [hm]

theorem Trie.removeDocumentFromWord_viewAt_self (t : Trie) (w docID : String) :
    (t.removeDocumentFromWord w docID).1.root.viewAt (lowerStr w).toList =
      (t.root.viewAt (lowerStr w).toList).map
        (fun x => if docID ∈ x.2.1 then
          (x.1, x.2.1.erase docID, eraseKV x.2.2 docID) else x) := by
  rw [Trie.removeDocumentFromWord]
  simp only
  rw [TrieNode.updateAtB_fst]
  rcases hfind : t.root.findNode (lowerStr w).toList with _ | m
  · rw [TrieNode.updateAt_of_findNode_none _ _ _ hfind]
    rw [TrieNode.viewAt_eq, hfind]
    rfl
  · rw [TrieNode.viewAt_eq, TrieNode.findNode_updateAt_self _ _ _ _ hfind]
    rw [TrieNode.viewAt_eq]
    simp only [hfind]
    cases he : m.isEndOfWord with
    | false => simp [he]
    | true =>
      by_cases hd : docID ∈ m.containingDocuments
      · simp only [he, true_and, hd, if_pos]
        obtain ⟨ch, e, w0, cd, dwc⟩ := m
        simp only [TrieNode.isEndOfWord_mk] at he
        subst he
        simp only [TrieNode.containingDocuments_mk] at hd
        simp [hd]
      · simp only [he, true_and, hd, if_neg, if_false]
        obtain ⟨ch, e, w0, cd, dwc⟩ := m
        simp only [TrieNode.isEndOfWord_mk] at he
        subst he
        simp only [TrieNode.containingDocuments_mk] at hd
        simp [hd]

theorem Trie.removeDocumentFromWord_canon (t : Trie) (w docID : String)
    (hc : t.canon = true) : (t.removeDocumentFromWord w docID).1.canon = true := by
  rw [Trie.removeDocumentFromWord, Trie.canon]
  simp only
  rw [TrieNode.updateAtB_fst]
  apply TrieNode.canonB_updateAt _ _ _ _ ?_ ?_ ?_ ?_ hc
  · intro m
    by_cases hm : m.isEndOfWord = true ∧ docID ∈ m.containingDocuments <;> simp [hm]
  · intro m
    by_cases hm : m.isEndOfWord = true ∧ docID ∈ m.containingDocuments <;> simp [hm]
  · intro m
    by_cases hm : m.isEndOfWord = true ∧ docID ∈ m.containingDocuments <;> simp [hm]
  · intro m hm
    have : ¬(m.isEndOfWord = true ∧ docID ∈ m.containingDocuments) := by
      rw [hm]
      simp
    simp [this]

theorem Trie.removeDocumentFromWord_aligned (t : Trie) (w docID : String)
    (ha : t.aligned = true) : (t.removeDocumentFromWord w docID).1.aligned = true := by
  rw [Trie.removeDocumentFromWord, Trie.aligned]
  simp only
  rw [TrieNode.updateAtB_fst]
  apply TrieNode.alignedB_updateAt _ _ _ ?_ ?_ ha
  · intro m
    by_cases hm : m.isEndOfWord = true ∧ docID ∈ m.containingDocuments <;> simp [hm]
  · intro m hal
    by_cases hm : m.isEndOfWord = true ∧ docID ∈ m.containingDocuments
    · rw [if_pos hm]
      simp only [TrieNode.containingDocuments_mk, TrieNode.docToWordCount_mk]
      rw [keysOf_eraseKV, hal]
    · rw [if_neg hm]
      exact hal

/- ===== cleanupEmptyWords ===== -/

theorem Trie.remove_fold (ws : List String) : ∀ (t : Trie),
    t.canon = true → t.aligned = true →
    (ws.foldl (fun acc w => (acc.remove w).1) t).canon = true ∧
    (ws.foldl (fun acc w => (acc.remove w).1) t).aligned = true ∧
    (∀ v, (∀ x, t.root.viewAt v = some x → x.2.1 ≠ []) →
      (ws.foldl (fun acc w => (acc.remove w).1) t).root.viewAt v =
        t.root.viewAt v) ∧
    (∀ v x, t.root.viewAt v = some x → x.2.1 = [] →
      (∃ s ∈ ws, (lowerStr s).toList = v) →
      (ws.foldl (fun acc w => (acc.remove w).1) t).root.viewAt v = none) := by
  induction ws with
  | nil =>
    intro t hc ha
    exact ⟨hc, ha, fun v _ => rfl, fun v x _ _ hex => by simp at hex⟩
  | cons s ws' ih =>
    intro t hc ha
    simp only [List.foldl_cons]
    by_cases hguard : ∃ x0, t.root.viewAt (lowerStr s).toList = some x0 ∧ x0.2.1 = []
    · obtain ⟨x0, hview0, hcd0⟩ := hguard
      obtain ⟨hc1, ha1, hself, hother, _⟩ :=
        Trie.remove_removable t s x0 hview0 hcd0 hc ha
      obtain ⟨hc2, ha2, hpres, hrem⟩ := ih (t.remove s).1 hc1 ha1
      refine ⟨hc2, ha2, ?_, ?_⟩
      · intro v hv
        by_cases hvp : v = (lowerStr s).toList
        · subst hvp
          exact absurd hcd0 (hv x0 hview0)
        · rw [hpres v (by rw [hother v hvp]; exact hv), hother v hvp]
      · intro v x hvx hcd hex
        by_cases hvp : v = (lowerStr s).toList
        · subst hvp
          rw [hpres _ (by rw [hself]; intro x' hx'; exact absurd hx' (by simp))]
          exact hself
        · rcases hex with ⟨s2, hs2, hps2⟩
          rcases List.mem_cons.mp hs2 with rfl | hs2m
          · exact absurd hps2.symm hvp
          · exact hrem v x (by rw [hother v hvp]; exact hvx) hcd ⟨s2, hs2m, hps2⟩
    · push_neg at hguard
      have hnoop : t.remove s = (t, false) := by
        apply Trie.remove_of_not_removable
        intro x hx
        exact hguard x hx
      rw [hnoop]
      obtain ⟨hc2, ha2, hpres, hrem⟩ := ih t hc ha
      refine ⟨hc2, ha2, hpres, ?_⟩
      intro v x hvx hcd hex
      rcases hex with ⟨s2, hs2, hps2⟩
      rcases List.mem_cons.mp hs2 with rfl | hs2m
      · rw [← hps2] at hvx
        exact absurd hvx (by
          intro hcon
          exact hguard x hcon hcd)
      · exact hrem v x hvx hcd ⟨s2, hs2m, hps2⟩

theorem Trie.cleanup_props (t : Trie) (hc : t.canon = true) (ha : t.aligned = true)
    (hroot : t.root.viewAt [] = none)
    (hlow : ∀ v x, t.root.viewAt v = some x → v.all isLowerLetter = true) :
    t.cleanupEmptyWords.canon = true ∧ t.cleanupEmptyWords.aligned = true ∧
    (∀ v, t.cleanupEmptyWords.root.viewAt v =
      match t.root.viewAt v with
      | some x => if x.2.1 = [] then none else some x
      | none => none) := by
  rw [Trie.cleanupEmptyWords]
  obtain ⟨hc2, ha2, hpres, hrem⟩ := Trie.remove_fold
    (t.getAllWords.filter (fun w =>
      match t.root.findNode w.toList with
      | some n => n.containingDocuments.isEmpty
      | none => false)) t hc ha
  refine ⟨hc2, ha2, ?_⟩
  intro v
  rcases hview : t.root.viewAt v with _ | x
  · simp only
    rw [hpres v (fun x hx => absurd hx (by rw [hview]; simp))]
    exact hview
  · simp only
    by_cases hcd : x.2.1 = []
    · rw [if_pos hcd]
      apply hrem v x hview hcd
      refine ⟨String.mk v, ?_, ?_⟩
      · rw [List.mem_filter]
        have hvne : v ≠ [] := by
          intro hcon
          subst hcon
          rw [hroot] at hview
          exact absurd hview (by simp)
        constructor
        · exact (Trie.mem_getAllWords t hc (String.mk v)).mpr ⟨v, x, hview, rfl, hvne⟩
        · obtain ⟨m, hfind, he, hx⟩ := TrieNode.viewAt_some_elim t.root v x hview
          rw [toList_mk, hfind]
          rw [hx] at hcd
          simp only at hcd
          simp [hcd, List.isEmpty_iff]
      · rw [lowerStr_of_lower v (hlow v x hview), toList_mk]
    · rw [if_neg hcd]
      rw [hpres v ?_]
      · exact hview
      · intro x' hx'
        rw [hview] at hx'
        obtain rfl := Option.some.inj hx'
        exact hcd

/- ===== Reachable-trie invariants, C9 and amended C5 ===== -/

theorem Trie.new_canon : Trie.new.canon = true := TrieNode.canonB_empty []

theorem Trie.new_aligned : Trie.new.aligned = true := TrieNode.alignedB_empty

theorem Trie.remove_canon_aligned (t : Trie) (w : String) (hc : t.canon = true)
    (ha : t.aligned = true) :
    (t.remove w).1.canon = true ∧ (t.remove w).1.aligned = true := by
  by_cases hg : ∃ x, t.root.viewAt (lowerStr w).toList = some x ∧ x.2.1 = []
  · obtain ⟨x, hview, hcd⟩ := hg
    obtain ⟨h1, h2, _⟩ := Trie.remove_removable t w x hview hcd hc ha
    exact ⟨h1, h2⟩
  · push_neg at hg
    rw [Trie.remove_of_not_removable t w hg]
    exact ⟨hc, ha⟩

theorem Trie.cleanup_canon_aligned (t : Trie) (hc : t.canon = true)
    (ha : t.aligned = true) :
    t.cleanupEmptyWords.canon = true ∧ t.cleanupEmptyWords.aligned = true := by
  rw [Trie.cleanupEmptyWords]
  have h := Trie.remove_fold (t.getAllWords.filter (fun w =>
    match t.root.findNode w.toList with
    | some n => n.containingDocuments.isEmpty
    | none => false)) t hc ha
  exact ⟨h.1, h.2.1⟩

theorem Trie.canon_aligned_of_reachable (t : Trie) (h : TrieReachable t) :
    t.canon = true ∧ t.aligned = true := by
  induction h with
  | new => exact ⟨Trie.new_canon, Trie.new_aligned⟩
  | insert t w _ ih =>
    exact ⟨Trie.insert_canon t w ih.1, Trie.insert_aligned t w ih.2⟩
  | addDocumentToWord t w d c _ ih =>
    exact ⟨Trie.addDocumentToWord_canon t w d c ih.1,
      Trie.addDocumentToWord_aligned t w d c ih.2⟩
  | removeDocumentFromWord t w d _ ih =>
    exact ⟨Trie.removeDocumentFromWord_canon t w d ih.1,
      Trie.removeDocumentFromWord_aligned t w d ih.2⟩
  | remove t w _ ih => exact Trie.remove_canon_aligned t w ih.1 ih.2
  | cleanup t _ ih => exact Trie.cleanup_canon_aligned t ih.1 ih.2

theorem Trie.aligned_viewAt (t : Trie) (ha : t.aligned = true) (v : List Char)
    (x : String × List String × List (String × Nat))
    (h : t.root.viewAt v = some x) : x.2.1 = keysOf x.2.2 := by
  obtain ⟨m, hfind, he, hx⟩ := TrieNode.viewAt_some_elim t.root v x h
  have halign := TrieNode.alignedB_descend t.root v m hfind ha
  obtain ⟨ch, e, w0, cd, dwc⟩ := m
  have := ((TrieNode.alignedB_mk ch e w0 cd dwc).mp halign).1
  rw [hx]
  simpa using this

/-- C9: in every trie reachable from `New()` by `Insert`, `AddDocumentToWord`,
`RemoveDocumentFromWord`, `Remove` and `CleanupEmptyWords` calls, every node's
posting set `containingDocuments` lists exactly the keys of its posting-count
map `docToWordCount`, so `GetDocumentFrequency` always equals the number of
entries `GetDocumentsForWord` returns. -/
theorem c9_posting_alignment (t : Trie) (h : TrieReachable t) :
    t.aligned = true ∧
    ∀ w, t.getDocumentFrequency w = (t.getDocumentsForWord w).length := by
  obtain ⟨hc, ha⟩ := Trie.canon_aligned_of_reachable t h
  refine ⟨ha, fun w => ?_⟩
  rw [Trie.getDocumentFrequency_eq_viewAt, Trie.getDocumentsForWord_eq_viewAt]
  rcases hview : t.root.viewAt (lowerStr w).toList with _ | x
  · simp
  · have := Trie.aligned_viewAt t ha _ x hview
    simp only [Option.map_some', Option.getD_some]
    rw [this, keysOf, List.length_map]

/-- Witness for C9 at a concrete reachable trie. -/
theorem c9_posting_alignment_witness :
    ((Trie.new.insert "ab").addDocumentToWord "ab" "d1" 2).aligned = true ∧
    ∀ w, ((Trie.new.insert "ab").addDocumentToWord "ab" "d1" 2).getDocumentFrequency w =
      (((Trie.new.insert "ab").addDocumentToWord "ab" "d1" 2).getDocumentsForWord w).length :=
  c9_posting_alignment _
    (TrieReachable.addDocumentToWord _ "ab" "d1" 2
      (TrieReachable.insert _ "ab" TrieReachable.new))

/-- C5, amended: `Remove(w)` deletes the word and prunes exactly as claimed
whenever `w` is stored at an end-of-word node with zero postings — the word is
gone afterwards, every other word's membership and every word's postings are
untouched, and prunedness is preserved — and it refuses, returning `false`
and leaving the trie unchanged, when that condition fails; but the boolean it
returns in the successful case is `removeHelper`'s verdict on the root,
which is `true` exactly when the root has become childless and is not
end-of-word (that is, when the last word was just removed), not whenever the
guard held. -/
theorem c5_remove_amended (t : Trie) (w : String) (hc : t.canon = true)
    (ha : t.aligned = true) (hp : t.pruned = true) :
    (∀ x, t.root.viewAt (lowerStr w).toList = some x → x.2.1 = [] →
      ((t.remove w).1.search w = false ∧
       (∀ w', lowerStr w' ≠ lowerStr w →
         (t.remove w).1.search w' = t.search w') ∧
       (∀ w', (t.remove w).1.getDocumentsForWord w' = t.getDocumentsForWord w') ∧
       (t.remove w).1.pruned = true ∧
       (t.remove w).2 = ((t.remove w).1.root.children.isEmpty &&
         !(t.remove w).1.root.isEndOfWord))) ∧
    ((∀ x, t.root.viewAt (lowerStr w).toList = some x → x.2.1 ≠ []) →
      t.remove w = (t, false)) := by
  constructor
  · intro x hview hcd
    obtain ⟨h1, h2, hself, hother, hpruned⟩ :=
      Trie.remove_removable t w x hview hcd hc ha
    obtain ⟨m, hfind, he, hx⟩ := TrieNode.viewAt_some_elim _ _ _ hview
    have hdwc : x.2.2 = [] := by
      have := Trie.aligned_viewAt t ha _ x hview
      rw [hcd] at this
      rcases hxd : x.2.2 with _ | ⟨a, r⟩
      · rfl
      · rw [hxd] at this
        exact absurd this.symm (by simp [keysOf])
    have hguard : t.remove w = (⟨(t.root.removeHelper (lowerStr w).toList).1⟩,
        (t.root.removeHelper (lowerStr w).toList).2) := by
      rw [Trie.remove, hfind]
      have hcd2 : m.containingDocuments = [] := by
        rw [hx] at hcd
        exact hcd
      simp [he, hcd2]
    refine ⟨?_, ?_, ?_, hpruned hp, ?_⟩
    · rw [Trie.search_eq_viewAt, hself]
      rfl
    · intro w' hw'
      rw [Trie.search_eq_viewAt, Trie.search_eq_viewAt]
      rw [hother _ (fun hh => hw' (by
        have := congrArg String.mk hh
        rwa [mk_toList, mk_toList] at this))]
    · intro w'
      rw [Trie.getDocumentsForWord_eq_viewAt, Trie.getDocumentsForWord_eq_viewAt]
      by_cases hw' : (lowerStr w').toList = (lowerStr w).toList
      · rw [hw', hself, hview]
        simp only [Option.map_none', Option.map_some', Option.getD_none, Option.getD_some]
        exact hdwc.symm
      · rw [hother _ hw']
    · rw [hguard]
      exact TrieNode.removeHelper_snd_eq t.root _ m hfind he
  · intro hfail
    exact Trie.remove_of_not_removable t w hfail

/-- Witness for C5's amended theorem: the two-word trie `{ab, abc}` satisfies
the hypotheses, `abc` is removable (and the returned flag is the root
verdict, here `false`), and `aa` is not stored so removal of it refuses. -/
theorem c5_remove_amended_witness :
    (((Trie.new.insert "ab").insert "abc").remove "abc").1.search "abc" = false ∧
    ((Trie.new.insert "ab").insert "abc").remove "aa" =
      ((Trie.new.insert "ab").insert "abc", false) := by
  have hc : ((Trie.new.insert "ab").insert "abc").canon = true :=
    Trie.insert_canon _ _ (Trie.insert_canon _ _ Trie.new_canon)
  have ha : ((Trie.new.insert "ab").insert "abc").aligned = true :=
    Trie.insert_aligned _ _ (Trie.insert_aligned _ _ Trie.new_aligned)
  have hp : ((Trie.new.insert "ab").insert "abc").pruned = true := by
    rw [Trie.pruned]
    rw [show ((Trie.new.insert "ab").insert "abc").root =
      TrieNode.mk [('a', TrieNode.mk [('b', TrieNode.mk
        [('c', TrieNode.mk [] true "abc" [] [])] true "ab" [] [])] false "" [] [])]
        false "" [] [] from rfl]
    rw [TrieNode.prunedB_mk]
    intro q hq
    simp only [List.mem_singleton] at hq
    subst hq
    refine ⟨?_, ?_⟩
    · rw [TrieNode.hasWordB_mk]
      refine Or.inr ⟨('b', TrieNode.mk [('c', TrieNode.mk [] true "abc" [] [])]
        true "ab" [] []), by simp, ?_⟩
      rw [TrieNode.hasWordB_mk]
      exact Or.inl rfl
    · rw [TrieNode.prunedB_mk]
      intro q2 hq2
      simp only [List.mem_singleton] at hq2
      subst hq2
      refine ⟨?_, ?_⟩
      · rw [TrieNode.hasWordB_mk]
        exact Or.inl rfl
      · rw [TrieNode.prunedB_mk]
        intro q3 hq3
        simp only [List.mem_singleton] at hq3
        subst hq3
        refine ⟨?_, ?_⟩
        · rw [TrieNode.hasWordB_mk]
          exact Or.inl rfl
        · rw [TrieNode.prunedB_mk]
          intro q4 hq4
          simp at hq4
  have h := c5_remove_amended ((Trie.new.insert "ab").insert "abc") "abc" hc ha hp
  have h2 := c5_remove_amended ((Trie.new.insert "ab").insert "abc") "aa" hc ha hp
  constructor
  · exact (h.1 ("abc", [], []) (by decide) rfl).1
  · exact h2.2 (by decide)

/- ===== Tokenizer scan lemmas and C3 ===== -/

theorem scanAux_nil (acc : List (List Char)) (okL : Bool) (runRev : List Char) :
    scanAux acc okL runRev [] =
      acc ++ (if runRev.isEmpty then [] else if okL then [runRev.reverse] else []) := rfl

theorem scanAux_cons_letter (acc : List (List Char)) (okL : Bool) (runRev : List Char)
    (c : Char) (rest : List Char) (hc : isAsciiLetter c = true) :
    scanAux acc okL runRev (c :: rest) = scanAux acc okL (c :: runRev) rest := by
  simp [scanAux, hc]

theorem scanAux_cons_nonletter (acc : List (List Char)) (okL : Bool) (runRev : List Char)
    (c : Char) (rest : List Char) (hc : isAsciiLetter c = false) :
    scanAux acc okL runRev (c :: rest) =
      scanAux (if runRev.isEmpty then acc
        else if okL && !isWordChar c then acc ++ [runRev.reverse] else acc)
        (!isWordChar c) [] rest := by
  simp [scanAux, hc]

theorem scanAux_acc (cs : List Char) :
    ∀ (acc : List (List Char)) (okL : Bool) (runRev : List Char),
    scanAux acc okL runRev cs = acc ++ scanAux [] okL runRev cs := by
  induction cs with
  | nil =>
    intro acc okL runRev
    rw [scanAux_nil, scanAux_nil]
    simp
  | cons c rest ih =>
    intro acc okL runRev
    cases hc : isAsciiLetter c with
    | true =>
      rw [scanAux_cons_letter _ _ _ _ _ hc, scanAux_cons_letter _ _ _ _ _ hc]
      exact ih acc okL (c :: runRev)
    | false =>
      rw [scanAux_cons_nonletter _ _ _ _ _ hc, scanAux_cons_nonletter _ _ _ _ _ hc]
      rw [ih _ (!isWordChar c) [], ih (if runRev.isEmpty then []
        else if okL && !isWordChar c then [] ++ [runRev.reverse] else []) (!isWordChar c) []]
      rw [← List.append_assoc]
      congr 1
      split_ifs <;> simp

theorem scanAux_letters (run : List Char) :
    run.all isAsciiLetter = true →
    ∀ (acc : List (List Char)) (okL : Bool) (runRev rest : List Char),
    scanAux acc okL runRev (run ++ rest) = scanAux acc okL (run.reverse ++ runRev) rest := by
  induction run with
  | nil =>
    intro _ acc okL runRev rest
    simp
  | cons c run' ih =>
    intro hall acc okL runRev rest
    simp only [List.all_cons, Bool.and_eq_true] at hall
    rw [List.cons_append, scanAux_cons_letter acc okL runRev c (run' ++ rest) hall.1]
    rw [ih hall.2 acc okL (c :: runRev) rest]
    congr 1
    simp

theorem scanAux_all_letters (cs : List Char) :
    ∀ (acc : List (List Char)) (okL : Bool) (runRev : List Char),
    (∀ w ∈ acc, w.all isAsciiLetter = true) → runRev.all isAsciiLetter = true →
    ∀ w ∈ scanAux acc okL runRev cs, w.all isAsciiLetter = true := by
  induction cs with
  | nil =>
    intro acc okL runRev hacc hrun w hw
    rw [scanAux_nil] at hw
    rcases List.mem_append.mp hw with h | h
    · exact hacc w h
    · split_ifs at h
      · exact absurd h (List.not_mem_nil w)
      · simp only [List.mem_singleton] at h
        subst h
        simp only [List.all_eq_true] at hrun ⊢
        intro x hx
        exact hrun x (List.mem_reverse.mp hx)
      · exact absurd h (List.not_mem_nil w)
  | cons c rest ih =>
    intro acc okL runRev hacc hrun w hw
    cases hc : isAsciiLetter c with
    | true =>
      rw [scanAux_cons_letter _ _ _ _ _ hc] at hw
      refine ih _ _ _ hacc ?_ w hw
      simp only [List.all_cons, hc, Bool.true_and]
      exact hrun
    | false =>
      rw [scanAux_cons_nonletter _ _ _ _ _ hc] at hw
      refine ih _ _ _ ?_ (by simp) w hw
      intro v hv
      split_ifs at hv
      · exact hacc v hv
      · rcases List.mem_append.mp hv with h | h
        · exact hacc v h
        · simp only [List.mem_singleton] at h
          subst h
          simp only [List.all_eq_true] at hrun ⊢
          intro x hx
          exact hrun x (List.mem_reverse.mp hx)
      · exact hacc v hv

theorem letter_isWordChar (c : Char) (h : isWordChar c = false) : isAsciiLetter c = false := by
  cases hl : isAsciiLetter c
  · rfl
  · rw [isWordChar, hl] at h
    simp at h

theorem scanAux_sep (xs : List Char) (d : Char) (hd : isWordChar d = false) (ys : List Char) :
    ∀ (acc : List (List Char)) (okL : Bool) (runRev : List Char),
    scanAux acc okL runRev ((xs ++ [d]) ++ ys) =
      scanAux acc okL runRev (xs ++ [d]) ++ scanAux [] true [] ys := by
  induction xs with
  | nil =>
    intro acc okL runRev
    have hdl : isAsciiLetter d = false := letter_isWordChar d hd
    simp only [List.nil_append, List.cons_append]
    rw [scanAux_cons_nonletter _ _ _ _ _ hdl, scanAux_cons_nonletter _ _ _ _ _ hdl]
    rw [hd]
    simp only [Bool.not_false]
    rw [scanAux_nil]
    simp only [List.isEmpty_nil, if_true, List.append_nil]
    exact scanAux_acc ys _ true []
  | cons c xs' ih =>
    intro acc okL runRev
    simp only [List.cons_append]
    cases hc : isAsciiLetter c with
    | true =>
      rw [scanAux_cons_letter _ _ _ _ _ hc, scanAux_cons_letter _ _ _ _ _ hc]
      exact ih acc okL (c :: runRev)
    | false =>
      rw [scanAux_cons_nonletter _ _ _ _ _ hc, scanAux_cons_nonletter _ _ _ _ _ hc]
      exact ih _ (!isWordChar c) []

theorem run_reverse_isEmpty (run : List Char) (hne : run ≠ []) :
    run.reverse.isEmpty = false := by
  cases run with
  | nil => exact absurd rfl hne
  | cons a r => simp

theorem scanTokens_boundary_ok (pre run post : List Char) (hne : run ≠ [])
    (hall : run.all isAsciiLetter = true)
    (hpre : ∀ d, pre.getLast? = some d → isWordChar d = false)
    (hpost : ∀ d, post.head? = some d → isWordChar d = false) :
    scanTokens (pre ++ run ++ post) = scanTokens pre ++ [run] ++ scanTokens post := by
  have core : scanTokens (run ++ post) = [run] ++ scanTokens post := by
    rw [scanTokens, scanAux_letters run hall [] true [] post]
    cases post with
    | nil =>
      rw [scanAux_nil]
      simp only [List.append_nil, run_reverse_isEmpty run hne, Bool.false_eq_true, if_false,
        if_true, List.reverse_reverse, List.nil_append]
      rfl
    | cons c rest =>
      have hcw : isWordChar c = false := hpost c rfl
      have hcl : isAsciiLetter c = false := letter_isWordChar c hcw
      rw [scanAux_cons_nonletter _ _ _ _ _ hcl]
      simp only [List.append_nil, run_reverse_isEmpty run hne, Bool.false_eq_true, if_false,
        hcw, Bool.not_false, Bool.true_and, if_true, List.reverse_reverse, List.nil_append]
      rw [scanAux_acc]
      congr 1
      rw [scanTokens, scanAux_cons_nonletter _ _ _ _ _ hcl]
      simp [hcw]
  rcases List.eq_nil_or_concat pre with hp | ⟨xs, d, hp⟩
  · subst hp
    rw [show scanTokens ([] : List Char) = [] from rfl]
    simpa using core
  · rw [List.concat_eq_append] at hp
    subst hp
    have hd : isWordChar d = false := hpre d (by simp)
    rw [List.append_assoc (xs ++ [d]) run post]
    rw [scanTokens, scanAux_sep xs d hd (run ++ post) [] true []]
    show scanTokens (xs ++ [d]) ++ scanTokens (run ++ post) = _
    rw [core, ← List.append_assoc]

theorem scanTokens_boundary_blocked (pre run : List Char) (c : Char) (rest : List Char)
    (hne : run ≠ []) (hall : run.all isAsciiLetter = true)
    (hpre : ∀ d, pre.getLast? = some d → isWordChar d = false)
    (hcw : isWordChar c = true) (hcl : isAsciiLetter c = false) :
    scanTokens (pre ++ run ++ c :: rest) = scanTokens pre ++ scanAux [] false [] rest := by
  have core : scanTokens (run ++ c :: rest) = scanAux [] false [] rest := by
    rw [scanTokens, scanAux_letters run hall [] true [] (c :: rest)]
    rw [scanAux_cons_nonletter _ _ _ _ _ hcl]
    simp only [List.append_nil, run_reverse_isEmpty run hne, Bool.false_eq_true, if_false,
      hcw, Bool.not_true, Bool.and_false, List.nil_append]
  rcases List.eq_nil_or_concat pre with hp | ⟨xs, d, hp⟩
  · subst hp
    rw [show scanTokens ([] : List Char) = [] from rfl]
    simpa using core
  · rw [List.concat_eq_append] at hp
    subst hp
    have hd : isWordChar d = false := hpre d (by simp)
    rw [List.append_assoc (xs ++ [d]) run (c :: rest)]
    rw [scanTokens, scanAux_sep xs d hd (run ++ c :: rest) [] true []]
    show scanTokens (xs ++ [d]) ++ scanTokens (run ++ c :: rest) = _
    rw [core]

/-- C3, amended: `tokenize` is exactly `tokenizeQuery` applied to the
case-folded text followed by occurrence counting, every produced token is a
run of ASCII letters of length at least two, and the extracted runs are
precisely the maximal letter runs with word boundaries on both sides: a run
preceded by a non-word character (or the start of the text) and followed by a
non-word character (or the end) is extracted, while a letter run followed by
a digit or underscore — as in `abc123` — is dropped, contrary to the claim's
final clause. -/
theorem c3_tokenization_amended :
    (∀ text : String, tokenize text = (tokenizeQuery (lowerStr text)).foldl
      (fun m w => setKV m w ((lookupKV m w).getD 0 + 1)) []) ∧
    (∀ text : String, ∀ w ∈ tokenizeQuery text,
      1 < w.toList.length ∧ w.toList.all isAsciiLetter = true) ∧
    (∀ pre run post : List Char, run ≠ [] → run.all isAsciiLetter = true →
      (∀ d, pre.getLast? = some d → isWordChar d = false) →
      (∀ d, post.head? = some d → isWordChar d = false) →
      scanTokens (pre ++ run ++ post) = scanTokens pre ++ [run] ++ scanTokens post) ∧
    (∀ (pre run : List Char) (c : Char) (rest : List Char),
      run ≠ [] → run.all isAsciiLetter = true →
      (∀ d, pre.getLast? = some d → isWordChar d = false) →
      isWordChar c = true → isAsciiLetter c = false →
      scanTokens (pre ++ run ++ c :: rest) = scanTokens pre ++ scanAux [] false [] rest) := by
  refine ⟨?_, ?_, ?_, ?_⟩
  · intro text
    rw [tokenize, tokenizeQuery]
    rw [show (lowerStr text).toList = text.toList.map asciiLower from toList_mk _]
    rw [List.foldl_map]
  · intro text w hw
    rw [tokenizeQuery] at hw
    rcases List.mem_map.mp hw with ⟨w', hw', rfl⟩
    rcases List.mem_filter.mp hw' with ⟨hmem, hlen⟩
    refine ⟨?_, ?_⟩
    · rw [toList_mk]
      exact of_decide_eq_true hlen
    · rw [toList_mk]
      exact scanAux_all_letters text.toList [] true []
        (fun v hv => absurd hv (List.not_mem_nil v)) rfl w' hmem
  · intro pre run post h1 h2 h3 h4
    exact scanTokens_boundary_ok pre run post h1 h2 h3 h4
  · intro pre run c rest h1 h2 h3 h4 h5
    exact scanTokens_boundary_blocked pre run c rest h1 h2 h3 h4 h5

/-- Witness for C3's amended theorem at concrete inputs: the run `abc` between
a space and the end is extracted, and the run `abc` followed by the digit `1`
is dropped. -/
theorem c3_tokenization_amended_witness :
    scanTokens (" ".toList ++ "abc".toList ++ []) =
      scanTokens " ".toList ++ ["abc".toList] ++ scanTokens [] ∧
    scanTokens ([] ++ "abc".toList ++ '1' :: []) = scanTokens [] ++ scanAux [] false [] [] := by
  constructor
  · exact c3_tokenization_amended.2.2.1 " ".toList "abc".toList [] (by decide) (by decide)
      (fun d hd => by
        have : d = ' ' := by
          have h2 : some ' ' = some d := hd
          exact (Option.some_injective Char h2).symm
        rw [this]
        decide)
      (fun d hd => Option.noConfusion hd)
  · exact c3_tokenization_amended.2.2.2 [] "abc".toList '1' [] (by decide) (by decide)
      (fun d hd => Option.noConfusion hd) (by decide) (by decide)

/- ===== Token well-formedness and forward-index posting lemmas ===== -/

theorem asciiLower_isLower (c : Char) (h : isAsciiLetter (asciiLower c) = true) :
    isLowerLetter (asciiLower c) = true := by
  rw [asciiLower] at h ⊢
  split_ifs at h ⊢ with hcond
  · simp only [Bool.and_eq_true, decide_eq_true_eq] at hcond
    have hlo : 65 ≤ c.toNat := hcond.1
    have hhi : c.toNat ≤ 90 := hcond.2
    have hv : (c.toNat + 32).isValidChar := Or.inl (by omega)
    have ht : (Char.ofNat (c.toNat + 32)).toNat = c.toNat + 32 := by
      rw [Char.ofNat, dif_pos hv]
      rfl
    rw [isLowerLetter]
    simp only [Bool.and_eq_true, decide_eq_true_eq]
    constructor
    · show (97 : Nat) ≤ (Char.ofNat (c.toNat + 32)).toNat
      omega
    · show (Char.ofNat (c.toNat + 32)).toNat ≤ (122 : Nat)
      omega
  · rw [isAsciiLetter] at h
    simp only [Bool.or_eq_true, Bool.and_eq_true, decide_eq_true_eq] at h
    rcases h with h | h
    · rw [isLowerLetter]
      simp only [Bool.and_eq_true, decide_eq_true_eq]
      exact h
    · exact absurd h (by
        intro hcon
        exact hcond (by simp only [Bool.and_eq_true, decide_eq_true_eq]; exact hcon))

theorem scanAux_chars (cs : List Char) :
    ∀ (acc : List (List Char)) (okL : Bool) (runRev : List Char)
    (w : List Char), w ∈ scanAux acc okL runRev cs → ∀ x ∈ w,
    (∃ w0 ∈ acc, x ∈ w0) ∨ x ∈ runRev ∨ x ∈ cs := by
  induction cs with
  | nil =>
    intro acc okL runRev w hw x hx
    rw [scanAux_nil] at hw
    rcases List.mem_append.mp hw with h | h
    · exact Or.inl ⟨w, h, hx⟩
    · split_ifs at h
      · exact absurd h (List.not_mem_nil w)
      · simp only [List.mem_singleton] at h
        subst h
        exact Or.inr (Or.inl (List.mem_reverse.mp hx))
      · exact absurd h (List.not_mem_nil w)
  | cons c rest ih =>
    intro acc okL runRev w hw x hx
    cases hc : isAsciiLetter c with
    | true =>
      rw [scanAux_cons_letter _ _ _ _ _ hc] at hw
      rcases ih _ _ _ w hw x hx with h | h | h
      · exact Or.inl h
      · rcases List.mem_cons.mp h with h2 | h2
        · exact Or.inr (Or.inr (by rw [h2]; exact List.mem_cons_self c rest))
        · exact Or.inr (Or.inl h2)
      · exact Or.inr (Or.inr (List.mem_cons_of_mem c h))
    | false =>
      rw [scanAux_cons_nonletter _ _ _ _ _ hc] at hw
      rcases ih _ _ _ w hw x hx with h | h | h
      · obtain ⟨w0, hw0, hxw0⟩ := h
        split_ifs at hw0
        · exact Or.inl ⟨w0, hw0, hxw0⟩
        · rcases List.mem_append.mp hw0 with h2 | h2
          · exact Or.inl ⟨w0, h2, hxw0⟩
          · simp only [List.mem_singleton] at h2
            subst h2
            exact Or.inr (Or.inl (List.mem_reverse.mp hxw0))
        · exact Or.inl ⟨w0, hw0, hxw0⟩
      · exact absurd h (List.not_mem_nil x)
      · exact Or.inr (Or.inr (List.mem_cons_of_mem c h))

theorem tokenizeQuery_shape (text : String) : ∀ w ∈ tokenizeQuery text,
    1 < w.toList.length ∧ w.toList.all isAsciiLetter = true := by
  intro w hw
  rw [tokenizeQuery] at hw
  rcases List.mem_map.mp hw with ⟨w', hw', rfl⟩
  rcases List.mem_filter.mp hw' with ⟨hmem, hlen⟩
  refine ⟨?_, ?_⟩
  · rw [toList_mk]
    exact of_decide_eq_true hlen
  · rw [toList_mk]
    exact scanAux_all_letters text.toList [] true []
      (fun v hv => absurd hv (List.not_mem_nil v)) rfl w' hmem

theorem tokenizeQuery_lower_shape (text : String) :
    ∀ w ∈ tokenizeQuery (lowerStr text),
    1 < w.toList.length ∧ w.toList.all isLowerLetter = true := by
  intro w hw
  obtain ⟨hlen, hall⟩ := tokenizeQuery_shape (lowerStr text) w hw
  refine ⟨hlen, ?_⟩
  rw [tokenizeQuery] at hw
  rcases List.mem_map.mp hw with ⟨w', hw', rfl⟩
  rcases List.mem_filter.mp hw' with ⟨hmem, _⟩
  rw [toList_mk] at hall ⊢
  simp only [List.all_eq_true] at hall ⊢
  intro x hx
  have hsrc := scanAux_chars (lowerStr text).toList [] true [] w' hmem x hx
  rcases hsrc with h | h | h
  · obtain ⟨w0, hw0, _⟩ := h
    exact absurd hw0 (List.not_mem_nil w0)
  · exact absurd h (List.not_mem_nil x)
  · rw [show (lowerStr text).toList = text.toList.map asciiLower from toList_mk _] at h
    rcases List.mem_map.mp h with ⟨y, _, rfl⟩
    exact asciiLower_isLower y (hall (asciiLower y) hx)

theorem tokenize_eq (text : String) :
    tokenize text = (tokenizeQuery (lowerStr text)).foldl
      (fun m w => setKV m w ((lookupKV m w).getD 0 + 1)) [] := by
  rw [tokenize, tokenizeQuery]
  rw [show (lowerStr text).toList = text.toList.map asciiLower from toList_mk _]
  rw [List.foldl_map]

section CountFold

variable {α : Type} [DecidableEq α]

theorem countFold_keys_nodup (ks : List α) : ∀ (m : List (α × Nat)),
    (keysOf m).Nodup →
    (keysOf (ks.foldl (fun m k => setKV m k ((lookupKV m k).getD 0 + 1)) m)).Nodup := by
  induction ks with
  | nil => intro m hm; exact hm
  | cons k rest ih =>
    intro m hm
    exact ih _ (keysOf_setKV_nodup m k _ hm)

theorem countFold_mem (ks : List α) : ∀ (m : List (α × Nat)) (q : α × Nat),
    q ∈ ks.foldl (fun m k => setKV m k ((lookupKV m k).getD 0 + 1)) m →
    q ∈ m ∨ q.1 ∈ ks := by
  induction ks with
  | nil => intro m q hq; exact Or.inl hq
  | cons k rest ih =>
    intro m q hq
    rcases ih _ q hq with h | h
    · rcases mem_setKV _ _ _ _ h with h2 | h2
      · exact Or.inr (by rw [h2]; exact List.mem_cons_self k rest)
      · exact Or.inl h2
    · exact Or.inr (List.mem_cons_of_mem k h)

theorem countFold_pos (ks : List α) : ∀ (m : List (α × Nat)),
    (∀ q ∈ m, 0 < q.2) →
    ∀ q ∈ ks.foldl (fun m k => setKV m k ((lookupKV m k).getD 0 + 1)) m, 0 < q.2 := by
  induction ks with
  | nil => intro m hm q hq; exact hm q hq
  | cons k rest ih =>
    intro m hm q hq
    refine ih _ ?_ q hq
    intro r hr
    rcases mem_setKV _ _ _ _ hr with h2 | h2
    · rw [h2]
      exact Nat.succ_pos _
    · exact hm r h2

end CountFold

theorem tokenize_wf (content : String) :
    (keysOf (tokenize content)).Nodup ∧
    ∀ q ∈ tokenize content, 0 < q.2 ∧ 1 < q.1.toList.length ∧
      q.1.toList.all isLowerLetter = true := by
  rw [tokenize_eq]
  refine ⟨countFold_keys_nodup _ [] List.nodup_nil, ?_⟩
  intro q hq
  refine ⟨countFold_pos _ [] (fun r hr => absurd hr (List.not_mem_nil r)) q hq, ?_⟩
  rcases countFold_mem _ [] q hq with h | h
  · exact absurd h (List.not_mem_nil q)
  · exact tokenizeQuery_lower_shape content q.1 h

/- ===== KV and fwdPostings lemmas for the store layer ===== -/

section KVMore

variable {α β γ : Type} [DecidableEq α]

theorem setKV_append_fresh (l : List (α × β)) (k : α) (v : β)
    (h : lookupKV l k = none) : setKV l k v = l ++ [(k, v)] := by
  induction l with
  | nil => rfl
  | cons p rest ih =>
    obtain ⟨k', v'⟩ := p
    rw [lookupKV_cons] at h
    rw [setKV_cons]
    by_cases h2 : k' = k
    · rw [if_pos h2] at h
      exact absurd h (by simp)
    · rw [if_neg h2] at h
      rw [if_neg h2, ih h, List.cons_append]

theorem length_eraseKV_of_mem (l : List (α × β)) (k : α) (h : k ∈ keysOf l) :
    (eraseKV l k).length + 1 = l.length := by
  induction l with
  | nil => exact absurd h (List.not_mem_nil k)
  | cons p rest ih =>
    obtain ⟨k', v'⟩ := p
    rw [eraseKV_cons]
    by_cases h2 : k' = k
    · rw [if_pos h2]
      rfl
    · rw [if_neg h2, List.length_cons, List.length_cons]
      rw [ih ?_]
      rcases List.mem_cons.mp h with h3 | h3
      · exact absurd h3.symm h2
      · exact h3

theorem eraseKV_map_snd (l : List (α × β)) (k : α) (f : β → γ) :
    eraseKV (l.map (fun p => (p.1, f p.2))) k =
      (eraseKV l k).map (fun p => (p.1, f p.2)) := by
  induction l with
  | nil => rfl
  | cons p rest ih =>
    obtain ⟨k', v'⟩ := p
    simp only [List.map_cons]
    rw [eraseKV_cons, eraseKV_cons]
    by_cases h2 : k' = k
    · rw [if_pos h2, if_pos h2]
    · rw [if_neg h2, if_neg h2, List.map_cons, ih]

theorem lookupKV_map_snd (l : List (α × β)) (k : α) (f : β → γ) :
    lookupKV (l.map (fun p => (p.1, f p.2))) k = (lookupKV l k).map f := by
  induction l with
  | nil => rfl
  | cons p rest ih =>
    obtain ⟨k', v'⟩ := p
    simp only [List.map_cons]
    rw [lookupKV_cons, lookupKV_cons]
    by_cases h2 : k' = k
    · rw [if_pos h2, if_pos h2]
      rfl
    · rw [if_neg h2, if_neg h2, ih]

end KVMore

theorem fwdPostings_cons (a : String) (vec : List (String × Nat))
    (rest : List (String × List (String × Nat))) (w : String) :
    fwdPostings ((a, vec) :: rest) w =
      (match lookupKV vec w with | some c => [(a, c)] | none => []) ++
        fwdPostings rest w := by
  rw [fwdPostings, List.filterMap_cons]
  cases h : lookupKV vec w with
  | none => simp only [h, Option.map_none', fwdPostings, List.nil_append]
  | some c => simp only [h, Option.map_some', fwdPostings, List.cons_append, List.nil_append]

theorem fwdPostings_append (docs1 docs2 : List (String × List (String × Nat)))
    (w : String) : fwdPostings (docs1 ++ docs2) w =
      fwdPostings docs1 w ++ fwdPostings docs2 w := by
  rw [fwdPostings, fwdPostings, fwdPostings, List.filterMap_append]

theorem keysOf_fwdPostings_sub (docs : List (String × List (String × Nat)))
    (w d : String) (h : d ∈ keysOf (fwdPostings docs w)) : d ∈ keysOf docs := by
  induction docs with
  | nil => exact absurd h (List.not_mem_nil d)
  | cons p rest ih =>
    obtain ⟨a, vec⟩ := p
    rw [fwdPostings_cons] at h
    rw [keysOf, List.map_append] at h
    rcases List.mem_append.mp h with h2 | h2
    · cases hl : lookupKV vec w with
      | none =>
        rw [hl] at h2
        exact absurd h2 (List.not_mem_nil d)
      | some c =>
        rw [hl] at h2
        simp only [List.map_cons, List.map_nil, List.mem_singleton] at h2
        rw [keysOf, List.map_cons, h2]
        exact List.mem_cons_self a _
    · exact List.mem_cons_of_mem a (ih h2)

theorem keysOf_fwdPostings_nodup (docs : List (String × List (String × Nat)))
    (w : String) (hnd : (keysOf docs).Nodup) :
    (keysOf (fwdPostings docs w)).Nodup := by
  induction docs with
  | nil => exact List.nodup_nil
  | cons p rest ih =>
    obtain ⟨a, vec⟩ := p
    rw [keysOf, List.map_cons, List.nodup_cons] at hnd
    rw [fwdPostings_cons]
    cases hl : lookupKV vec w with
    | none =>
      simp only [List.nil_append]
      exact ih hnd.2
    | some c =>
      simp only [List.cons_append, List.nil_append, keysOf, List.map_cons,
        List.nodup_cons]
      refine ⟨fun hmem => hnd.1 (keysOf_fwdPostings_sub rest w a hmem), ih hnd.2⟩

theorem lookupKV_fwdPostings (docs : List (String × List (String × Nat)))
    (hnd : (keysOf docs).Nodup) (d w : String) :
    lookupKV (fwdPostings docs w) d =
      (lookupKV docs d).bind (fun vec => lookupKV vec w) := by
  induction docs with
  | nil => rfl
  | cons p rest ih =>
    obtain ⟨a, vec⟩ := p
    rw [keysOf, List.map_cons, List.nodup_cons] at hnd
    rw [fwdPostings_cons, lookupKV_cons]
    cases hl : lookupKV vec w with
    | some c =>
      simp only [List.cons_append, List.nil_append, lookupKV_cons]
      by_cases h2 : a = d
      · rw [if_pos h2, if_pos h2, Option.some_bind, hl]
      · rw [if_neg h2, if_neg h2, ih hnd.2]
    | none =>
      simp only [List.nil_append]
      by_cases h2 : a = d
      · rw [if_pos h2, Option.some_bind, hl]
        subst h2
        rw [lookupKV_eq_none_iff]
        intro hmem
        exact hnd.1 (keysOf_fwdPostings_sub rest w a hmem)
      · rw [if_neg h2, ih hnd.2]

theorem fwdPostings_eraseKV (docs : List (String × List (String × Nat)))
    (hnd : (keysOf docs).Nodup) (d w : String) :
    fwdPostings (eraseKV docs d) w = eraseKV (fwdPostings docs w) d := by
  induction docs with
  | nil => rfl
  | cons p rest ih =>
    obtain ⟨a, vec⟩ := p
    rw [keysOf, List.map_cons, List.nodup_cons] at hnd
    rw [eraseKV_cons, fwdPostings_cons]
    by_cases h2 : a = d
    · rw [if_pos h2]
      cases hl : lookupKV vec w with
      | some c =>
        simp only [List.cons_append, List.nil_append, eraseKV_cons, if_pos h2]
      | none =>
        simp only [List.nil_append]
        rw [eraseKV_of_not_mem _ d ?_]
        intro hmem
        rw [← h2] at hmem
        exact hnd.1 (keysOf_fwdPostings_sub rest w a hmem)
    · rw [if_neg h2, fwdPostings_cons, ih hnd.2]
      cases hl : lookupKV vec w with
      | some c =>
        simp only [List.cons_append, List.nil_append, eraseKV_cons, if_neg h2]
      | none =>
        simp only [List.nil_append]

theorem fwdPostings_eq_nil (docs : List (String × List (String × Nat))) (w : String)
    (h : ∀ p ∈ docs, lookupKV p.2 w = none) : fwdPostings docs w = [] := by
  rw [fwdPostings, List.filterMap_eq_nil]
  intro p hp
  rw [h p hp, Option.map_none']

/- ===== Indexing and posting-removal folds against the viewShape ===== -/

theorem keysOf_append {α β : Type} (l1 l2 : List (α × β)) :
    keysOf (l1 ++ l2) = keysOf l1 ++ keysOf l2 := List.map_append _ _ _

theorem viewShape_eq_of_fwd (d1 d2 : List (String × List (String × Nat)))
    (v : List Char) (h : fwdPostings d1 (String.mk v) = fwdPostings d2 (String.mk v)) :
    viewShape d1 v = viewShape d2 v := by
  rw [viewShape, viewShape, h]

theorem fwdPostings_single (docID : String) (vec : List (String × Nat)) (w : String) :
    fwdPostings [(docID, vec)] w =
      match lookupKV vec w with | some c => [(docID, c)] | none => [] := by
  rw [fwdPostings_cons]
  cases h : lookupKV vec w with
  | none => rfl
  | some c => rfl

theorem fwdPostings_single_nil (docID w : String) :
    fwdPostings [(docID, ([] : List (String × Nat)))] w = [] := rfl

theorem indexWord_canon (t : Trie) (docID : String) (p : String × Nat)
    (hc : t.canon = true) : (indexWord t docID p).canon = true := by
  show ((if t.search p.1 then t else t.insert p.1).addDocumentToWord
    p.1 docID p.2).canon = true
  cases hs : t.search p.1 with
  | false =>
    simp only [hs, Bool.false_eq_true, if_false]
    exact Trie.addDocumentToWord_canon _ _ _ _ (Trie.insert_canon _ _ hc)
  | true =>
    simp only [hs, eq_self_iff_true, if_true]
    exact Trie.addDocumentToWord_canon _ _ _ _ hc

theorem indexWord_aligned (t : Trie) (docID : String) (p : String × Nat)
    (ha : t.aligned = true) : (indexWord t docID p).aligned = true := by
  show ((if t.search p.1 then t else t.insert p.1).addDocumentToWord
    p.1 docID p.2).aligned = true
  cases hs : t.search p.1 with
  | false =>
    simp only [hs, Bool.false_eq_true, if_false]
    exact Trie.addDocumentToWord_aligned _ _ _ _ (Trie.insert_aligned _ _ ha)
  | true =>
    simp only [hs, eq_self_iff_true, if_true]
    exact Trie.addDocumentToWord_aligned _ _ _ _ ha

theorem indexWord_view (t : Trie) (docID w0 : String) (c0 : Nat)
    (acc : List (String × List (String × Nat)))
    (hc : t.canon = true)
    (hview : ∀ v, t.root.viewAt v = viewShape acc v)
    (hlow0 : lowerStr w0 = w0)
    (hfresh : docID ∉ keysOf (fwdPostings acc w0)) (v : List Char) :
    (indexWord t docID (w0, c0)).root.viewAt v =
      viewShape (acc ++ [(docID, [(w0, c0)])]) v := by
  have hP : ∀ w, fwdPostings (acc ++ [(docID, [(w0, c0)])]) w =
      fwdPostings acc w ++ (if w0 = w then [(docID, c0)] else []) := by
    intro w
    rw [fwdPostings_append, fwdPostings_single]
    by_cases h : w0 = w
    · rw [show lookupKV [(w0, c0)] w = some c0 from by rw [lookupKV_cons, if_pos h],
        if_pos h]
    · rw [show lookupKV [(w0, c0)] w = (none : Option Nat) from by
        rw [lookupKV_cons, if_neg h]; exact lookupKV_nil w, if_neg h]
  by_cases hveq : v = (lowerStr w0).toList
  · subst hveq
    have hmkv : String.mk (lowerStr w0).toList = w0 := by rw [mk_toList, hlow0]
    show ((if t.search w0 then t else t.insert w0).addDocumentToWord
      w0 docID c0).root.viewAt _ = _
    cases hs : t.search w0 with
    | true =>
      simp only [hs, eq_self_iff_true, if_true]
      rw [Trie.addDocumentToWord_viewAt_self]
      rw [hview, viewShape, hmkv]
      rw [viewShape, hmkv, hP w0]
      rw [if_pos rfl]
      have hPne : fwdPostings acc w0 ≠ [] := by
        intro hcon
        have := Trie.search_eq_viewAt t w0
        rw [hs, hview, viewShape, hmkv, hcon] at this
        simp at this
      rw [if_neg hPne, if_neg (show ¬ fwdPostings acc w0 ++ [(docID, c0)] = [] by simp)]
      simp only [Option.map_some']
      have h1 : insertMem (keysOf (fwdPostings acc w0)) docID =
          keysOf (fwdPostings acc w0) ++ [docID] := by
        rw [insertMem, if_neg hfresh]
      have h2 : setKV (fwdPostings acc w0) docID c0 =
          fwdPostings acc w0 ++ [(docID, c0)] :=
        setKV_append_fresh _ _ _ (by rw [lookupKV_eq_none_iff]; exact hfresh)
      rw [h1, h2, keysOf_append]
      rfl
    | false =>
      simp only [hs, Bool.false_eq_true, if_false]
      rw [Trie.addDocumentToWord_viewAt_self]
      rw [Trie.insert_viewAt_self t w0 hc hs]
      have hPnil : fwdPostings acc w0 = [] := by
        have hvnone := hview (lowerStr w0).toList
        rw [viewShape, hmkv] at hvnone
        by_contra hcon
        rw [if_neg hcon] at hvnone
        have := Trie.search_eq_viewAt t w0
        rw [hs, hvnone] at this
        simp at this
      rw [viewShape, hmkv, hP w0, hPnil]
      rw [if_pos rfl]
      rw [if_neg (show ¬ ([] : List (String × Nat)) ++ [(docID, c0)] = [] by simp)]
      simp only [Option.map_some', List.nil_append]
      rw [hlow0]
      simp [insertMem, setKV, keysOf]
  · have hother : (indexWord t docID (w0, c0)).root.viewAt v = t.root.viewAt v := by
      show ((if t.search w0 then t else t.insert w0).addDocumentToWord
        w0 docID c0).root.viewAt v = _
      rw [Trie.addDocumentToWord_viewAt_ne _ _ _ _ v hveq]
      cases hs : t.search w0 with
      | true => simp [hs]
      | false =>
        simp only [hs, Bool.false_eq_true, if_false]
        exact Trie.insert_viewAt_ne t w0 v hveq
    rw [hother, hview v]
    apply viewShape_eq_of_fwd
    have hw0v : ¬ w0 = String.mk v := by
      intro hcon
      apply hveq
      have : v = w0.toList := mk_injective v w0.toList (by rw [mk_toList, ← hcon])
      rw [this, hlow0]
    rw [hP (String.mk v), if_neg hw0v, List.append_nil]

theorem indexWord_fold_view (vec : List (String × Nat)) :
    ∀ (t : Trie) (docID : String) (acc : List (String × List (String × Nat))),
    t.canon = true → t.aligned = true →
    (∀ v, t.root.viewAt v = viewShape acc v) →
    (keysOf vec).Nodup → (∀ q ∈ vec, lowerStr q.1 = q.1) →
    (∀ q ∈ vec, docID ∉ keysOf (fwdPostings acc q.1)) →
    (vec.foldl (fun t p => indexWord t docID p) t).canon = true ∧
    (vec.foldl (fun t p => indexWord t docID p) t).aligned = true ∧
    ∀ v, (vec.foldl (fun t p => indexWord t docID p) t).root.viewAt v =
      viewShape (acc ++ [(docID, vec)]) v := by
  induction vec with
  | nil =>
    intro t docID acc hc ha hview _ _ _
    simp only [List.foldl_nil]
    refine ⟨hc, ha, ?_⟩
    intro v
    rw [hview v]
    apply viewShape_eq_of_fwd
    rw [fwdPostings_append, fwdPostings_single_nil, List.append_nil]
  | cons q rest ih =>
    obtain ⟨w0, c0⟩ := q
    intro t docID acc hc ha hview hnd hlow hfresh
    rw [show keysOf ((w0, c0) :: rest) = w0 :: keysOf rest from rfl,
      List.nodup_cons] at hnd
    have hlow0 : lowerStr w0 = w0 := hlow (w0, c0) (List.mem_cons_self _ _)
    simp only [List.foldl_cons]
    have ht1c : (indexWord t docID (w0, c0)).canon = true := indexWord_canon t docID _ hc
    have ht1a : (indexWord t docID (w0, c0)).aligned = true :=
      indexWord_aligned t docID _ ha
    have hview1 : ∀ v, (indexWord t docID (w0, c0)).root.viewAt v =
        viewShape (acc ++ [(docID, [(w0, c0)])]) v :=
      indexWord_view t docID w0 c0 acc hc hview hlow0
        (hfresh (w0, c0) (List.mem_cons_self _ _))
    have hfresh1 : ∀ q ∈ rest, docID ∉
        keysOf (fwdPostings (acc ++ [(docID, [(w0, c0)])]) q.1) := by
      intro q hq
      rw [fwdPostings_append, keysOf_append]
      intro hmem
      rcases List.mem_append.mp hmem with h | h
      · exact hfresh q (List.mem_cons_of_mem _ hq) h
      · have hqne : ¬ w0 = q.1 := by
          intro hcon
          exact hnd.1 (by rw [hcon]; exact List.mem_map_of_mem Prod.fst hq)
        rw [fwdPostings_single, show lookupKV [(w0, c0)] q.1 = (none : Option Nat)
          from by rw [lookupKV_cons, if_neg hqne]; exact lookupKV_nil q.1] at h
        exact absurd h (List.not_mem_nil docID)
    obtain ⟨hc2, ha2, hv2⟩ := ih (indexWord t docID (w0, c0)) docID
      (acc ++ [(docID, [(w0, c0)])]) ht1c ht1a hview1 hnd.2
      (fun q hq => hlow q (List.mem_cons_of_mem _ hq)) hfresh1
    refine ⟨hc2, ha2, ?_⟩
    intro v
    rw [hv2 v]
    apply viewShape_eq_of_fwd
    rw [List.append_assoc, fwdPostings_append, fwdPostings_append, fwdPostings_append,
      fwdPostings_single, fwdPostings_single, fwdPostings_single]
    congr 1
    by_cases hw : w0 = String.mk v
    · have hrest : lookupKV rest (String.mk v) = none := by
        rw [lookupKV_eq_none_iff, ← hw]
        exact hnd.1
      rw [hrest, show lookupKV ((w0, c0) :: rest) (String.mk v) = some c0 from by
        rw [lookupKV_cons, if_pos hw],
        show lookupKV [(w0, c0)] (String.mk v) = some c0 from by
        rw [lookupKV_cons, if_pos hw]]
      rfl
    · rw [show lookupKV [(w0, c0)] (String.mk v) = (none : Option Nat) from by
        rw [lookupKV_cons, if_neg hw]; exact lookupKV_nil _,
        show lookupKV ((w0, c0) :: rest) (String.mk v) =
          lookupKV rest (String.mk v) from by rw [lookupKV_cons, if_neg hw]]
      rfl

theorem removeDocFromWord_fold (vec : List (String × Nat)) :
    ∀ (t : Trie) (docID : String),
    t.canon = true → t.aligned = true →
    (keysOf vec).Nodup → (∀ q ∈ vec, lowerStr q.1 = q.1) →
    (vec.foldl (fun t p => (t.removeDocumentFromWord p.1 docID).1) t).canon = true ∧
    (vec.foldl (fun t p => (t.removeDocumentFromWord p.1 docID).1) t).aligned = true ∧
    ∀ v, (vec.foldl (fun t p => (t.removeDocumentFromWord p.1 docID).1) t).root.viewAt v =
      if String.mk v ∈ keysOf vec then
        (t.root.viewAt v).map (fun x => if docID ∈ x.2.1 then
          (x.1, x.2.1.erase docID, eraseKV x.2.2 docID) else x)
      else t.root.viewAt v := by
  induction vec with
  | nil =>
    intro t docID hc ha _ _
    simp only [List.foldl_nil]
    refine ⟨hc, ha, ?_⟩
    intro v
    have hnm : String.mk v ∉ keysOf ([] : List (String × Nat)) :=
      fun h => absurd h (List.not_mem_nil _)
    rw [if_neg hnm]
  | cons q rest ih =>
    obtain ⟨w0, c0⟩ := q
    intro t docID hc ha hnd hlow
    rw [show keysOf ((w0, c0) :: rest) = w0 :: keysOf rest from rfl,
      List.nodup_cons] at hnd
    have hlow0 : lowerStr w0 = w0 := hlow (w0, c0) (List.mem_cons_self _ _)
    simp only [List.foldl_cons]
    have ht1c := Trie.removeDocumentFromWord_canon t w0 docID hc
    have ht1a := Trie.removeDocumentFromWord_aligned t w0 docID ha
    obtain ⟨hc2, ha2, hv2⟩ := ih (t.removeDocumentFromWord w0 docID).1 docID
      ht1c ht1a hnd.2 (fun q hq => hlow q (List.mem_cons_of_mem _ hq))
    refine ⟨hc2, ha2, ?_⟩
    intro v
    rw [hv2 v]
    by_cases hw : String.mk v = w0
    · have hvpath : v = (lowerStr w0).toList := by
        rw [hlow0]
        exact mk_injective v w0.toList (by rw [mk_toList, hw])
      have hnotrest : String.mk v ∉ keysOf rest := by
        rw [hw]
        exact hnd.1
      have hconsmem : String.mk v ∈ keysOf ((w0, c0) :: rest) := by
        rw [show keysOf ((w0, c0) :: rest) = w0 :: keysOf rest from rfl]
        exact List.mem_cons.mpr (Or.inl hw)
      rw [if_neg hnotrest, if_pos hconsmem]
      rw [hvpath]
      exact Trie.removeDocumentFromWord_viewAt_self t w0 docID
    · have hvne : v ≠ (lowerStr w0).toList := by
        intro hcon
        exact hw (by rw [hcon, mk_toList, hlow0])
      rw [Trie.removeDocumentFromWord_viewAt_ne t w0 docID v hvne]
      rw [show keysOf ((w0, c0) :: rest) = w0 :: keysOf rest from rfl]
      by_cases hmem : String.mk v ∈ keysOf rest
      · rw [if_pos hmem, if_pos (List.mem_cons.mpr (Or.inr hmem))]
      · rw [if_neg hmem, if_neg (by
          intro hcon
          rcases List.mem_cons.mp hcon with h | h
          · exact hw h
          · exact hmem h)]

/- ===== The store invariant holds in every reachable store ===== -/

theorem vec_lower_of_wf (q : String × Nat)
    (h : q.1.toList.all isLowerLetter = true) : lowerStr q.1 = q.1 := by
  have := lowerStr_of_lower q.1.toList h
  rwa [mk_toList] at this

theorem keysOf_ne_nil_of_ne_nil {α β : Type} (l : List (α × β)) (h : l ≠ []) :
    keysOf l ≠ [] := by
  cases l with
  | nil => exact absurd rfl h
  | cons p rest => simp [keysOf]

theorem StoreInv.view_lower {s : DocumentStorage} (inv : StoreInv s) :
    ∀ (v : List Char) (x : String × List String × List (String × Nat)),
    s.trie.root.viewAt v = some x → v.all isLowerLetter = true := by
  intro v x h
  rw [inv.view_eq v, viewShape] at h
  by_cases hp : fwdPostings s.forwardIndex.docIDToDocument (String.mk v) = []
  · rw [if_pos hp] at h
    exact absurd h (by simp)
  · obtain ⟨a, ha⟩ := List.exists_mem_of_ne_nil _ hp
    rw [fwdPostings] at ha
    rcases List.mem_filterMap.mp ha with ⟨p, hpmem, hpf⟩
    rcases Option.map_eq_some'.mp hpf with ⟨cnt, hcnt, _⟩
    have hmem := lookupKV_mem p.2 (String.mk v) cnt hcnt
    have := (inv.vecs_ok p hpmem).2 (String.mk v, cnt) hmem
    rw [toList_mk] at this
    exact this.2.2

theorem StoreInv.fwd_blank {s : DocumentStorage} (inv : StoreInv s) :
    fwdPostings s.forwardIndex.docIDToDocument "" = [] := by
  apply fwdPostings_eq_nil
  intro p hp
  rw [lookupKV_eq_none_iff]
  intro hmem
  rw [keysOf] at hmem
  rcases List.mem_map.mp hmem with ⟨q, hq, hq1⟩
  have := (inv.vecs_ok p hp).2 q hq
  rw [hq1] at this
  simp at this

theorem StoreInv.view_root {s : DocumentStorage} (inv : StoreInv s) :
    s.trie.root.viewAt [] = none := by
  rw [inv.view_eq [], viewShape]
  rw [show String.mk ([] : List Char) = "" from rfl, inv.fwd_blank]
  rw [if_pos rfl]

theorem StoreInv.fi_keys_nodup {s : DocumentStorage} (inv : StoreInv s) :
    (keysOf s.forwardIndex.docIDToDocument).Nodup := by
  rw [← inv.keys_eq]
  exact inv.keys_nodup

theorem storeInv_new : StoreInv DocumentStorage.new := by
  refine ⟨Trie.new_canon, Trie.new_aligned, rfl, List.nodup_nil, rfl, rfl, ?_, ?_⟩
  · intro p hp
    exact absurd hp (List.not_mem_nil p)
  · intro v
    rw [show DocumentStorage.new.trie.root = TrieNode.empty from rfl]
    rw [TrieNode.viewAt_empty, viewShape]
    rw [show fwdPostings DocumentStorage.new.forwardIndex.docIDToDocument
      (String.mk v) = [] from rfl]
    rw [if_pos rfl]

theorem storeInv_addDocument (s : DocumentStorage) (inv : StoreInv s)
    (content docID : String)
    (hfresh : lookupKV s.docIDToDocument docID = none) :
    StoreInv (s.addDocument content docID) := by
  obtain ⟨hwnd, hwents⟩ := tokenize_wf content
  have hfkeys : docID ∉ keysOf s.forwardIndex.docIDToDocument := by
    rw [← inv.keys_eq]
    exact (lookupKV_eq_none_iff _ _).mp hfresh
  have hfreshfi : lookupKV s.forwardIndex.docIDToDocument docID = none :=
    (lookupKV_eq_none_iff _ _).mpr hfkeys
  have hset : setKV s.forwardIndex.docIDToDocument docID (tokenize content) =
      s.forwardIndex.docIDToDocument ++ [(docID, tokenize content)] :=
    setKV_append_fresh _ _ _ hfreshfi
  obtain ⟨hc1, ha1, hview1⟩ := indexWord_fold_view (tokenize content) s.trie docID
    s.forwardIndex.docIDToDocument inv.canon inv.aligned inv.view_eq hwnd
    (fun q hq => vec_lower_of_wf q (hwents q hq).2.2)
    (fun q hq hmem => hfkeys (keysOf_fwdPostings_sub _ _ _ hmem))
  have hfa : (s.addDocument content docID).forwardIndex.docIDToDocument =
      setKV s.forwardIndex.docIDToDocument docID (tokenize content) := rfl
  have hfl : (s.addDocument content docID).forwardIndex.docIDToDocLength =
      setKV s.forwardIndex.docIDToDocLength docID (sumCounts (tokenize content)) := rfl
  have hdd : (s.addDocument content docID).docIDToDocument =
      setKV s.docIDToDocument docID content := rfl
  have htd : (s.addDocument content docID).totalDocuments =
      s.totalDocuments + 1 := rfl
  have htr : (s.addDocument content docID).trie =
      (tokenize content).foldl (fun t p => indexWord t docID p) s.trie := rfl
  refine ⟨hc1, ha1, ?_, ?_, ?_, ?_, ?_, ?_⟩
  · rw [hdd, hfa]
    rw [keysOf_setKV_of_not_mem _ _ _ ((lookupKV_eq_none_iff _ _).mp hfresh)]
    rw [keysOf_setKV_of_not_mem _ _ _ hfkeys, inv.keys_eq]
  · rw [hdd]
    exact keysOf_setKV_nodup _ _ _ inv.keys_nodup
  · rw [hfl, hfa, hset]
    have hlenfresh : lookupKV s.forwardIndex.docIDToDocLength docID = none := by
      rw [inv.lengths_eq, lookupKV_map_snd, hfreshfi]
      rfl
    rw [setKV_append_fresh _ _ _ hlenfresh, inv.lengths_eq, List.map_append]
    rfl
  · rw [htd, hdd]
    rw [setKV_append_fresh _ _ _ hfresh, List.length_append, inv.counter_eq]
    rfl
  · intro p hp
    rw [hfa, hset] at hp
    rcases List.mem_append.mp hp with h | h
    · exact inv.vecs_ok p h
    · simp only [List.mem_singleton] at h
      subst h
      exact ⟨hwnd, hwents⟩
  · intro v
    rw [htr, hfa, hset, hview1 v]

theorem storeInv_removeDocument (s : DocumentStorage) (inv : StoreInv s)
    (docID : String) : StoreInv (s.removeDocument docID).1 := by
  rcases hlook : lookupKV s.docIDToDocument docID with _ | c
  · have hred : s.removeDocument docID = (s, false) := by
      rw [DocumentStorage.removeDocument, hlook]
    rw [hred]
    exact inv
  · have hkc : docID ∈ keysOf s.docIDToDocument := by
      rw [← lookupKV_isSome_iff, hlook]
      rfl
    have hkf : docID ∈ keysOf s.forwardIndex.docIDToDocument := by
      rw [← inv.keys_eq]
      exact hkc
    have hfisome : (lookupKV s.forwardIndex.docIDToDocument docID).isSome = true :=
      (lookupKV_isSome_iff _ _).mpr hkf
    rcases hvec : lookupKV s.forwardIndex.docIDToDocument docID with _ | vec
    · rw [hvec] at hfisome
      exact absurd hfisome (by simp)
    have hred : (s.removeDocument docID).1 =
        ⟨((s.forwardIndex.getDocumentWords docID).foldl
            (fun t p => (t.removeDocumentFromWord p.1 docID).1) s.trie).cleanupEmptyWords,
          (s.forwardIndex.removeDocument docID).1,
          eraseKV s.docIDToDocument docID, s.totalDocuments - 1⟩ := by
      rw [DocumentStorage.removeDocument, hlook]
    have hwc : s.forwardIndex.getDocumentWords docID = vec := by
      rw [ForwardIndex.getDocumentWords, hvec]
      rfl
    have hfired : (s.forwardIndex.removeDocument docID).1 =
        ⟨eraseKV s.forwardIndex.docIDToDocument docID,
          eraseKV s.forwardIndex.docIDToDocLength docID⟩ := by
      rw [ForwardIndex.removeDocument, hvec]
    obtain ⟨hvnd, hvents⟩ := inv.vecs_ok (docID, vec)
      (lookupKV_mem _ _ _ hvec)
    obtain ⟨hc1, ha1, hview1⟩ := removeDocFromWord_fold vec s.trie docID
      inv.canon inv.aligned hvnd (fun q hq => vec_lower_of_wf q (hvents q hq).2.2)
    have hroot1 : (vec.foldl (fun t p => (t.removeDocumentFromWord p.1 docID).1)
        s.trie).root.viewAt [] = none := by
      rw [hview1 []]
      have hnm : String.mk ([] : List Char) ∉ keysOf vec := by
        intro hmem
        rw [keysOf] at hmem
        rcases List.mem_map.mp hmem with ⟨q, hq, hq1⟩
        have := (hvents q hq).2.1
        rw [hq1] at this
        simp at this
      rw [if_neg hnm]
      exact inv.view_root
  -- the remaining obligations after the cleanup pass
    have hlow1 : ∀ (v : List Char) (x : String × List String × List (String × Nat)),
        (vec.foldl (fun t p => (t.removeDocumentFromWord p.1 docID).1)
          s.trie).root.viewAt v = some x → v.all isLowerLetter = true := by
      intro v x h
      rw [hview1 v] at h
      by_cases hm : String.mk v ∈ keysOf vec
      · rw [if_pos hm] at h
        rcases hold : s.trie.root.viewAt v with _ | y
        · rw [hold] at h
          exact absurd h (by simp)
        · exact inv.view_lower v y hold
      · rw [if_neg hm] at h
        exact inv.view_lower v x h
    obtain ⟨hc2, ha2, hcl⟩ := Trie.cleanup_props _ hc1 ha1 hroot1 hlow1
    rw [hred, hwc]
    refine ⟨hc2, ha2, ?_, ?_, ?_, ?_, ?_, ?_⟩
    · show keysOf (eraseKV s.docIDToDocument docID) = _
      rw [hfired]
      show _ = keysOf (eraseKV s.forwardIndex.docIDToDocument docID)
      rw [keysOf_eraseKV, keysOf_eraseKV, inv.keys_eq]
    · rw [show (⟨_, (s.forwardIndex.removeDocument docID).1,
        eraseKV s.docIDToDocument docID, s.totalDocuments - 1⟩ :
        DocumentStorage).docIDToDocument = eraseKV s.docIDToDocument docID from rfl]
      rw [keysOf_eraseKV]
      exact inv.keys_nodup.erase docID
    · rw [hfired]
      show eraseKV s.forwardIndex.docIDToDocLength docID = _
      rw [inv.lengths_eq, eraseKV_map_snd]
    · show s.totalDocuments - 1 = (eraseKV s.docIDToDocument docID).length
      have := length_eraseKV_of_mem s.docIDToDocument docID hkc
      rw [inv.counter_eq]
      omega
    · rw [hfired]
      intro p hp
      exact inv.vecs_ok p (mem_eraseKV _ _ _ hp)
    · intro v
      rw [hfired]
      show (Trie.cleanupEmptyWords _).root.viewAt v =
        viewShape (eraseKV s.forwardIndex.docIDToDocument docID) v
      have hmatch : ∀ (o : Option (String × List String × List (String × Nat))),
          (match o with
            | some x => if x.2.1 = [] then none else some x
            | none => none) =
          o.bind (fun x => if x.2.1 = [] then none else some x) := by
        intro o
        cases o <;> rfl
      rw [hcl v, hmatch, hview1 v]
      have hP' : fwdPostings (eraseKV s.forwardIndex.docIDToDocument docID)
          (String.mk v) =
          eraseKV (fwdPostings s.forwardIndex.docIDToDocument (String.mk v)) docID :=
        fwdPostings_eraseKV _ inv.fi_keys_nodup docID _
      have hlookP : lookupKV (fwdPostings s.forwardIndex.docIDToDocument
          (String.mk v)) docID = lookupKV vec (String.mk v) := by
        rw [lookupKV_fwdPostings _ inv.fi_keys_nodup docID _, hvec]
        rfl
      by_cases hm : String.mk v ∈ keysOf vec
      · rw [if_pos hm]
        have hdocP : docID ∈ keysOf (fwdPostings
            s.forwardIndex.docIDToDocument (String.mk v)) := by
          rw [← lookupKV_isSome_iff, hlookP, lookupKV_isSome_iff]
          exact hm
        have hPne : fwdPostings s.forwardIndex.docIDToDocument (String.mk v) ≠ [] := by
          intro hcon
          rw [hcon] at hdocP
          exact absurd hdocP (List.not_mem_nil docID)
        rw [inv.view_eq v, viewShape, if_neg hPne]
        simp only [Option.map_some', Option.some_bind]
        rw [if_pos hdocP]
        rw [viewShape, hP', ← keysOf_eraseKV]
        by_cases hpe : eraseKV (fwdPostings s.forwardIndex.docIDToDocument
            (String.mk v)) docID = []
        · rw [if_pos (show keysOf (eraseKV (fwdPostings
            s.forwardIndex.docIDToDocument (String.mk v)) docID) = [] by
              rw [hpe]; rfl), if_pos hpe]
        · rw [if_neg (keysOf_ne_nil_of_ne_nil _ hpe), if_neg hpe]
      · rw [if_neg hm]
        have hnotP : docID ∉ keysOf (fwdPostings
            s.forwardIndex.docIDToDocument (String.mk v)) := by
          rw [← lookupKV_isSome_iff, hlookP]
          rw [(lookupKV_eq_none_iff vec (String.mk v)).mpr hm]
          simp
        have hnern : eraseKV (fwdPostings s.forwardIndex.docIDToDocument
            (String.mk v)) docID =
            fwdPostings s.forwardIndex.docIDToDocument (String.mk v) :=
          eraseKV_of_not_mem _ _ hnotP
        rw [inv.view_eq v, viewShape]
        by_cases hpe : fwdPostings s.forwardIndex.docIDToDocument (String.mk v) = []
        · rw [if_pos hpe]
          simp only [Option.none_bind]
          rw [viewShape, hP', hnern, if_pos hpe]
        · rw [if_neg hpe]
          simp only [Option.some_bind]
          rw [if_neg (keysOf_ne_nil_of_ne_nil _ hpe)]
          rw [viewShape, hP', hnern, if_neg hpe]

theorem storeInv_of_reachable (s : DocumentStorage) (h : Reachable s) :
    StoreInv s := by
  induction h with
  | new => exact storeInv_new
  | add ds content docID _ hfresh _ ih =>
    exact storeInv_addDocument ds ih content docID hfresh
  | remove ds docID _ ih => exact storeInv_removeDocument ds ih docID

/-- C2, amended: in every store reachable from `New()` by `AddDocument` and
`RemoveDocument` calls, the content map and the forward index hold exactly the
same document IDs and the live counter equals the content map's size; the
union of the trie's postings, however, equals only the IDs of the documents
whose stored token vector is non-empty — a document whose content yields no
token (no run of at least two letters) sits in the content map and the
forward index but in no trie posting, refuting the claimed three-way
equality. -/
theorem c2_store_consistency_amended (s : DocumentStorage) (h : Reachable s) :
    keysOf s.docIDToDocument = keysOf s.forwardIndex.docIDToDocument ∧
    s.totalDocuments = s.docIDToDocument.length ∧
    ∀ d : String, d ∈ s.trie.allPostingDocs ↔
      ∃ p ∈ s.forwardIndex.docIDToDocument, p.1 = d ∧ p.2 ≠ [] := by
  have inv := storeInv_of_reachable s h
  refine ⟨inv.keys_eq, inv.counter_eq, ?_⟩
  intro d
  rw [Trie.mem_allPostingDocs s.trie inv.canon d]
  constructor
  · rintro ⟨v, x, hview, hd⟩
    rw [inv.view_eq v, viewShape] at hview
    by_cases hpe : fwdPostings s.forwardIndex.docIDToDocument (String.mk v) = []
    · rw [if_pos hpe] at hview
      exact absurd hview (by simp)
    · rw [if_neg hpe] at hview
      injection hview with hx
      rw [← hx] at hd
      rw [← lookupKV_isSome_iff, lookupKV_fwdPostings _ inv.fi_keys_nodup] at hd
      rcases hdocs : lookupKV s.forwardIndex.docIDToDocument d with _ | vec0
      · rw [hdocs] at hd
        exact absurd hd (by simp)
      · rw [hdocs, Option.some_bind] at hd
        refine ⟨(d, vec0), lookupKV_mem _ _ _ hdocs, rfl, ?_⟩
        intro hcon
        have hcon2 : vec0 = [] := hcon
        rw [hcon2] at hd
        rw [show lookupKV ([] : List (String × Nat)) (String.mk v) = none from rfl] at hd
        exact absurd hd (by simp)
  · rintro ⟨p, hp, hpd, hpne⟩
    obtain ⟨d0, vec0⟩ := p
    simp only at hpd
    subst hpd
    cases vec0 with
    | nil => exact absurd rfl hpne
    | cons q rest =>
      have hlook : lookupKV s.forwardIndex.docIDToDocument d0 = some (q :: rest) :=
        lookupKV_of_mem_nodup _ _ _ hp inv.fi_keys_nodup
      have hPd : lookupKV (fwdPostings s.forwardIndex.docIDToDocument q.1) d0 =
          some q.2 := by
        rw [lookupKV_fwdPostings _ inv.fi_keys_nodup, hlook, Option.some_bind,
          lookupKV_cons, if_pos rfl]
      have hPne : fwdPostings s.forwardIndex.docIDToDocument q.1 ≠ [] := by
        intro hcon
        rw [hcon] at hPd
        exact absurd hPd (by simp)
      refine ⟨q.1.toList,
        (q.1, keysOf (fwdPostings s.forwardIndex.docIDToDocument q.1),
          fwdPostings s.forwardIndex.docIDToDocument q.1), ?_, ?_⟩
      · rw [inv.view_eq, viewShape, mk_toList, if_neg hPne]
      · rw [← lookupKV_isSome_iff, hPd]
        rfl

/-- Witness for C2's amended theorem at a concrete reachable store. -/
theorem c2_store_consistency_amended_witness :
    keysOf (DocumentStorage.new.addDocument "hello world" "d1").docIDToDocument =
      keysOf (DocumentStorage.new.addDocument "hello world"
        "d1").forwardIndex.docIDToDocument ∧
    (DocumentStorage.new.addDocument "hello world" "d1").totalDocuments =
      (DocumentStorage.new.addDocument "hello world" "d1").docIDToDocument.length ∧
    ∀ d : String, d ∈ (DocumentStorage.new.addDocument "hello world"
        "d1").trie.allPostingDocs ↔
      ∃ p ∈ (DocumentStorage.new.addDocument "hello world"
        "d1").forwardIndex.docIDToDocument, p.1 = d ∧ p.2 ≠ [] :=
  c2_store_consistency_amended _
    (Reachable.add _ "hello world" "d1" Reachable.new rfl (by decide))

/- ===== Round-tripping: trie rebuild and Search congruence ===== -/

theorem search_congr (s1 s2 : DocumentStorage)
    (hfi : s1.forwardIndex = s2.forwardIndex)
    (hdd : s1.docIDToDocument = s2.docIDToDocument)
    (htd : s1.totalDocuments = s2.totalDocuments)
    (hview : ∀ v, s1.trie.root.viewAt v = s2.trie.root.viewAt v) :
    ∀ (q : String) (k : Int), s1.search q k = s2.search q k := by
  have hdocs : ∀ w, s1.trie.getDocumentsForWord w = s2.trie.getDocumentsForWord w := by
    intro w
    rw [Trie.getDocumentsForWord_eq_viewAt, Trie.getDocumentsForWord_eq_viewAt, hview]
  have hdf : ∀ w, s1.trie.getDocumentFrequency w = s2.trie.getDocumentFrequency w := by
    intro w
    rw [Trie.getDocumentFrequency_eq_viewAt, Trie.getDocumentFrequency_eq_viewAt, hview]
  have htf : ∀ d w, s1.calculateTFIDF d w = s2.calculateTFIDF d w := by
    intro d w
    rw [DocumentStorage.calculateTFIDF, DocumentStorage.calculateTFIDF, hfi, hdf, htd]
  have hscores : ∀ qw, s1.searchDocScores qw = s2.searchDocScores qw := by
    intro qw
    rw [DocumentStorage.searchDocScores, DocumentStorage.searchDocScores]
    congr 1
    funext scores w
    rw [hdocs w]
    congr 1
    funext sc p
    rw [htf p.1 w]
  intro q k
  rw [DocumentStorage.search, DocumentStorage.search]
  by_cases hq : (tokenizeQuery (lowerStr q)).isEmpty
  · simp only [hq, if_true]
  · simp only [hq, Bool.false_eq_true, if_false]
    rw [hscores]
    rw [buildResults, buildResults, hdd]

theorem rebuild_fold (docs : List (String × List (String × Nat))) :
    ∀ (t : Trie) (acc : List (String × List (String × Nat))),
    t.canon = true → t.aligned = true →
    (∀ v, t.root.viewAt v = viewShape acc v) →
    (keysOf (acc ++ docs)).Nodup →
    (∀ p ∈ docs, (keysOf p.2).Nodup ∧ ∀ q ∈ p.2, lowerStr q.1 = q.1) →
    (docs.foldl (fun t p => p.2.foldl (fun t' q => indexWord t' p.1 q) t) t).canon = true ∧
    (docs.foldl (fun t p => p.2.foldl (fun t' q => indexWord t' p.1 q) t) t).aligned = true ∧
    ∀ v, (docs.foldl (fun t p => p.2.foldl (fun t' q => indexWord t' p.1 q) t) t).root.viewAt v =
      viewShape (acc ++ docs) v := by
  induction docs with
  | nil =>
    intro t acc hc ha hview _ _
    simp only [List.foldl_nil]
    refine ⟨hc, ha, ?_⟩
    intro v
    rw [hview v, List.append_nil]
  | cons p rest ih =>
    obtain ⟨pid, pvec⟩ := p
    intro t acc hc ha hview hnd hvecs
    rw [keysOf_append] at hnd
    have hdisj := List.disjoint_of_nodup_append hnd
    have hpid : pid ∉ keysOf acc := by
      intro hmem
      exact List.disjoint_left.mp hdisj hmem
        (show pid ∈ keysOf ((pid, pvec) :: rest) from List.mem_cons_self _ _)
    obtain ⟨hpnd, hplow⟩ := hvecs (pid, pvec) (List.mem_cons_self _ _)
    obtain ⟨hc1, ha1, hv1⟩ := indexWord_fold_view pvec t pid acc hc ha hview
      hpnd hplow (fun q _ hmem => hpid (keysOf_fwdPostings_sub _ _ _ hmem))
    have hnd' : (keysOf ((acc ++ [(pid, pvec)]) ++ rest)).Nodup := by
      rw [List.append_assoc, List.singleton_append, keysOf_append]
      exact hnd
    obtain ⟨hc2, ha2, hv2⟩ := ih ((pvec.foldl (fun t q => indexWord t pid q) t))
      (acc ++ [(pid, pvec)]) hc1 ha1 hv1 hnd'
      (fun p hp => hvecs p (List.mem_cons_of_mem _ hp))
    simp only [List.foldl_cons]
    refine ⟨hc2, ha2, ?_⟩
    intro v
    rw [hv2 v, List.append_assoc, List.singleton_append]

/-- C1: for every store reachable from `New()` by `AddDocument` and
`RemoveDocument` calls, saving and loading (rebuilding via `NewWithData` from
the serialized content map, counter and forward-index snapshot, the trie
replayed from the forward index) yields a store whose `Search` results and
`GetStats` values coincide with the original store on every query. -/
theorem c1_round_trip (s : DocumentStorage) (h : Reachable s) :
    (∀ (q : String) (k : Int), s.reload.search q k = s.search q k) ∧
    s.reload.getStats = s.getStats := by
  have inv := storeInv_of_reachable s h
  have hvnew : ∀ v, Trie.new.root.viewAt v = viewShape [] v := by
    intro v
    rw [show Trie.new.root = TrieNode.empty from rfl, TrieNode.viewAt_empty, viewShape]
    rw [if_pos (show fwdPostings ([] : List (String × List (String × Nat)))
      (String.mk v) = [] from rfl)]
  have hnd0 : (keysOf (([] : List (String × List (String × Nat))) ++
      s.forwardIndex.docIDToDocument)).Nodup := by
    simpa using inv.fi_keys_nodup
  obtain ⟨hc2, ha2, hv2⟩ := rebuild_fold s.forwardIndex.docIDToDocument Trie.new []
    Trie.new_canon Trie.new_aligned hvnew hnd0
    (fun p hp => ⟨(inv.vecs_ok p hp).1,
      fun q hq => vec_lower_of_wf q ((inv.vecs_ok p hp).2 q hq).2.2⟩)
  have hview_eq : ∀ v, s.reload.trie.root.viewAt v = s.trie.root.viewAt v := by
    intro v
    rw [show s.reload.trie = s.forwardIndex.docIDToDocument.foldl
      (fun t p => p.2.foldl (fun t' q => indexWord t' p.1 q) t) Trie.new from rfl]
    rw [hv2 v, List.nil_append, ← inv.view_eq v]
  refine ⟨search_congr s.reload s rfl rfl rfl hview_eq, ?_⟩
  have hrc : s.reload.trie.canon = true := hc2
  have hwords : s.reload.trie.getAllWords.length = s.trie.getAllWords.length := by
    have hperm : s.reload.trie.getAllWords.Perm s.trie.getAllWords := by
      rw [List.perm_ext_iff_of_nodup (Trie.getAllWords_nodup _ hrc)
        (Trie.getAllWords_nodup _ inv.canon)]
      intro a
      rw [Trie.mem_getAllWords _ hrc, Trie.mem_getAllWords _ inv.canon]
      constructor
      · rintro ⟨v, x, hvx, h1, h2⟩
        exact ⟨v, x, by rw [← hview_eq v]; exact hvx, h1, h2⟩
      · rintro ⟨v, x, hvx, h1, h2⟩
        exact ⟨v, x, by rw [hview_eq v]; exact hvx, h1, h2⟩
    exact hperm.length_eq
  rw [DocumentStorage.getStats, DocumentStorage.getStats, hwords]
  rw [show s.reload.docIDToDocument = s.docIDToDocument from rfl,
    show s.reload.totalDocuments = s.totalDocuments from rfl]

/-- Witness for C1 at a concrete reachable store. -/
theorem c1_round_trip_witness :
    (∀ (q : String) (k : Int),
      (DocumentStorage.new.addDocument "hello world" "d1").reload.search q k =
      (DocumentStorage.new.addDocument "hello world" "d1").search q k) ∧
    (DocumentStorage.new.addDocument "hello world" "d1").reload.getStats =
      (DocumentStorage.new.addDocument "hello world" "d1").getStats :=
  c1_round_trip _ (Reachable.add _ "hello world" "d1" Reachable.new rfl (by decide))

/- ===== Single-term scores and TF-IDF monotonicity ===== -/

theorem scoreFold_lookup (f : String → ℝ) (ps : List (String × Nat)) :
    ∀ (sc : List (String × ℝ)), (keysOf ps).Nodup →
    (∀ k, k ∈ keysOf ps → lookupKV sc k = none) →
    ∀ d, lookupKV (ps.foldl (fun sc p =>
      setKV sc p.1 ((lookupKV sc p.1).getD 0 + f p.1)) sc) d =
      if d ∈ keysOf ps then some (f d) else lookupKV sc d := by
  induction ps with
  | nil =>
    intro sc _ _ d
    simp only [List.foldl_nil]
    rw [if_neg (show d ∉ keysOf ([] : List (String × Nat)) from
      fun h => absurd h (List.not_mem_nil d))]
  | cons p rest ih =>
    intro sc hnd hnone d
    rw [show keysOf (p :: rest) = p.1 :: keysOf rest from rfl, List.nodup_cons] at hnd
    simp only [List.foldl_cons]
    have hplook : lookupKV sc p.1 = none := hnone p.1 (by
      rw [show keysOf (p :: rest) = p.1 :: keysOf rest from rfl]
      exact List.mem_cons_self _ _)
    have hnone1 : ∀ k, k ∈ keysOf rest →
        lookupKV (setKV sc p.1 ((lookupKV sc p.1).getD 0 + f p.1)) k = none := by
      intro k hk
      rw [lookupKV_setKV_ne _ _ _ _ (show p.1 ≠ k from fun hc => hnd.1 (hc ▸ hk))]
      exact hnone k (by
        rw [show keysOf (p :: rest) = p.1 :: keysOf rest from rfl]
        exact List.mem_cons_of_mem _ hk)
    rw [ih _ hnd.2 hnone1 d]
    by_cases hd : d ∈ keysOf rest
    · rw [if_pos hd, if_pos (show d ∈ keysOf (p :: rest) from
        List.mem_cons_of_mem _ hd)]
    · rw [if_neg hd]
      by_cases hdp : d = p.1
      · rw [hdp, lookupKV_setKV_self]
        rw [if_pos (show p.1 ∈ keysOf (p :: rest) from List.mem_cons_self _ _)]
        rw [hplook]
        norm_num
      · rw [lookupKV_setKV_ne _ _ _ _ (fun hc => hdp hc.symm)]
        rw [if_neg (show d ∉ keysOf (p :: rest) from by
          intro hc
          rcases List.mem_cons.mp hc with h | h
          · exact hdp h
          · exact hd h)]

theorem singleTermScore_eq (ds : DocumentStorage) (t : String)
    (hnd : (keysOf (ds.trie.getDocumentsForWord t)).Nodup) (d : String) :
    ds.singleTermScore t d =
      if d ∈ keysOf (ds.trie.getDocumentsForWord t) then
        some (ds.calculateTFIDF d t)
      else none := by
  rw [DocumentStorage.singleTermScore, DocumentStorage.searchDocScores]
  simp only [List.foldl_cons, List.foldl_nil]
  exact scoreFold_lookup (fun k => ds.calculateTFIDF k t) _ [] hnd (fun k _ => rfl) d

theorem calculateTFIDF_eval (s : DocumentStorage) (d w : String)
    (hdf : ¬ s.trie.getDocumentFrequency w = 0) :
    s.calculateTFIDF d w = s.forwardIndex.getTF d w *
      (Real.logb 2 ((s.totalDocuments + 1 : ℝ) /
        (s.trie.getDocumentFrequency w + 1 : ℝ)) + 1) := by
  rw [DocumentStorage.calculateTFIDF]
  show (if s.trie.getDocumentFrequency w = 0 then (0 : ℝ)
    else s.forwardIndex.getTF d w * (Real.logb 2 ((s.totalDocuments + 1 : ℝ) /
      (s.trie.getDocumentFrequency w + 1 : ℝ)) + 1)) = _
  rw [if_neg hdf]

theorem getTF_eval (s : DocumentStorage) (d w : String) (cnt : Nat)
    (hwc : s.forwardIndex.getWordCount d w = cnt)
    (hlen : 0 < s.forwardIndex.getDocumentLength d) :
    s.forwardIndex.getTF d w =
      (cnt : ℝ) / (s.forwardIndex.getDocumentLength d : ℝ) := by
  rw [ForwardIndex.getTF]
  show (if 0 < s.forwardIndex.getDocumentLength d then
    (s.forwardIndex.getWordCount d w : ℝ) /
      (s.forwardIndex.getDocumentLength d : ℝ) else 0) = _
  rw [if_pos hlen, hwc]

/-- C8: in every reachable store, for two stored documents with equal total
word count that both contain the query term, the one containing the term
strictly more often gets the strictly greater `Search` score for the
single-term query. -/
theorem c8_tfidf_monotonicity (s : DocumentStorage) (h : Reachable s)
    (dA dB t : String) (vecA vecB : List (String × Nat)) (a b : Nat)
    (hA : lookupKV s.forwardIndex.docIDToDocument dA = some vecA)
    (hB : lookupKV s.forwardIndex.docIDToDocument dB = some vecB)
    (hlen : sumCounts vecA = sumCounts vecB)
    (ha : lookupKV vecA t = some a) (hb : lookupKV vecB t = some b)
    (hab : b < a) :
    ∃ sA sB : ℝ, s.singleTermScore t dA = some sA ∧
      s.singleTermScore t dB = some sB ∧ sB < sA := by
  have inv := storeInv_of_reachable s h
  have hmemA : (dA, vecA) ∈ s.forwardIndex.docIDToDocument := lookupKV_mem _ _ _ hA
  have hmemB : (dB, vecB) ∈ s.forwardIndex.docIDToDocument := lookupKV_mem _ _ _ hB
  have hta : (t, a) ∈ vecA := lookupKV_mem _ _ _ ha
  have htb : (t, b) ∈ vecB := lookupKV_mem _ _ _ hb
  have hlowt : lowerStr t = t :=
    vec_lower_of_wf (t, a) ((inv.vecs_ok _ hmemA).2 (t, a) hta).2.2
  have hPA : lookupKV (fwdPostings s.forwardIndex.docIDToDocument t) dA = some a := by
    rw [lookupKV_fwdPostings _ inv.fi_keys_nodup, hA, Option.some_bind, ha]
  have hPB : lookupKV (fwdPostings s.forwardIndex.docIDToDocument t) dB = some b := by
    rw [lookupKV_fwdPostings _ inv.fi_keys_nodup, hB, Option.some_bind, hb]
  have hPne : fwdPostings s.forwardIndex.docIDToDocument t ≠ [] := by
    intro hcon
    rw [hcon] at hPA
    exact absurd hPA (by simp)
  have hview_t : s.trie.root.viewAt (lowerStr t).toList =
      some (t, keysOf (fwdPostings s.forwardIndex.docIDToDocument t),
        fwdPostings s.forwardIndex.docIDToDocument t) := by
    rw [inv.view_eq, viewShape, hlowt, mk_toList, if_neg hPne]
  have hgdw : s.trie.getDocumentsForWord t =
      fwdPostings s.forwardIndex.docIDToDocument t := by
    rw [Trie.getDocumentsForWord_eq_viewAt, hview_t]
    rfl
  have hdf : s.trie.getDocumentFrequency t =
      (fwdPostings s.forwardIndex.docIDToDocument t).length := by
    rw [Trie.getDocumentFrequency_eq_viewAt, hview_t]
    show (keysOf (fwdPostings s.forwardIndex.docIDToDocument t)).length = _
    rw [keysOf, List.length_map]
  have hdf0 : ¬ s.trie.getDocumentFrequency t = 0 := by
    rw [hdf]
    have := List.length_pos.mpr hPne
    omega
  have hscoreA : s.singleTermScore t dA = some (s.calculateTFIDF dA t) := by
    rw [singleTermScore_eq s t (by
      rw [hgdw]; exact keysOf_fwdPostings_nodup _ _ inv.fi_keys_nodup)]
    rw [if_pos (by rw [hgdw, ← lookupKV_isSome_iff, hPA]; rfl)]
  have hscoreB : s.singleTermScore t dB = some (s.calculateTFIDF dB t) := by
    rw [singleTermScore_eq s t (by
      rw [hgdw]; exact keysOf_fwdPostings_nodup _ _ inv.fi_keys_nodup)]
    rw [if_pos (by rw [hgdw, ← lookupKV_isSome_iff, hPB]; rfl)]
  have hwcA : s.forwardIndex.getWordCount dA t = a := by
    rw [ForwardIndex.getWordCount, hA]
    show (lookupKV vecA (lowerStr t)).getD 0 = a
    rw [hlowt, ha]
    rfl
  have hwcB : s.forwardIndex.getWordCount dB t = b := by
    rw [ForwardIndex.getWordCount, hB]
    show (lookupKV vecB (lowerStr t)).getD 0 = b
    rw [hlowt, hb]
    rfl
  have hdlA : s.forwardIndex.getDocumentLength dA = sumCounts vecA := by
    rw [ForwardIndex.getDocumentLength, inv.lengths_eq, lookupKV_map_snd, hA]
    rfl
  have hdlB : s.forwardIndex.getDocumentLength dB = sumCounts vecB := by
    rw [ForwardIndex.getDocumentLength, inv.lengths_eq, lookupKV_map_snd, hB]
    rfl
  have hapos : 0 < a := ((inv.vecs_ok _ hmemA).2 (t, a) hta).1
  have haleL : a ≤ sumCounts vecA := by
    rw [sumCounts]
    exact List.single_le_sum (fun x _ => Nat.zero_le x) a
      (List.mem_map_of_mem Prod.snd hta)
  have hLpos : 0 < sumCounts vecA := lt_of_lt_of_le hapos haleL
  have htfA : s.forwardIndex.getTF dA t = (a : ℝ) / (sumCounts vecA : ℝ) := by
    rw [getTF_eval s dA t a hwcA (by rw [hdlA]; exact hLpos), hdlA]
  have htfB : s.forwardIndex.getTF dB t = (b : ℝ) / (sumCounts vecA : ℝ) := by
    rw [getTF_eval s dB t b hwcB (by rw [hdlB, ← hlen]; exact hLpos), hdlB, ← hlen]
  have hNdocs : s.totalDocuments = s.forwardIndex.docIDToDocument.length := by
    have h1 : (keysOf s.docIDToDocument).length =
        (keysOf s.forwardIndex.docIDToDocument).length := by rw [inv.keys_eq]
    rw [keysOf, keysOf, List.length_map, List.length_map] at h1
    rw [inv.counter_eq, h1]
  have hdfN : s.trie.getDocumentFrequency t ≤ s.totalDocuments := by
    rw [hdf, hNdocs, fwdPostings]
    exact List.length_filterMap_le _ _
  have hidf : 0 < Real.logb 2 ((s.totalDocuments + 1 : ℝ) /
      (s.trie.getDocumentFrequency t + 1 : ℝ)) + 1 := by
    have hdpos : (0 : ℝ) < (s.trie.getDocumentFrequency t : ℝ) + 1 := by positivity
    have h1 : (1 : ℝ) ≤ ((s.totalDocuments : ℝ) + 1) /
        ((s.trie.getDocumentFrequency t : ℝ) + 1) := by
      rw [one_le_div hdpos]
      have : (s.trie.getDocumentFrequency t : ℝ) ≤ (s.totalDocuments : ℝ) := by
        exact_mod_cast hdfN
      linarith
    have h2 : (0 : ℝ) ≤ Real.logb 2 ((s.totalDocuments + 1 : ℝ) /
        (s.trie.getDocumentFrequency t + 1 : ℝ)) := by
      apply Real.logb_nonneg (by norm_num)
      convert h1 using 2 <;> norm_num
    linarith
  refine ⟨s.calculateTFIDF dA t, s.calculateTFIDF dB t, hscoreA, hscoreB, ?_⟩
  rw [calculateTFIDF_eval s dA t hdf0, calculateTFIDF_eval s dB t hdf0]
  rw [htfA, htfB]
  apply mul_lt_mul_of_pos_right ?_ hidf
  rw [div_eq_mul_inv, div_eq_mul_inv]
  apply mul_lt_mul_of_pos_right
  · exact_mod_cast hab
  · apply inv_pos.mpr
    exact_mod_cast hLpos

/-- Witness for C8 at a concrete reachable two-document store. -/
theorem c8_tfidf_monotonicity_witness :
    ∃ sA sB : ℝ,
      ((DocumentStorage.new.addDocument "aa aa bb" "A").addDocument
        "aa bb bb" "B").singleTermScore "aa" "A" = some sA ∧
      ((DocumentStorage.new.addDocument "aa aa bb" "A").addDocument
        "aa bb bb" "B").singleTermScore "aa" "B" = some sB ∧ sB < sA :=
  c8_tfidf_monotonicity _
    (Reachable.add _ "aa bb bb" "B"
      (Reachable.add _ "aa aa bb" "A" Reachable.new rfl (by decide))
      (by decide) (by decide))
    "A" "B" "aa" [("aa", 2), ("bb", 1)] [("aa", 1), ("bb", 2)] 2 1
    (by decide) (by decide) (by decide) (by decide) (by decide) (by decide)

/- ===== Removal frame effects (C4) ===== -/

theorem singleTermScore_formula (s : DocumentStorage) (inv : StoreInv s)
    (t d : String) (cnt : Nat) (vec : List (String × Nat))
    (hlowt : lowerStr t = t)
    (hd : lookupKV s.forwardIndex.docIDToDocument d = some vec)
    (hcnt : lookupKV vec t = some cnt)
    (hlen : 0 < sumCounts vec) :
    s.singleTermScore t d = some ((cnt : ℝ) / (sumCounts vec : ℝ) *
      (Real.logb 2 ((s.totalDocuments + 1 : ℝ) /
        ((fwdPostings s.forwardIndex.docIDToDocument t).length + 1 : ℝ)) + 1)) := by
  have hP : lookupKV (fwdPostings s.forwardIndex.docIDToDocument t) d = some cnt := by
    rw [lookupKV_fwdPostings _ inv.fi_keys_nodup, hd, Option.some_bind, hcnt]
  have hPne : fwdPostings s.forwardIndex.docIDToDocument t ≠ [] := by
    intro hcon
    rw [hcon] at hP
    exact absurd hP (by simp)
  have hview_t : s.trie.root.viewAt (lowerStr t).toList =
      some (t, keysOf (fwdPostings s.forwardIndex.docIDToDocument t),
        fwdPostings s.forwardIndex.docIDToDocument t) := by
    rw [inv.view_eq, viewShape, hlowt, mk_toList, if_neg hPne]
  have hgdw : s.trie.getDocumentsForWord t =
      fwdPostings s.forwardIndex.docIDToDocument t := by
    rw [Trie.getDocumentsForWord_eq_viewAt, hview_t]
    rfl
  have hdf : s.trie.getDocumentFrequency t =
      (fwdPostings s.forwardIndex.docIDToDocument t).length := by
    rw [Trie.getDocumentFrequency_eq_viewAt, hview_t]
    show (keysOf (fwdPostings s.forwardIndex.docIDToDocument t)).length = _
    rw [keysOf, List.length_map]
  have hdf0 : ¬ s.trie.getDocumentFrequency t = 0 := by
    rw [hdf]
    have := List.length_pos.mpr hPne
    omega
  have hwc : s.forwardIndex.getWordCount d t = cnt := by
    rw [ForwardIndex.getWordCount, hd]
    show (lookupKV vec (lowerStr t)).getD 0 = cnt
    rw [hlowt, hcnt]
    rfl
  have hdl : s.forwardIndex.getDocumentLength d = sumCounts vec := by
    rw [ForwardIndex.getDocumentLength, inv.lengths_eq, lookupKV_map_snd, hd]
    rfl
  have hscore : s.singleTermScore t d = some (s.calculateTFIDF d t) := by
    rw [singleTermScore_eq s t (by
      rw [hgdw]; exact keysOf_fwdPostings_nodup _ _ inv.fi_keys_nodup)]
    rw [if_pos (by rw [hgdw, ← lookupKV_isSome_iff, hP]; rfl)]
  rw [hscore, calculateTFIDF_eval s d t hdf0,
    getTF_eval s d t cnt hwc (by rw [hdl]; exact hlen), hdl, hdf]

/-- C4, counterexample: removing a document that contains no occurrence of
the term still changes another document's score for that term — term
frequency and document frequency are untouched, but the live counter `N`
inside the IDF factor `log2((N+1)/(df+1)) + 1` decrements from 2 to 1,
moving the score from `(1/2)·(log2(3/2)+1)` to `(1/2)·1`. -/
theorem c4_counterexample :
    (((DocumentStorage.new.addDocument "aa bb" "d1").addDocument "zz cc"
      "d2").removeDocument "d1").1.singleTermScore "zz" "d2" ≠
    ((DocumentStorage.new.addDocument "aa bb" "d1").addDocument "zz cc"
      "d2").singleTermScore "zz" "d2" := by
  have hreach : Reachable ((DocumentStorage.new.addDocument "aa bb"
      "d1").addDocument "zz cc" "d2") :=
    Reachable.add _ "zz cc" "d2"
      (Reachable.add _ "aa bb" "d1" Reachable.new rfl (by decide))
      (by decide) (by decide)
  have hreach' := Reachable.remove _ "d1" hreach
  have inv := storeInv_of_reachable _ hreach
  have inv' := storeInv_of_reachable _ hreach'
  have h1 := singleTermScore_formula _ inv "zz" "d2" 1 [("zz", 1), ("cc", 1)]
    (by decide) (by decide) (by decide) (by decide)
  have h2 := singleTermScore_formula _ inv' "zz" "d2" 1 [("zz", 1), ("cc", 1)]
    (by decide) (by decide) (by decide) (by decide)
  rw [show ((DocumentStorage.new.addDocument "aa bb" "d1").addDocument "zz cc"
    "d2").totalDocuments = 2 from rfl] at h1
  rw [show (fwdPostings ((DocumentStorage.new.addDocument "aa bb"
    "d1").addDocument "zz cc" "d2").forwardIndex.docIDToDocument "zz").length = 1
    from by decide] at h1
  rw [show ((((DocumentStorage.new.addDocument "aa bb" "d1").addDocument "zz cc"
    "d2").removeDocument "d1").1).totalDocuments = 1 from by decide] at h2
  rw [show (fwdPostings ((((DocumentStorage.new.addDocument "aa bb"
    "d1").addDocument "zz cc" "d2").removeDocument
    "d1").1).forwardIndex.docIDToDocument "zz").length = 1 from by decide] at h2
  rw [show sumCounts [("zz", 1), ("cc", 1)] = 2 from by decide] at h1 h2
  rw [h1, h2]
  intro heq
  injection heq with he
  have hgt : 0 < Real.logb 2 ((3 : ℝ) / 2) :=
    Real.logb_pos (by norm_num) (by norm_num)
  rw [show ((1 : Nat) : ℝ) = (1 : ℝ) from by norm_num,
    show ((2 : Nat) : ℝ) = (2 : ℝ) from by norm_num] at he
  have he1 : ((1 : ℝ) + 1) / ((1 : ℝ) + 1) = 1 := by norm_num
  have he2 : ((2 : ℝ) + 1) / ((1 : ℝ) + 1) = (3 : ℝ) / 2 := by norm_num
  rw [he1, he2, Real.logb_one] at he
  have : Real.logb 2 ((3 : ℝ) / 2) = 0 := by linarith
  linarith

/-- C4, amended: removing a stored document leaves, for every other document
`d2` and every term `t` that does not occur in the removed document, the term
frequency of `d2`, the document frequency and posting list of `t` unchanged,
and decrements the live counter; removing an unknown ID returns `false` and
leaves the store unchanged.  The `Search` score of `d2` for `t` is however
not always unchanged as claimed, because the IDF factor reads the
decremented counter. -/
theorem c4_removal_frame_amended :
    (∀ (ds : DocumentStorage) (docID : String),
      lookupKV ds.docIDToDocument docID = none →
      ds.removeDocument docID = (ds, false)) ∧
    (∀ (s : DocumentStorage), Reachable s →
      ∀ (d1 d2 t : String) (vec1 : List (String × Nat)),
      lookupKV s.forwardIndex.docIDToDocument d1 = some vec1 →
      d1 ≠ d2 → lookupKV vec1 (lowerStr t) = none →
      ((s.removeDocument d1).1.forwardIndex.getTF d2 t =
        s.forwardIndex.getTF d2 t ∧
       (s.removeDocument d1).1.trie.getDocumentFrequency t =
        s.trie.getDocumentFrequency t ∧
       (s.removeDocument d1).1.trie.getDocumentsForWord t =
        s.trie.getDocumentsForWord t ∧
       (s.removeDocument d1).1.totalDocuments = s.totalDocuments - 1)) := by
  constructor
  · intro ds docID h
    rw [DocumentStorage.removeDocument, h]
  · intro s hre d1 d2 t vec1 hv1 hne ht
    have inv := storeInv_of_reachable s hre
    have inv' := storeInv_of_reachable _ (Reachable.remove s d1 hre)
    have hk1 : d1 ∈ keysOf s.docIDToDocument := by
      rw [inv.keys_eq, ← lookupKV_isSome_iff, hv1]
      rfl
    rcases hlook : lookupKV s.docIDToDocument d1 with _ | c
    · rw [lookupKV_eq_none_iff] at hlook
      exact absurd hk1 hlook
    have hfi' : (s.removeDocument d1).1.forwardIndex =
        (s.forwardIndex.removeDocument d1).1 := by
      rw [DocumentStorage.removeDocument, hlook]
    have htd' : (s.removeDocument d1).1.totalDocuments = s.totalDocuments - 1 := by
      rw [DocumentStorage.removeDocument, hlook]
    have hfired : (s.forwardIndex.removeDocument d1).1 =
        ⟨eraseKV s.forwardIndex.docIDToDocument d1,
          eraseKV s.forwardIndex.docIDToDocLength d1⟩ := by
      rw [ForwardIndex.removeDocument, hv1]
    have hfidocs : (s.removeDocument d1).1.forwardIndex.docIDToDocument =
        eraseKV s.forwardIndex.docIDToDocument d1 := by
      rw [hfi', hfired]
    have hfilens : (s.removeDocument d1).1.forwardIndex.docIDToDocLength =
        eraseKV s.forwardIndex.docIDToDocLength d1 := by
      rw [hfi', hfired]
    have hwcp : (s.removeDocument d1).1.forwardIndex.getWordCount d2 t =
        s.forwardIndex.getWordCount d2 t := by
      rw [ForwardIndex.getWordCount, ForwardIndex.getWordCount, hfidocs,
        lookupKV_eraseKV_ne _ _ _ hne]
    have hdlp : (s.removeDocument d1).1.forwardIndex.getDocumentLength d2 =
        s.forwardIndex.getDocumentLength d2 := by
      rw [ForwardIndex.getDocumentLength, ForwardIndex.getDocumentLength, hfilens,
        lookupKV_eraseKV_ne _ _ _ hne]
    have hvt : (s.removeDocument d1).1.trie.root.viewAt (lowerStr t).toList =
        s.trie.root.viewAt (lowerStr t).toList := by
      rw [inv'.view_eq, inv.view_eq]
      apply viewShape_eq_of_fwd
      rw [hfidocs, fwdPostings_eraseKV _ inv.fi_keys_nodup]
      apply eraseKV_of_not_mem
      intro hmem
      rw [← lookupKV_isSome_iff, lookupKV_fwdPostings _ inv.fi_keys_nodup, hv1,
        Option.some_bind, mk_toList, ht] at hmem
      exact absurd hmem (by simp)
    refine ⟨?_, ?_, ?_, htd'⟩
    · rw [ForwardIndex.getTF, ForwardIndex.getTF, hwcp, hdlp]
    · rw [Trie.getDocumentFrequency_eq_viewAt, Trie.getDocumentFrequency_eq_viewAt,
        hvt]
    · rw [Trie.getDocumentsForWord_eq_viewAt, Trie.getDocumentsForWord_eq_viewAt,
        hvt]

/-- Witness for C4's amended theorem: an unknown-ID removal on the empty
store, and the frame facts on a concrete two-document store for a term
absent from the removed document. -/
theorem c4_removal_frame_amended_witness :
    DocumentStorage.new.removeDocument "nope" = (DocumentStorage.new, false) ∧
    ((((DocumentStorage.new.addDocument "aa bb" "d1").addDocument "zz cc"
      "d2").removeDocument "d1").1.forwardIndex.getTF "d2" "zz" =
      ((DocumentStorage.new.addDocument "aa bb" "d1").addDocument "zz cc"
        "d2").forwardIndex.getTF "d2" "zz") ∧
    ((((DocumentStorage.new.addDocument "aa bb" "d1").addDocument "zz cc"
      "d2").removeDocument "d1").1.trie.getDocumentFrequency "zz" =
      ((DocumentStorage.new.addDocument "aa bb" "d1").addDocument "zz cc"
        "d2").trie.getDocumentFrequency "zz") ∧
    ((((DocumentStorage.new.addDocument "aa bb" "d1").addDocument "zz cc"
      "d2").removeDocument "d1").1.totalDocuments =
      ((DocumentStorage.new.addDocument "aa bb" "d1").addDocument "zz cc"
        "d2").totalDocuments - 1) := by
  have hreach : Reachable ((DocumentStorage.new.addDocument "aa bb"
      "d1").addDocument "zz cc" "d2") :=
    Reachable.add _ "zz cc" "d2"
      (Reachable.add _ "aa bb" "d1" Reachable.new rfl (by decide))
      (by decide) (by decide)
  have h := c4_removal_frame_amended.2 _ hreach "d1" "d2" "zz"
    [("aa", 1), ("bb", 1)] (by decide) (by decide) (by decide)
  exact ⟨c4_removal_frame_amended.1 DocumentStorage.new "nope" rfl,
    h.1, h.2.1, h.2.2.2⟩

end Docusearch
